import Mathlib

/-!
CommandLineParser: the fixed-point option parser of `utilities`.

A shallow embedding of `src/common/utilities/src/CommandLineParser.cpp`.

* `std::string` is `String`; `s[i]` is `charAt s i` (the terminating `'\0'` at `i = size`).
* `std::map<string, T>` is an association list kept in key order (`mapFind`, `mapInsert`);
  `m[k]` on a missing key inserts a default-constructed value, as `operator[]` does.
* `std::set<string>` is a strictly sorted list (`setInsert`, `setErase`).
* A `std::function<bool(string)>` stored in an `OptionInfo` is a `CallbackId`; a `Callbacks`
  environment says what each identifier does when invoked.  A set-value callback is a
  predicate on the candidate text.  A did-set callback returns its `bool` together with the
  `OptionInfo`s it passes to `AddOption` on the parser while it runs.
* `cerr` output and callback invocations are recorded in the ghost field `trace`.
* The `while (needs_reparse)` loop has no bound in the source, so `parseLoop` takes fuel and
  answers `none` when the fuel runs out before a pass reports `needs_reparse = false`.
-/

namespace utilities

/-! ## Strings, maps and sets -/

/-- The character `s[i]` of a `std::string`: the stored character or `'\0'` at the end. -/
def charAt (s : String) (i : Nat) : Char :=
  (s.data.get? i).getD (Char.ofNat 0)

/-- The string `string(s.begin() + n, s.end())`. -/
def dropChars (s : String) (n : Nat) : String :=
  String.mk (s.data.drop n)

/-- Lexicographic order on character sequences, the order of `std::less<string>`. -/
def charsLt : List Char → List Char → Bool
  | [], [] => false
  | [], _ :: _ => true
  | _ :: _, [] => false
  | a :: as, b :: bs =>
    if a.toNat < b.toNat then true
    else if b.toNat < a.toNat then false
    else charsLt as bs

/-- Key order of `std::map<string, _>` and `std::set<string>`. -/
def strLt (a b : String) : Bool :=
  charsLt a.data b.data

/-- The lookup `m.find(k)`: the mapped value, or `none` for `m.end()`. -/
def mapFind {α : Type} (k : String) : List (String × α) → Option α
  | [] => none
  | (k1, v1) :: rest => if k = k1 then some v1 else mapFind k rest

/-- The assignment `m[k] = v`: replaces the value under `k` or inserts it in key order. -/
def mapInsert {α : Type} (k : String) (v : α) : List (String × α) → List (String × α)
  | [] => [(k, v)]
  | (k1, v1) :: rest =>
    if strLt k k1 then (k, v) :: (k1, v1) :: rest
    else if k = k1 then (k, v) :: rest
    else (k1, v1) :: mapInsert k v rest

/-- The call `s.insert(k)` on a `std::set<string>`. -/
def setInsert (k : String) : List String → List String
  | [] => [k]
  | k1 :: rest =>
    if strLt k k1 then k :: k1 :: rest
    else if k = k1 then k1 :: rest
    else k1 :: setInsert k rest

/-- The call `s.erase(k)` on a `std::set<string>`. -/
def setErase (k : String) : List String → List String
  | [] => []
  | k1 :: rest => if k = k1 then setErase k rest else k1 :: setErase k rest

/-! ## Data model -/

/-- Identifier standing for one `std::function<bool(string)>` object. -/
abbrev CallbackId := Nat

/-- The record `OptionInfo`, with the members the source file reads and writes.  All members
are default-constructed empty. -/
structure OptionInfo where
  name : String := ""
  short_name : String := ""
  description : String := ""
  default_value_string : String := ""
  current_value_string : String := ""
  enum_values : List String := []
  set_value_callbacks : List CallbackId := []
  did_set_value_callbacks : List CallbackId := []
deriving DecidableEq, Inhabited

/-- The constructor `OptionInfo::OptionInfo(name, short_name, description, default_value,
set_value_callback)`: the current value stays empty and the one callback is the validator. -/
def OptionInfo.ctor (name short_name description default_value : String)
    (set_value_callback : CallbackId) : OptionInfo :=
  { name := name, short_name := short_name, description := description,
    default_value_string := default_value, set_value_callbacks := [set_value_callback] }

/-- Meaning of the callback objects. -/
structure Callbacks where
  set_value_cb : CallbackId → String → Bool
  did_set_value_cb : CallbackId → String → List OptionInfo × Bool

/-- The two kinds of `DocumentationEntry`. -/
inductive DocumentationEntryType where
  | option
  | str
deriving DecidableEq, Inhabited

/-- One entry of `_doc_entries`. -/
structure DocumentationEntry where
  EntryType : DocumentationEntryType
  EntryString : String
deriving DecidableEq, Inhabited

/-- Observable events of a run, in the order they happen. -/
inductive Event where
  | unknown_option (arg : String)
  | set_option (option_name option_val : String)
  | set_value_cb (option_name : String) (cb : CallbackId) (option_val : String) (result : Bool)
  | did_set_value_cb (option_name : String) (cb : CallbackId) (value : String) (result : Bool)
deriving DecidableEq, Inhabited

/-- The members of `CommandLineParser`, and the ghost `trace`. -/
structure CommandLineParser where
  _original_args : List String := []
  _exe_name : String := ""
  _args : List String := []
  _options : List (String × OptionInfo) := []
  _short_to_long_name_map : List (String × String) := []
  _doc_entries : List DocumentationEntry := []
  trace : List Event := []
deriving DecidableEq, Inhabited

namespace CommandLineParser

/-- Appends an event to the ghost trace. -/
def emit (e : Event) (p : CommandLineParser) : CommandLineParser :=
  { p with trace := p.trace ++ [e] }

/-- The value read by `_options[name]`. -/
def optionAt (name : String) (p : CommandLineParser) : OptionInfo :=
  (mapFind name p._options).getD {}

/-- A write through `_options[name]`: the entry is created empty when missing. -/
def modifyOption (name : String) (f : OptionInfo → OptionInfo) (p : CommandLineParser) :
    CommandLineParser :=
  { p with _options := mapInsert name (f (p.optionAt name)) p._options }

/-- The constructor `CommandLineParser(argc, argv)` followed by nothing else. -/
def SetArgs (argv : List String) (p : CommandLineParser) : CommandLineParser :=
  { p with _original_args := p._original_args ++ argv }

/-- The method `NumArgs`. -/
def NumArgs (p : CommandLineParser) : Nat :=
  p._args.length

/-- The method `HasOption`. -/
def HasOption (option : String) (p : CommandLineParser) : Bool :=
  (mapFind option p._options).isSome

/-- The method `AddOption(const OptionInfo&)`. -/
def AddOption (info : OptionInfo) (p : CommandLineParser) : CommandLineParser :=
  let p1 : CommandLineParser :=
    { p with
      _options := mapInsert info.name info p._options
      _doc_entries := p._doc_entries ++ [⟨DocumentationEntryType.option, info.name⟩] }
  if info.short_name ≠ "" then
    { p1 with
      _short_to_long_name_map := mapInsert info.short_name info.name p1._short_to_long_name_map }
  else p1

/-- The method `AddDocumentationString`. -/
def AddDocumentationString (str : String) (p : CommandLineParser) : CommandLineParser :=
  { p with _doc_entries := p._doc_entries ++ [⟨DocumentationEntryType.str, str⟩] }

/-- The loop over `set_value_callbacks` in `SetOption`: `ok = ok && set_value_cb(option_val)`,
so a callback is invoked only while `ok` is still true. -/
def run_set_value_callbacks (cbs : Callbacks) (option_name option_val : String) :
    List CallbackId → CommandLineParser → Bool → CommandLineParser × Bool
  | [], p, ok => (p, ok)
  | cb :: rest, p, ok =>
    if ok then
      run_set_value_callbacks cbs option_name option_val rest
        (p.emit (Event.set_value_cb option_name cb option_val (cbs.set_value_cb cb option_val)))
        (cbs.set_value_cb cb option_val)
    else
      run_set_value_callbacks cbs option_name option_val rest p false

/-- The `AddOption` calls a did-set callback makes while it runs, in order. -/
def AddOptions (infos : List OptionInfo) (p : CommandLineParser) : CommandLineParser :=
  infos.foldl (fun q info => q.AddOption info) p

/-- The `while (iter != end)` loop of `SetOption` over `did_set_value_callbacks`.  `todo` is
what lies from `iter` to the end and `pos` is the position of `iter` in the list.  A callback
is called with the live `_options[option_name].current_value_string`; while it runs it calls
`AddOption` on what it registers; when it returns true it is erased at `iter`.  (A callback
that registers `option_name` itself replaces the list under the iterator, which the source
leaves undefined; the theorems that need it exclude that case.) -/
def run_did_set_value_callbacks (cbs : Callbacks) (option_name : String) :
    List CallbackId → Nat → CommandLineParser → Bool → CommandLineParser × Bool
  | [], _, p, did_enable_more_params => (p, did_enable_more_params)
  | cb :: rest, pos, p, did_enable_more_params =>
    let value := (p.optionAt option_name).current_value_string
    let out := cbs.did_set_value_cb cb value
    let p1 := (p.emit (Event.did_set_value_cb option_name cb value out.2)).AddOptions out.1
    if out.2 then
      run_did_set_value_callbacks cbs option_name rest pos
        (p1.modifyOption option_name (fun o =>
          { o with did_set_value_callbacks := o.did_set_value_callbacks.eraseIdx pos }))
        true
    else
      run_did_set_value_callbacks cbs option_name rest (pos + 1) p1 did_enable_more_params

/-- The method `SetOption(option_name, option_val)`; the result is the new parser and the
returned `did_enable_more_params`. -/
def SetOption (cbs : Callbacks) (option_name option_val : String) (p : CommandLineParser) :
    CommandLineParser × Bool :=
  let p0 := p.emit (Event.set_option option_name option_val)
  let old_value_string := (p0.optionAt option_name).current_value_string
  let p1 := p0.modifyOption option_name (fun o => { o with current_value_string := option_val })
  let r := run_set_value_callbacks cbs option_name option_val
    (p1.optionAt option_name).set_value_callbacks p1 true
  if r.2 then
    run_did_set_value_callbacks cbs option_name
      (r.1.optionAt option_name).did_set_value_callbacks 0 r.1 false
  else
    (r.1.modifyOption option_name (fun o => { o with current_value_string := old_value_string }),
      false)

/-- The loop of `SetDefaultArgs`, with `needs_reparse` as accumulator. -/
def SetDefaultArgsLoop (cbs : Callbacks) :
    List String → CommandLineParser → Bool → CommandLineParser × Bool
  | [], p, needs_reparse => (p, needs_reparse)
  | arg_name :: rest, p, needs_reparse =>
    match mapFind arg_name p._options with
    | some arg_info =>
      let r := SetOption cbs arg_name arg_info.default_value_string p
      SetDefaultArgsLoop cbs rest r.1 (r.2 || needs_reparse)
    | none => SetDefaultArgsLoop cbs rest p needs_reparse

/-- The method `SetDefaultArgs(unset_args)`. -/
def SetDefaultArgs (cbs : Callbacks) (unset_args : List String) (p : CommandLineParser) :
    CommandLineParser × Bool :=
  SetDefaultArgsLoop cbs unset_args p false

/-- The locals of one iteration of the `while (needs_reparse)` loop of `ParseArgs`. -/
structure PassState where
  parser : CommandLineParser
  unset_args : List String
  needs_reparse : Bool
deriving DecidableEq, Inhabited

/-- The read `_short_to_long_name_map[short_name]`: a missing key is inserted with the empty
string and the empty string is returned. -/
def shortToLong (short_name : String) (p : CommandLineParser) : String × CommandLineParser :=
  match mapFind short_name p._short_to_long_name_map with
  | some long_name => (long_name, p)
  | none =>
    ("", { p with
      _short_to_long_name_map := mapInsert short_name "" p._short_to_long_name_map })

/-- The name `option` computed for a token that starts with `-` (source lines 72 to 81), and
the parser after the alias lookup. -/
def resolveOption (arg : String) (p : CommandLineParser) : String × CommandLineParser :=
  if charAt arg 1 = '-' then (dropChars arg 2, p)
  else shortToLong (dropChars arg 1) p

/-- Whether `index < argc - 1 && _original_args[index + 1][0] != '-'` holds, `next` being the
token at `index + 1` when there is one. -/
def nextIsValue (next : Option String) : Bool :=
  match next with
  | some val => charAt val 0 != '-'
  | none => false

/-- The body of the `for` loop of `ParseArgs` for the token `arg` at `index`, where `next` is
the token at `index + 1` if `index < argc - 1`.  The Boolean result says whether the body
executed `index++`, that is, whether the next token is stepped over. -/
def scanStep (cbs : Callbacks) (arg : String) (next : Option String) (st : PassState) :
    PassState × Bool :=
  if charAt arg 0 = '-' then
    let r := resolveOption arg st.parser
    let option := r.1
    if option = "" then
      if arg ≠ "--" then
        ({ st with parser := r.2.emit (Event.unknown_option arg) }, nextIsValue next)
      else
        ({ st with parser := r.2 }, false)
    else
      let unset_args := setErase option st.unset_args
      match next with
      | some val =>
        if charAt val 0 = '-' then
          let s := SetOption cbs option "true" r.2
          (⟨s.1, unset_args, s.2 || st.needs_reparse⟩, false)
        else
          let s := SetOption cbs option val r.2
          (⟨s.1, unset_args, s.2 || st.needs_reparse⟩, true)
      | none =>
        let s := SetOption cbs option "true" r.2
        (⟨s.1, unset_args, s.2 || st.needs_reparse⟩, false)
  else
    ({ st with parser := { st.parser with _args := st.parser._args ++ [arg] } }, false)

/-- The `for (index = 1; index < argc; index++)` loop of `ParseArgs` over the tokens from
`index` on; `skip` is true when the previous body executed `index++`. -/
def scanArgs (cbs : Callbacks) : List String → Bool → PassState → PassState
  | [], _, st => st
  | _ :: rest, true, st => scanArgs cbs rest false st
  | arg :: rest, false, st =>
    let r := scanStep cbs arg rest.head? st
    scanArgs cbs rest r.2 r.1

/-- The set `unset_args` at the start of a pass: every key of `_options`. -/
def initialUnsetArgs (p : CommandLineParser) : List String :=
  p._options.foldl (fun s opt => setInsert opt.1 s) []

/-- The scan of one pass: the state after the `for` loop. -/
def scanPass (cbs : Callbacks) (p : CommandLineParser) : PassState :=
  scanArgs cbs (p._original_args.drop 1) false ⟨p, initialUnsetArgs p, false⟩

/-- One iteration of the `while (needs_reparse)` loop: the parser after it and the new value
of `needs_reparse`. -/
def parsePass (cbs : Callbacks) (p : CommandLineParser) : CommandLineParser × Bool :=
  let st := scanPass cbs p
  let d := SetDefaultArgs cbs st.unset_args st.parser
  (d.1, d.2 || st.needs_reparse)

/-- The `while (needs_reparse)` loop, at most `fuel` passes: the final parser and the number
of passes made, or `none` when `needs_reparse` is still true after `fuel` passes. -/
def parseLoop (cbs : Callbacks) : Nat → CommandLineParser → Option (CommandLineParser × Nat)
  | 0, _ => none
  | fuel + 1, p =>
    let r := parsePass cbs p
    if r.2 then (parseLoop cbs fuel r.1).map (fun q => (q.1, q.2 + 1))
    else some (r.1, 1)

/-- The text of `exe_path` after its last slash or backslash, all of it when it has neither. -/
def exeNameOf (exe_path : String) : String :=
  String.mk ((exe_path.data.reverse.takeWhile (fun c => c != '/' && c != '\\')).reverse)

/-- The method `ParseArgs`, run with at most `fuel` passes. -/
def ParseArgs (cbs : Callbacks) (fuel : Nat) (p : CommandLineParser) :
    Option CommandLineParser :=
  match p._original_args with
  | [] => some p
  | exe_path :: _ =>
    (parseLoop cbs fuel { p with _exe_name := exeNameOf exe_path }).map (fun q => q.1)

/-- Whether the event is an invocation of a did-set callback. -/
def isDidSet : Event → Bool
  | Event.did_set_value_cb _ _ _ _ => true
  | _ => false

/-- Whether the event is the message `Error: unknown option`. -/
def isUnknownOption : Event → Bool
  | Event.unknown_option _ => true
  | _ => false

/-- Whether the event is a call of `SetOption`. -/
def isSetOption : Event → Bool
  | Event.set_option _ _ => true
  | _ => false

/-- Whether the event is a call of `SetOption` on the option `name`. -/
def isSetOptionOf (name : String) : Event → Bool
  | Event.set_option n _ => n == name
  | _ => false

/-- The callbacks never pass an option called `name` to `AddOption`. -/
def neverRegisters (cbs : Callbacks) (name : String) : Prop :=
  ∀ cb value info, info ∈ (cbs.did_set_value_cb cb value).1 → info.name ≠ name

/-- What a call of `SetOption` on the option `n`, and each part of it, leaves in place: the
positional arguments, the raw arguments, the registered names, every other option the
callbacks do not register, and the default of every option the callbacks do not register. -/
structure Keeps (cbs : Callbacks) (n : String) (p q : CommandLineParser) : Prop where
  args : q._args = p._args
  original_args : q._original_args = p._original_args
  registered : ∀ m, (mapFind m p._options).isSome → (mapFind m q._options).isSome
  others : ∀ m, m ≠ n → neverRegisters cbs m → mapFind m q._options = mapFind m p._options
  defaults : ∀ m, neverRegisters cbs m → (mapFind m p._options).isSome →
    (q.optionAt m).default_value_string = (p.optionAt m).default_value_string

/-! ## Scenarios -/

/-- Callbacks of the `mode`/`level` scenario: every validator accepts; did-set callback `1`,
when the committed value is `advanced`, registers `level` (default `1`, validator `0`, no
did-set callbacks) and returns true, and otherwise registers nothing and returns false. -/
def modeLevelCallbacks : Callbacks where
  set_value_cb := fun _ _ => true
  did_set_value_cb := fun cb value =>
    if cb = 1 ∧ value = "advanced" then ([OptionInfo.ctor "level" "" "" "1" 0], true)
    else ([], false)

/-- The option `mode`: validator `0` and the one did-set callback `1`. -/
def modeOption : OptionInfo :=
  { OptionInfo.ctor "mode" "" "" "" 0 with did_set_value_callbacks := [1] }

/-- A parser constructed on `argv` in which only `mode` has been registered. -/
def modeLevelParser (argv : List String) : CommandLineParser :=
  AddOption modeOption (SetArgs argv {})

/-- Whether the text is a non-empty run of decimal digits. -/
def isNumeric (s : String) : Bool :=
  !s.data.isEmpty && s.data.all Char.isDigit

/-- Callbacks of the `port` scenario: the validator accepts numeric text only, and the
did-set callback registers nothing and returns true. -/
def portCallbacks : Callbacks where
  set_value_cb := fun _ value => isNumeric value
  did_set_value_cb := fun _ _ => ([], true)

/-- The option `port`: default `8080`, validator `0` and the one did-set callback `1`. -/
def portOption : OptionInfo :=
  { OptionInfo.ctor "port" "" "" "8080" 0 with did_set_value_callbacks := [1] }

/-- A parser constructed on `argv` in which only `port` has been registered. -/
def portParser (argv : List String) : CommandLineParser :=
  AddOption portOption (SetArgs argv {})

/-- Callbacks that accept every value and whose did-set callbacks register nothing and
return true. -/
def eagerCallbacks : Callbacks where
  set_value_cb := fun _ _ => true
  did_set_value_cb := fun _ _ => ([], true)

/-- Callbacks that accept every value and whose did-set callbacks register nothing and
return false. -/
def quietCallbacks : Callbacks where
  set_value_cb := fun _ _ => true
  did_set_value_cb := fun _ _ => ([], false)

/-- The option `foo`: no alias, empty default, validator `0`, no did-set callback. -/
def fooOption : OptionInfo :=
  OptionInfo.ctor "foo" "" "" "" 0

/-- The option `gate`: empty default, validator `0` and the one did-set callback `1`. -/
def gateOption : OptionInfo :=
  { OptionInfo.ctor "gate" "" "" "" 0 with did_set_value_callbacks := [1] }

/-- A parser constructed on `argv` in which `foo` and then `gate` have been registered. -/
def fooGateParser (argv : List String) : CommandLineParser :=
  AddOption gateOption (AddOption fooOption (SetArgs argv {}))

/-! ## Reading the tokens alone -/

/-- The tokens one scan appends to `_args`, read off the raw tokens from `index` on; `skip`
as in `scanArgs`.  A token is stepped over when it follows a token that starts with `-`, is
not the bare `--`, and does not itself start with `-`. -/
def positionalsFrom : List String → Bool → List String
  | [], _ => []
  | _ :: rest, true => positionalsFrom rest false
  | arg :: rest, false =>
    if charAt arg 0 = '-' then positionalsFrom rest (arg != "--" && nextIsValue rest.head?)
    else arg :: positionalsFrom rest false

/-- The list `l` repeated `k` times. -/
def repeatList (l : List String) : Nat → List String
  | 0 => []
  | k + 1 => l ++ repeatList l k

/-- What a stretch of the scan that emits the events `evs` does to the pass state, apart
from the positional arguments: the trace grows by `evs`, a name leaves `unset_args` exactly
when `SetOption` was called on it, registered names stay registered, and an option that the
callbacks do not register keeps its entry unless `SetOption` was called on it, and keeps its
default in any case. -/
structure ScanKeeps (cbs : Callbacks) (st st1 : PassState) (evs : List Event) : Prop where
  trace : st1.parser.trace = st.parser.trace ++ evs
  unset : st1.unset_args = st.unset_args.filter (fun n => !(evs.any (isSetOptionOf n)))
  original_args : st1.parser._original_args = st.parser._original_args
  registered : ∀ m, (mapFind m st.parser._options).isSome →
    (mapFind m st1.parser._options).isSome
  others : ∀ m, neverRegisters cbs m → evs.any (isSetOptionOf m) = false →
    mapFind m st1.parser._options = mapFind m st.parser._options
  defaults : ∀ m, neverRegisters cbs m → (mapFind m st.parser._options).isSome →
    (st1.parser.optionAt m).default_value_string = (st.parser.optionAt m).default_value_string

/-- Whether the event is an invocation of a set-value callback. -/
def isSetValue : Event → Bool
  | Event.set_value_cb _ _ _ _ => true
  | _ => false

/-- The callbacks of a validator list that a commit of `value` invokes: those up to and
including the first that rejects `value`. -/
def invokedValidators (cbs : Callbacks) (value : String) : List CallbackId → List CallbackId
  | [] => []
  | cb :: rest =>
    if cbs.set_value_cb cb value then cb :: invokedValidators cbs value rest else [cb]

/-- The option `pair`: two validators, `0` and then `1`. -/
def pairOption : OptionInfo :=
  { OptionInfo.ctor "pair" "" "" "" 0 with set_value_callbacks := [0, 1] }

/-- The events of the validator invocations a commit of `value` to `option_name` makes on the
validator list `l`. -/
def validatorEvents (cbs : Callbacks) (option_name value : String) (l : List CallbackId) :
    List Event :=
  (invokedValidators cbs value l).map
    (fun cb => Event.set_value_cb option_name cb value (cbs.set_value_cb cb value))

/-- Whether a token becomes a positional argument, given the token before it among the
scanned ones (`none` for the token at index 1): it does not start with `-`, and the token
before it, if any, does not start with `-` or is the bare `--`. -/
def isPositionalAfter (prev : Option String) (t : String) : Bool :=
  charAt t 0 != '-' &&
    (match prev with
     | none => true
     | some q => charAt q 0 != '-' || q == "--")

/-- The tokens of `toks` that `isPositionalAfter` selects, in order; `prev` is the token
before the first one. -/
def positionalsAfter (prev : Option String) : List String → List String
  | [] => []
  | t :: rest =>
    if isPositionalAfter prev t then t :: positionalsAfter (some t) rest
    else positionalsAfter (some t) rest

/-- The rule of the specification for the raw token at index `i`: it is collected when
`i >= 1`, it does not start with `-`, and `i = 1` or the token at `i - 1` does not start with
`-` or is exactly `--`. -/
def positionalRule (args : List String) (i : Nat) : Bool :=
  decide (1 ≤ i) && charAt (args.getD i "") 0 != '-' &&
    (i == 1 || charAt (args.getD (i - 1) "") 0 != '-' || args.getD (i - 1) "" == "--")

/-- The positional arguments of one pass as the specification words them: the raw tokens
whose index satisfies `positionalRule`, in input order. -/
def positionalsByRule (args : List String) : List String :=
  ((List.range args.length).filter (positionalRule args)).map (fun i => args.getD i "")

/-- The parser after `k` iterations of the `while (needs_reparse)` loop, run without looking
at `needs_reparse`. -/
def runPasses (cbs : Callbacks) : Nat → CommandLineParser → CommandLineParser
  | 0, p => p
  | k + 1, p => runPasses cbs k (parsePass cbs p).1

/-- The option `A` of the ping-pong scenario: validator `0` and the did-set callback `1`. -/
def pingOption : OptionInfo :=
  { OptionInfo.ctor "A" "" "" "" 0 with did_set_value_callbacks := [1] }

/-- The option `B` of the ping-pong scenario: validator `0` and the did-set callback `2`. -/
def pongOption : OptionInfo :=
  { OptionInfo.ctor "B" "" "" "" 0 with did_set_value_callbacks := [2] }

/-- Callbacks of the ping-pong scenario: every validator accepts; did-set callback `1`
registers `B` and returns true; did-set callback `2` registers `A` and returns true. -/
def pingPongCallbacks : Callbacks where
  set_value_cb := fun _ _ => true
  did_set_value_cb := fun cb _ =>
    if cb = 1 then ([pongOption], true)
    else if cb = 2 then ([pingOption], true)
    else ([], false)

/-- A parser constructed on the single token `prog` in which only `A` has been registered. -/
def pingPongParser : CommandLineParser :=
  AddOption pingOption (SetArgs ["prog"] {})

/-- The registry the ping-pong scenario comes back to after every pass from the second on:
`A` holds its did-set callback and `B` has spent its own. -/
def pingPongSteady : CommandLineParser :=
  { _original_args := ["prog"]
    _options := [("A", pingOption), ("B", { pongOption with did_set_value_callbacks := [] })] }

/-- The parser `p` seen from an earlier history: other raw arguments and program name in
place of its own, and its positional arguments, documentation entries and trace placed after
`args`, `docs` and `events`.  The registry and the alias table are those of `p`. -/
def rebase (original_args : List String) (exe_name : String) (args : List String)
    (docs : List DocumentationEntry) (events : List Event) (p : CommandLineParser) :
    CommandLineParser :=
  { p with
    _original_args := original_args
    _exe_name := exe_name
    _args := args ++ p._args
    _doc_entries := docs ++ p._doc_entries
    trace := events ++ p.trace }

/-- The pass state `st` with its parser rebased. -/
def rebaseState (original_args : List String) (exe_name : String) (args : List String)
    (docs : List DocumentationEntry) (events : List Event) (st : PassState) : PassState :=
  { st with parser := rebase original_args exe_name args docs events st.parser }

/-- Callbacks that accept every value and whose did-set callbacks register `nope` (default
`d`, validator `0`) and return true. -/
def revealNopeCallbacks : Callbacks where
  set_value_cb := fun _ _ => true
  did_set_value_cb := fun _ _ => ([OptionInfo.ctor "nope" "" "" "d" 0], true)

/-! ## Usage text -/

/-- The modulus of `size_t` arithmetic. -/
def sizeModulus : Nat := 18446744073709551616

/-- The sum `a + b` in `size_t`. -/
def sizeAdd (a b : Nat) : Nat :=
  (a + b) % sizeModulus

/-- The difference `a - b` in `size_t`: it wraps around below zero. -/
def sizeSub (a b : Nat) : Nat :=
  (a % sizeModulus + (sizeModulus - b % sizeModulus)) % sizeModulus

/-- The function `option_name_string`. -/
def option_name_string (option : OptionInfo) : String :=
  if option.short_name = "" then
    option.name ++ " [" ++ option.default_value_string ++ "]"
  else
    option.name ++ " (-" ++ option.short_name ++ ") [" ++ option.default_value_string ++ "]"

/-- The function `option_name_help_length`; `size()` counts bytes, and the result is capped
by `max_name_len = 32`. -/
def option_name_help_length (option : OptionInfo) : Nat :=
  let len := sizeAdd option.name.utf8ByteSize 2
  let len1 := if option.short_name ≠ "" then sizeAdd len (sizeAdd option.short_name.utf8ByteSize 4)
    else len
  let len2 := sizeAdd len1 (sizeAdd option.default_value_string.utf8ByteSize 3)
  min 32 len2

/-- The value `longest_name` that `PrintUsage` computes over `_options`: only entries whose
key is their stored name count. -/
def longestName (p : CommandLineParser) : Nat :=
  p._options.foldl
    (fun longest_name iter =>
      if iter.1 = iter.2.name then max longest_name (option_name_help_length iter.2)
      else longest_name)
    0

/-- The value `pad_len = 2 + (longest_name - this_option_name_len)` of `PrintUsage`. -/
def padLen (longest_name this_option_name_len : Nat) : Nat :=
  sizeAdd 2 (sizeSub longest_name this_option_name_len)

/-- The text `PrintUsage` writes for `enum_values`. -/
def enumText (info : OptionInfo) : String :=
  match info.enum_values with
  | [] => ""
  | first :: others =>
    "  \x7b" ++ first ++ others.foldl (fun s v => s ++ " | " ++ v) "" ++ "\x7d"

/-- The read `_options[name]` as `PrintUsage` makes it: a missing key is inserted with a
default-constructed entry. -/
def touchOption (name : String) (p : CommandLineParser) : CommandLineParser :=
  if (mapFind name p._options).isSome then p
  else { p with _options := mapInsert name {} p._options }

/-- The line `PrintUsage` writes for one documentation entry, given `longest_name`, and the
parser after the lookup. -/
def printEntry (longest_name : Nat) (entry : DocumentationEntry) (p : CommandLineParser) :
    String × CommandLineParser :=
  match entry.EntryType with
  | DocumentationEntryType.option =>
    let info := p.optionAt entry.EntryString
    ("\t--" ++ option_name_string info ++
        String.mk (List.replicate (padLen longest_name (option_name_help_length info)) ' ') ++
        info.description ++ enumText info,
      touchOption entry.EntryString p)
  | DocumentationEntryType.str => (entry.EntryString, p)

/-- The loop of `PrintUsage` over `_doc_entries`. -/
def printEntries (longest_name : Nat) :
    List DocumentationEntry → CommandLineParser → List String × CommandLineParser
  | [], p => ([], p)
  | entry :: rest, p =>
    let r := printEntry longest_name entry p
    let s := printEntries longest_name rest r.2
    (r.1 :: s.1, s.2)

/-- The method `PrintUsage`: the lines written to `out` and the parser afterwards. -/
def PrintUsage (p : CommandLineParser) : List String × CommandLineParser :=
  let longest_name := longestName p
  let r := printEntries longest_name p._doc_entries p
  (("Usage: " ++ p._exe_name ++ " [options]") :: "" :: r.1, r.2)

/-- The invariant of the documentation entries: every entry of option type names a key of
`_options`, and the entry stored under that key has the key as its `name`. -/
def DocInvariant (p : CommandLineParser) : Prop :=
  ∀ e ∈ p._doc_entries, e.EntryType = DocumentationEntryType.option →
    ∃ info, mapFind e.EntryString p._options = some info ∧ info.name = e.EntryString

/-! ## Counting the did-set callbacks -/

/-- The invariant of `std::map`: the keys are strictly increasing. -/
def keysSorted {α : Type} (m : List (String × α)) : Prop :=
  m.Pairwise (fun a b => strLt a.1 b.1 = true)

/-- The total number of did-set callbacks held by the entries of a registry. -/
def unlockCountOf (m : List (String × OptionInfo)) : Nat :=
  (m.map (fun opt => opt.2.did_set_value_callbacks.length)).sum

/-- The total number of did-set callbacks over all options of the parser. -/
def unlockCount (p : CommandLineParser) : Nat :=
  unlockCountOf p._options

/-- The registry `_options` is a `std::map`: its keys are strictly increasing. -/
def optionsSorted (p : CommandLineParser) : Prop :=
  keysSorted p._options

/-- The parser after the first `k` iterations of the `while (needs_reparse)` loop, or after
the last iteration when the loop makes fewer than `k`. -/
def loopUpTo (cbs : Callbacks) : Nat → CommandLineParser → CommandLineParser
  | 0, p => p
  | k + 1, p =>
    let r := parsePass cbs p
    if r.2 then loopUpTo cbs k r.1 else r.1

/-- The events of the first `k` iterations of the loop started on `p` (of all its iterations
when it makes fewer), without what the trace held before. -/
def loopEvents (cbs : Callbacks) (k : Nat) (p : CommandLineParser) : List Event :=
  (loopUpTo cbs k { p with trace := [] }).trace

/-- Every option registered by a did-set callback invocation recorded in `events` carries no
did-set callbacks. -/
def registersNoUnlock (cbs : Callbacks) (events : List Event) : Prop :=
  ∀ option_name cb value result,
    Event.did_set_value_cb option_name cb value result ∈ events →
    ∀ info ∈ (cbs.did_set_value_cb cb value).1, info.did_set_value_callbacks = []

/-- No did-set callback invocation recorded in `events` registers the option whose commit
invoked it: `AddOption` never replaces the list that the loop of `SetOption` is iterating. -/
def registersNoSelf (cbs : Callbacks) (events : List Event) : Prop :=
  ∀ option_name cb value result,
    Event.did_set_value_cb option_name cb value result ∈ events →
    ∀ info ∈ (cbs.did_set_value_cb cb value).1, info.name ≠ option_name

end CommandLineParser

end utilities

/-! ## Lemmas on maps and on the parser operations -/

namespace utilities
open CommandLineParser

theorem mapFind_mapInsert_self {α : Type} (k : String) (v : α) (m : List (String × α)) :
    mapFind k (mapInsert k v m) = some v := by
  induction m with
  | nil => simp [mapInsert, mapFind]
  | cons hd tl ih =>
    obtain ⟨k1, v1⟩ := hd
    unfold mapInsert
    by_cases h1 : strLt k k1 = true
    · simp [h1, mapFind]
    · by_cases h2 : k = k1
      · subst h2
        simp [h1, mapFind]
      · simp [h1, h2, mapFind, ih]

theorem mapFind_mapInsert_ne {α : Type} {k k2 : String} (v : α) (m : List (String × α))
    (h : k2 ≠ k) : mapFind k2 (mapInsert k v m) = mapFind k2 m := by
  induction m with
  | nil => simp [mapInsert, mapFind, h]
  | cons hd tl ih =>
    obtain ⟨k1, v1⟩ := hd
    unfold mapInsert
    by_cases h1 : strLt k k1 = true
    · simp [h1, mapFind, h]
    · by_cases h2 : k = k1
      · subst h2
        simp [h1, mapFind, h]
      · by_cases h3 : k2 = k1
        · simp [h1, h2, mapFind, h3]
        · simp [h1, h2, mapFind, h3, ih]

namespace CommandLineParser

@[simp] theorem emit_options (e : Event) (p : CommandLineParser) :
    (p.emit e)._options = p._options := rfl
@[simp] theorem emit_args (e : Event) (p : CommandLineParser) :
    (p.emit e)._args = p._args := rfl
@[simp] theorem emit_original_args (e : Event) (p : CommandLineParser) :
    (p.emit e)._original_args = p._original_args := rfl
@[simp] theorem emit_trace (e : Event) (p : CommandLineParser) :
    (p.emit e).trace = p.trace ++ [e] := rfl
@[simp] theorem emit_optionAt (e : Event) (p : CommandLineParser) (n : String) :
    (p.emit e).optionAt n = p.optionAt n := rfl

@[simp] theorem modifyOption_args (n : String) (f : OptionInfo → OptionInfo)
    (p : CommandLineParser) : (p.modifyOption n f)._args = p._args := rfl
@[simp] theorem modifyOption_original_args (n : String) (f : OptionInfo → OptionInfo)
    (p : CommandLineParser) : (p.modifyOption n f)._original_args = p._original_args := rfl
@[simp] theorem modifyOption_trace (n : String) (f : OptionInfo → OptionInfo)
    (p : CommandLineParser) : (p.modifyOption n f).trace = p.trace := rfl
@[simp] theorem modifyOption_optionAt_self (n : String) (f : OptionInfo → OptionInfo)
    (p : CommandLineParser) : (p.modifyOption n f).optionAt n = f (p.optionAt n) := by
  simp [modifyOption, optionAt, mapFind_mapInsert_self]
theorem modifyOption_find_self (n : String) (f : OptionInfo → OptionInfo)
    (p : CommandLineParser) :
    mapFind n (p.modifyOption n f)._options = some (f (p.optionAt n)) := by
  simp [modifyOption, mapFind_mapInsert_self]
theorem modifyOption_find_ne {n m : String} (f : OptionInfo → OptionInfo)
    (p : CommandLineParser) (h : m ≠ n) :
    mapFind m (p.modifyOption n f)._options = mapFind m p._options := by
  simp [modifyOption, mapFind_mapInsert_ne _ _ h]

@[simp] theorem AddOption_args (i : OptionInfo) (p : CommandLineParser) :
    (p.AddOption i)._args = p._args := by
  unfold AddOption; split <;> rfl
@[simp] theorem AddOption_original_args (i : OptionInfo) (p : CommandLineParser) :
    (p.AddOption i)._original_args = p._original_args := by
  unfold AddOption; split <;> rfl
@[simp] theorem AddOption_trace (i : OptionInfo) (p : CommandLineParser) :
    (p.AddOption i).trace = p.trace := by
  unfold AddOption; split <;> rfl
@[simp] theorem AddOption_options (i : OptionInfo) (p : CommandLineParser) :
    (p.AddOption i)._options = mapInsert i.name i p._options := by
  unfold AddOption; split <;> rfl


theorem run_set_value_callbacks_snd (cbs : Callbacks) (n v : String) (l : List CallbackId)
    (p : CommandLineParser) (ok : Bool) :
    (run_set_value_callbacks cbs n v l p ok).2 = (ok && l.all (fun cb => cbs.set_value_cb cb v)) := by
  induction l generalizing p ok with
  | nil => simp [run_set_value_callbacks]
  | cons cb rest ih =>
    unfold run_set_value_callbacks
    cases ok <;> simp [ih]

theorem run_set_value_callbacks_fst (cbs : Callbacks) (n v : String) (l : List CallbackId)
    (p : CommandLineParser) (ok : Bool) :
    ∃ evs, (run_set_value_callbacks cbs n v l p ok).1 = { p with trace := p.trace ++ evs } ∧
      ∀ e ∈ evs, ∃ cb r, e = Event.set_value_cb n cb v r := by
  induction l generalizing p ok with
  | nil => exact ⟨[], by simp [run_set_value_callbacks], by simp⟩
  | cons cb rest ih =>
    unfold run_set_value_callbacks
    cases ok
    · simpa using ih p false
    · obtain ⟨evs, h1, h2⟩ := ih (p.emit (Event.set_value_cb n cb v (cbs.set_value_cb cb v)))
        (cbs.set_value_cb cb v)
      refine ⟨Event.set_value_cb n cb v (cbs.set_value_cb cb v) :: evs, ?_, ?_⟩
      · simp only [↓reduceIte]
        rw [h1]
        simp [emit]
      · intro e he
        rcases List.mem_cons.1 he with h | h
        · exact ⟨cb, _, h⟩
        · exact h2 e h

@[simp] theorem AddOptions_args (l : List OptionInfo) (p : CommandLineParser) :
    (p.AddOptions l)._args = p._args := by
  induction l generalizing p with
  | nil => rfl
  | cons i rest ih => simp [AddOptions, List.foldl] at ih ⊢; rw [ih]; simp

@[simp] theorem AddOptions_original_args (l : List OptionInfo) (p : CommandLineParser) :
    (p.AddOptions l)._original_args = p._original_args := by
  induction l generalizing p with
  | nil => rfl
  | cons i rest ih => simp [AddOptions, List.foldl] at ih ⊢; rw [ih]; simp

@[simp] theorem AddOptions_trace (l : List OptionInfo) (p : CommandLineParser) :
    (p.AddOptions l).trace = p.trace := by
  induction l generalizing p with
  | nil => rfl
  | cons i rest ih => simp [AddOptions, List.foldl] at ih ⊢; rw [ih]; simp

theorem AddOptions_find_of_not_named {m : String} (l : List OptionInfo)
    (p : CommandLineParser) (h : ∀ i ∈ l, i.name ≠ m) :
    mapFind m (p.AddOptions l)._options = mapFind m p._options := by
  induction l generalizing p with
  | nil => rfl
  | cons i rest ih =>
    have h1 : i.name ≠ m := h i (List.mem_cons_self _ _)
    have h2 : ∀ j ∈ rest, j.name ≠ m := fun j hj => h j (List.mem_cons_of_mem _ hj)
    have := ih (p.AddOption i) h2
    simp only [AddOptions, List.foldl] at this ⊢
    rw [this, AddOption_options, mapFind_mapInsert_ne _ _ (Ne.symm h1)]

theorem AddOptions_optionAt_of_not_named {m : String} (l : List OptionInfo)
    (p : CommandLineParser) (h : ∀ i ∈ l, i.name ≠ m) :
    (p.AddOptions l).optionAt m = p.optionAt m := by
  simp [optionAt, AddOptions_find_of_not_named l p h]

theorem eraseIdx_length_append (kept : List CallbackId) (cb : CallbackId)
    (rest : List CallbackId) : (kept ++ cb :: rest).eraseIdx kept.length = kept ++ rest := by
  induction kept with
  | nil => rfl
  | cons a t ih => simp [List.eraseIdx, ih]

/-- Exact effect of the did-set loop on the option being committed, when none of the
callbacks that run registers that option itself. -/
theorem run_did_set_value_callbacks_exact (cbs : Callbacks) (n v : String) :
    ∀ (todo kept : List CallbackId) (p : CommandLineParser) (b : Bool),
      (p.optionAt n).did_set_value_callbacks = kept ++ todo →
      (p.optionAt n).current_value_string = v →
      (∀ cb ∈ todo, ∀ i ∈ (cbs.did_set_value_cb cb v).1, i.name ≠ n) →
      ((run_did_set_value_callbacks cbs n todo kept.length p b).1.optionAt n =
          { p.optionAt n with
            did_set_value_callbacks :=
              kept ++ todo.filter (fun cb => !(cbs.did_set_value_cb cb v).2) }) ∧
        (run_did_set_value_callbacks cbs n todo kept.length p b).2 =
          (b || todo.any (fun cb => (cbs.did_set_value_cb cb v).2)) ∧
        (run_did_set_value_callbacks cbs n todo kept.length p b).1.trace =
          p.trace ++
            todo.map (fun cb => Event.did_set_value_cb n cb v (cbs.did_set_value_cb cb v).2) := by
  intro todo
  induction todo with
  | nil =>
    intro kept p b h1 _ _
    simp [run_did_set_value_callbacks, ← h1]
  | cons cb rest ih =>
    intro kept p b h1 h2 h3
    have hreg : ∀ i ∈ (cbs.did_set_value_cb cb v).1, i.name ≠ n :=
      h3 cb (List.mem_cons_self _ _)
    have hrest : ∀ c ∈ rest, ∀ i ∈ (cbs.did_set_value_cb c v).1, i.name ≠ n :=
      fun c hc => h3 c (List.mem_cons_of_mem _ hc)
    unfold run_did_set_value_callbacks
    simp only [h2]
    by_cases hr : (cbs.did_set_value_cb cb v).2 = true
    · simp only [hr, if_true]
      have key := ih kept
        (((p.emit (Event.did_set_value_cb n cb v true)).AddOptions
          (cbs.did_set_value_cb cb v).1).modifyOption n (fun o =>
            { o with did_set_value_callbacks := o.did_set_value_callbacks.eraseIdx kept.length }))
        true
        (by simp [AddOptions_optionAt_of_not_named _ _ hreg, h1, eraseIdx_length_append])
        (by simp [AddOptions_optionAt_of_not_named _ _ hreg, h2])
        hrest
      obtain ⟨k1, k2, k3⟩ := key
      refine ⟨?_, ?_, ?_⟩
      · rw [k1]
        simp [AddOptions_optionAt_of_not_named _ _ hreg, hr, List.filter, h2]
      · rw [k2]; simp [hr]
      · rw [k3]; simp [hr]
    · have hr2 : (cbs.did_set_value_cb cb v).2 = false := by simpa using hr
      simp only [hr2, Bool.false_eq_true, if_false]
      have key := ih (kept ++ [cb])
        ((p.emit (Event.did_set_value_cb n cb v false)).AddOptions (cbs.did_set_value_cb cb v).1)
        b
        (by simp [AddOptions_optionAt_of_not_named _ _ hreg, h1])
        (by simp [AddOptions_optionAt_of_not_named _ _ hreg, h2])
        hrest
      simp only [List.length_append, List.length_singleton] at key
      obtain ⟨k1, k2, k3⟩ := key
      refine ⟨?_, ?_, ?_⟩
      · rw [k1]
        simp [AddOptions_optionAt_of_not_named _ _ hreg, hr2, List.filter, h2]
      · rw [k2]; simp [hr2]
      · rw [k3]; simp [hr2]

theorem optionAt_of_find {n : String} {p : CommandLineParser} {info : OptionInfo}
    (h : mapFind n p._options = some info) : p.optionAt n = info := by
  simp [optionAt, h]

/-- Shape of `SetOption` when some validator rejects the value. -/
theorem SetOption_rejected (cbs : Callbacks) (p : CommandLineParser) (n v : String)
    (hrej : ((p.optionAt n).set_value_callbacks.all (fun cb => cbs.set_value_cb cb v)) = false) :
    ∃ evs, SetOption cbs n v p =
        ({ p with
            _options := mapInsert n (p.optionAt n)
              (mapInsert n { p.optionAt n with current_value_string := v } p._options)
            trace := p.trace ++ Event.set_option n v :: evs }, false) ∧
      ∀ e ∈ evs, ∃ cb r, e = Event.set_value_cb n cb v r := by
  unfold SetOption
  have h2 := run_set_value_callbacks_snd cbs n v
    (((p.emit (Event.set_option n v)).modifyOption n
      (fun o => { o with current_value_string := v })).optionAt n).set_value_callbacks
    ((p.emit (Event.set_option n v)).modifyOption n
      (fun o => { o with current_value_string := v })) true
  obtain ⟨evs, h1, h3⟩ := run_set_value_callbacks_fst cbs n v
    (((p.emit (Event.set_option n v)).modifyOption n
      (fun o => { o with current_value_string := v })).optionAt n).set_value_callbacks
    ((p.emit (Event.set_option n v)).modifyOption n
      (fun o => { o with current_value_string := v })) true
  simp only [modifyOption_optionAt_self, emit_optionAt, Bool.true_and] at h1 h2 h3 ⊢
  rw [hrej] at h2
  refine ⟨evs, ?_, h3⟩
  simp only [h2, Bool.false_eq_true, if_false, h1]
  simp [modifyOption, optionAt, emit, mapFind_mapInsert_self]

theorem mapFind_mapInsert_isSome {α : Type} (k m : String) (v : α) (l : List (String × α))
    (h : (mapFind m l).isSome) : (mapFind m (mapInsert k v l)).isSome := by
  by_cases hm : m = k
  · subst hm; simp [mapFind_mapInsert_self]
  · rw [mapFind_mapInsert_ne _ _ hm]; exact h

theorem Keeps.refl (cbs : Callbacks) (n : String) (p : CommandLineParser) : Keeps cbs n p p :=
  ⟨rfl, rfl, fun _ h => h, fun _ _ _ => rfl, fun _ _ _ => rfl⟩

theorem Keeps.trans {cbs : Callbacks} {n : String} {p q r : CommandLineParser}
    (h1 : Keeps cbs n p q) (h2 : Keeps cbs n q r) : Keeps cbs n p r where
  args := h2.args.trans h1.args
  original_args := h2.original_args.trans h1.original_args
  registered := fun m h => h2.registered m (h1.registered m h)
  others := fun m hm hr => (h2.others m hm hr).trans (h1.others m hm hr)
  defaults := fun m hr h =>
    (h2.defaults m hr (h1.registered m h)).trans (h1.defaults m hr h)

theorem Keeps.emit (cbs : Callbacks) (n : String) (e : Event) (p : CommandLineParser) :
    Keeps cbs n p (p.emit e) :=
  ⟨rfl, rfl, fun _ h => h, fun _ _ _ => rfl, fun _ _ _ => rfl⟩

theorem Keeps.modifyOption (cbs : Callbacks) (n : String) (f : OptionInfo → OptionInfo)
    (p : CommandLineParser)
    (hf : ∀ o, (f o).default_value_string = o.default_value_string) :
    Keeps cbs n p (p.modifyOption n f) where
  args := rfl
  original_args := rfl
  registered := fun m h => mapFind_mapInsert_isSome _ _ _ _ h
  others := fun m hm _ => modifyOption_find_ne f p hm
  defaults := by
    intro m _ _
    by_cases hm : m = n
    · subst hm; simp [hf]
    · simp [optionAt, modifyOption_find_ne f p hm]

theorem Keeps.AddOption (cbs : Callbacks) (n : String) (i : OptionInfo)
    (p : CommandLineParser) (hi : ∃ cb v, i ∈ (cbs.did_set_value_cb cb v).1) :
    Keeps cbs n p (p.AddOption i) where
  args := by simp
  original_args := by simp
  registered := fun m h => by
    rw [AddOption_options]; exact mapFind_mapInsert_isSome _ _ _ _ h
  others := fun m _ hr => by
    obtain ⟨cb, v, hmem⟩ := hi
    rw [AddOption_options, mapFind_mapInsert_ne _ _ (Ne.symm (hr cb v i hmem))]
  defaults := fun m hr _ => by
    obtain ⟨cb, v, hmem⟩ := hi
    simp [optionAt, mapFind_mapInsert_ne _ _ (Ne.symm (hr cb v i hmem))]

theorem Keeps.AddOptions (cbs : Callbacks) (n : String) (l : List OptionInfo)
    (p : CommandLineParser) (hl : ∀ i ∈ l, ∃ cb v, i ∈ (cbs.did_set_value_cb cb v).1) :
    Keeps cbs n p (p.AddOptions l) := by
  induction l generalizing p with
  | nil => exact Keeps.refl cbs n p
  | cons i rest ih =>
    have h1 := Keeps.AddOption cbs n i p (hl i (List.mem_cons_self _ _))
    have h2 := ih (p.AddOption i) (fun j hj => hl j (List.mem_cons_of_mem _ hj))
    exact h1.trans h2

/-- The did-set loop keeps what `Keeps` lists, and its events are did-set invocations. -/
theorem run_did_set_value_callbacks_keeps (cbs : Callbacks) (n : String) :
    ∀ (todo : List CallbackId) (pos : Nat) (p : CommandLineParser) (b : Bool),
      Keeps cbs n p (run_did_set_value_callbacks cbs n todo pos p b).1 ∧
      ∃ evs, (run_did_set_value_callbacks cbs n todo pos p b).1.trace = p.trace ++ evs ∧
        ∀ e ∈ evs, ∃ cb v r, e = Event.did_set_value_cb n cb v r := by
  intro todo
  induction todo with
  | nil =>
    intro pos p b
    exact ⟨Keeps.refl cbs n p, [], by simp [run_did_set_value_callbacks], by simp⟩
  | cons cb rest ih =>
    intro pos p b
    unfold run_did_set_value_callbacks
    have hA := (Keeps.emit cbs n (Event.did_set_value_cb n cb
        (p.optionAt n).current_value_string
        (cbs.did_set_value_cb cb (p.optionAt n).current_value_string).2) p).trans
      (Keeps.AddOptions cbs n (cbs.did_set_value_cb cb (p.optionAt n).current_value_string).1
        _ (fun i hi => ⟨cb, _, hi⟩))
    by_cases hr : (cbs.did_set_value_cb cb (p.optionAt n).current_value_string).2 = true
    · simp only [hr, if_true]
      rw [hr] at hA
      obtain ⟨k1, evs, k2, k3⟩ := ih pos
        (((p.emit (Event.did_set_value_cb n cb (p.optionAt n).current_value_string
          true)).AddOptions
          (cbs.did_set_value_cb cb (p.optionAt n).current_value_string).1).modifyOption n
            (fun o =>
              { o with did_set_value_callbacks := o.did_set_value_callbacks.eraseIdx pos }))
        true
      refine ⟨(hA.trans (Keeps.modifyOption cbs n (fun o =>
            { o with did_set_value_callbacks := o.did_set_value_callbacks.eraseIdx pos })
          _ (fun _ => rfl))).trans k1,
        Event.did_set_value_cb n cb (p.optionAt n).current_value_string true :: evs, ?_, ?_⟩
      · rw [k2]; simp
      · intro e he
        rcases List.mem_cons.1 he with h | h
        · exact ⟨cb, _, _, h⟩
        · exact k3 e h
    · have hr2 : (cbs.did_set_value_cb cb (p.optionAt n).current_value_string).2 = false := by
        simpa using hr
      simp only [hr2, Bool.false_eq_true, if_false]
      rw [hr2] at hA
      obtain ⟨k1, evs, k2, k3⟩ := ih (pos + 1)
        ((p.emit (Event.did_set_value_cb n cb (p.optionAt n).current_value_string
          false)).AddOptions
          (cbs.did_set_value_cb cb (p.optionAt n).current_value_string).1)
        b
      refine ⟨hA.trans k1,
        Event.did_set_value_cb n cb (p.optionAt n).current_value_string false :: evs, ?_, ?_⟩
      · rw [k2]; simp
      · intro e he
        rcases List.mem_cons.1 he with h | h
        · exact ⟨cb, _, _, h⟩
        · exact k3 e h

/-- Shape of `SetOption` when every validator accepts the value: the did-set loop runs on the
parser that holds the new value. -/
theorem SetOption_accepted (cbs : Callbacks) (p : CommandLineParser) (n v : String)
    (hacc : ((p.optionAt n).set_value_callbacks.all (fun cb => cbs.set_value_cb cb v)) = true) :
    ∃ evs, SetOption cbs n v p =
        run_did_set_value_callbacks cbs n (p.optionAt n).did_set_value_callbacks 0
          { p with
            _options := mapInsert n { p.optionAt n with current_value_string := v } p._options
            trace := p.trace ++ Event.set_option n v :: evs } false ∧
      ∀ e ∈ evs, ∃ cb r, e = Event.set_value_cb n cb v r := by
  unfold SetOption
  have h2 := run_set_value_callbacks_snd cbs n v
    (((p.emit (Event.set_option n v)).modifyOption n
      (fun o => { o with current_value_string := v })).optionAt n).set_value_callbacks
    ((p.emit (Event.set_option n v)).modifyOption n
      (fun o => { o with current_value_string := v })) true
  obtain ⟨evs, h1, h3⟩ := run_set_value_callbacks_fst cbs n v
    (((p.emit (Event.set_option n v)).modifyOption n
      (fun o => { o with current_value_string := v })).optionAt n).set_value_callbacks
    ((p.emit (Event.set_option n v)).modifyOption n
      (fun o => { o with current_value_string := v })) true
  simp only [modifyOption_optionAt_self, emit_optionAt, Bool.true_and] at h1 h2 h3 ⊢
  rw [hacc] at h2
  refine ⟨evs, ?_, h3⟩
  simp only [h2, if_true, h1]
  simp [modifyOption, optionAt, emit, mapFind_mapInsert_self]

/-- Every call of `SetOption` keeps what `Keeps` lists, and its events are the call itself
followed by callback invocations. -/
theorem SetOption_keeps (cbs : Callbacks) (p : CommandLineParser) (n v : String) :
    Keeps cbs n p (SetOption cbs n v p).1 ∧
    ∃ evs, (SetOption cbs n v p).1.trace = p.trace ++ Event.set_option n v :: evs ∧
      ∀ e ∈ evs, isSetOption e = false ∧ isUnknownOption e = false := by
  have hM : ∀ evs : List Event, Keeps cbs n p
      { p with
        _options := mapInsert n { p.optionAt n with current_value_string := v } p._options
        trace := p.trace ++ Event.set_option n v :: evs } := by
    intro evs
    have := Keeps.modifyOption cbs n (fun o => { o with current_value_string := v }) p
      (fun _ => rfl)
    exact ⟨this.args, this.original_args, this.registered, this.others, this.defaults⟩
  by_cases hacc : ((p.optionAt n).set_value_callbacks.all (fun cb => cbs.set_value_cb cb v)) = true
  · obtain ⟨evs, h1, h2⟩ := SetOption_accepted cbs p n v hacc
    obtain ⟨k1, evs2, k2, k3⟩ := run_did_set_value_callbacks_keeps cbs n
      (p.optionAt n).did_set_value_callbacks 0
      { p with
        _options := mapInsert n { p.optionAt n with current_value_string := v } p._options
        trace := p.trace ++ Event.set_option n v :: evs } false
    rw [h1]
    refine ⟨(hM evs).trans k1, evs ++ evs2, ?_, ?_⟩
    · rw [k2]; simp
    · intro e he
      rcases List.mem_append.1 he with h | h
      · obtain ⟨cb, r, rfl⟩ := h2 e h; exact ⟨rfl, rfl⟩
      · obtain ⟨cb, w, r, rfl⟩ := k3 e h; exact ⟨rfl, rfl⟩
  · have hrej : ((p.optionAt n).set_value_callbacks.all
        (fun cb => cbs.set_value_cb cb v)) = false := by simpa using hacc
    obtain ⟨evs, h1, h2⟩ := SetOption_rejected cbs p n v hrej
    rw [h1]
    refine ⟨?_, evs, rfl, ?_⟩
    · have hk := (hM evs).trans (Keeps.modifyOption cbs n
        (fun o => { o with current_value_string := (p.optionAt n).current_value_string })
        { p with
          _options := mapInsert n { p.optionAt n with current_value_string := v } p._options
          trace := p.trace ++ Event.set_option n v :: evs } (fun _ => rfl))
      have e : CommandLineParser.modifyOption n
          (fun o => { o with current_value_string := (p.optionAt n).current_value_string })
          { p with
            _options := mapInsert n { p.optionAt n with current_value_string := v } p._options
            trace := p.trace ++ Event.set_option n v :: evs } =
          { p with
            _options := mapInsert n (p.optionAt n)
              (mapInsert n { p.optionAt n with current_value_string := v } p._options)
            trace := p.trace ++ Event.set_option n v :: evs } := by
        simp [CommandLineParser.modifyOption, optionAt, mapFind_mapInsert_self]
      rw [e] at hk
      exact hk
    · intro e he
      obtain ⟨cb, r, rfl⟩ := h2 e he; exact ⟨rfl, rfl⟩

theorem shortToLong_keeps (s : String) (p : CommandLineParser) :
    (shortToLong s p).2._args = p._args ∧ (shortToLong s p).2._original_args = p._original_args ∧
    (shortToLong s p).2._options = p._options ∧ (shortToLong s p).2.trace = p.trace := by
  unfold shortToLong
  split <;> simp

theorem resolveOption_keeps (arg : String) (p : CommandLineParser) :
    (resolveOption arg p).2._args = p._args ∧
    (resolveOption arg p).2._original_args = p._original_args ∧
    (resolveOption arg p).2._options = p._options ∧ (resolveOption arg p).2.trace = p.trace := by
  unfold resolveOption
  split
  · simp
  · exact shortToLong_keeps _ p

theorem resolveOption_sentinel (p : CommandLineParser) : resolveOption "--" p = ("", p) := by
  simp [resolveOption, charAt, dropChars]

/-- Whether the body of the `for` loop steps over the next token depends on the tokens only. -/
theorem scanStep_snd (cbs : Callbacks) (arg : String) (next : Option String) (st : PassState) :
    (scanStep cbs arg next st).2 =
      (decide (charAt arg 0 = '-') && (arg != "--" && nextIsValue next)) := by
  unfold scanStep
  by_cases h0 : charAt arg 0 = '-'
  · simp only [h0, if_true, decide_True, Bool.true_and]
    by_cases h1 : (resolveOption arg st.parser).1 = ""
    · simp only [h1, if_true]
      by_cases h2 : arg = "--"
      · simp [h2]
      · simp [h2]
    · have h2 : arg ≠ "--" := by
        intro h
        rw [h, resolveOption_sentinel] at h1
        exact h1 rfl
      simp only [h1, if_false]
      cases next with
      | none => simp [nextIsValue]
      | some val =>
        by_cases h3 : charAt val 0 = '-'
        · simp [h3, nextIsValue]
        · simp [h3, nextIsValue, h2]
  · simp [h0]

/-- A following token that starts with `-` is treated like the end of the line. -/
theorem scanStep_next_dash (cbs : Callbacks) (arg t : String) (st : PassState)
    (ht : charAt t 0 = '-') : scanStep cbs arg (some t) st = scanStep cbs arg none st := by
  unfold scanStep
  simp [ht, nextIsValue]

theorem scanStep_none_snd (cbs : Callbacks) (arg : String) (st : PassState) :
    (scanStep cbs arg none st).2 = false := by
  rw [scanStep_snd]; simp [nextIsValue]

/-- The scan of `pre ++ rest` is the scan of `pre` followed by the scan of `rest`, when `rest`
is empty or begins with a token that starts with `-`. -/
theorem scanArgs_append (cbs : Callbacks) (rest : List String)
    (hrest : ∀ t, rest.head? = some t → charAt t 0 = '-') :
    ∀ (pre : List String) (skip : Bool) (st : PassState), (pre = [] → skip = false) →
      scanArgs cbs (pre ++ rest) skip st = scanArgs cbs rest false (scanArgs cbs pre skip st) := by
  intro pre
  induction pre with
  | nil =>
    intro skip st h
    simp [h rfl, scanArgs]
  | cons a pre1 ih =>
    intro skip st _
    cases skip with
    | true =>
      simp only [List.cons_append, scanArgs]
      exact ih false st (fun _ => rfl)
    | false =>
      simp only [List.cons_append, scanArgs]
      cases pre1 with
      | nil =>
        simp only [List.nil_append, List.head?_nil, scanArgs]
        show scanArgs cbs rest (scanStep cbs a rest.head? st).2 (scanStep cbs a rest.head? st).1 =
          scanArgs cbs rest false (scanStep cbs a none st).1
        cases hr : rest.head? with
        | none => rw [scanStep_none_snd]
        | some t => rw [scanStep_next_dash cbs a t st (hrest t hr), scanStep_none_snd]
      | cons b pre2 =>
        simp only [List.cons_append, List.head?_cons]
        exact ih _ _ (fun h => by simp at h)

theorem setErase_eq_filter (k : String) (l : List String) :
    setErase k l = l.filter (fun n => !(n == k)) := by
  induction l with
  | nil => rfl
  | cons a t ih =>
    unfold setErase
    by_cases h : k = a
    · subst h; simp [ih]
    · have h2 : (a == k) = false := by simpa using Ne.symm h
      simp [h, ih, List.filter, h2]

theorem ScanKeeps.nil (cbs : Callbacks) (st : PassState) : ScanKeeps cbs st st [] where
  trace := by simp
  unset := by simp
  original_args := rfl
  registered := fun _ h => h
  others := fun _ _ _ => rfl
  defaults := fun _ _ _ => rfl

theorem ScanKeeps.append {cbs : Callbacks} {st st1 st2 : PassState} {evs1 evs2 : List Event}
    (h1 : ScanKeeps cbs st st1 evs1) (h2 : ScanKeeps cbs st1 st2 evs2) :
    ScanKeeps cbs st st2 (evs1 ++ evs2) where
  trace := by rw [h2.trace, h1.trace, List.append_assoc]
  unset := by
    rw [h2.unset, h1.unset, List.filter_filter]
    congr 1
    funext n
    simp only [List.any_append, Bool.not_or]
    exact Bool.and_comm _ _
  original_args := h2.original_args.trans h1.original_args
  registered := fun m h => h2.registered m (h1.registered m h)
  others := by
    intro m hr hev
    simp only [List.any_append, Bool.or_eq_false_iff] at hev
    exact (h2.others m hr hev.2).trans (h1.others m hr hev.1)
  defaults := fun m hr h =>
    (h2.defaults m hr (h1.registered m h)).trans (h1.defaults m hr h)

/-- A commit made by the scan: the state after `SetOption` on `n`, with `n` erased from
`unset_args`, relates to the state before as `ScanKeeps` says. -/
theorem ScanKeeps.commit (cbs : Callbacks) (st : PassState) (q : CommandLineParser)
    (n v : String) (hq1 : q._options = st.parser._options) (hq2 : q.trace = st.parser.trace)
    (hq3 : q._original_args = st.parser._original_args) :
    ∃ evs, ScanKeeps cbs st
      ⟨(SetOption cbs n v q).1, setErase n st.unset_args,
        (SetOption cbs n v q).2 || st.needs_reparse⟩ evs ∧
      (∀ e ∈ evs, isUnknownOption e = false) ∧
      evs.filter isSetOption = [Event.set_option n v] := by
  obtain ⟨hk, evs, htr, hev⟩ := SetOption_keeps cbs q n v
  have hany : ∀ m, (Event.set_option n v :: evs).any (isSetOptionOf m) = (n == m) := by
    intro m
    have : evs.any (isSetOptionOf m) = false := by
      rw [List.any_eq_false]
      intro e he
      have := (hev e he).1
      cases e <;> simp_all [isSetOption, isSetOptionOf]
    simp [this, isSetOptionOf]
  refine ⟨Event.set_option n v :: evs, ⟨?_, ?_, ?_, ?_, ?_, ?_⟩, ?_, ?_⟩
  · simp only [htr, hq2]
  · simp only [setErase_eq_filter]
    congr 1
    funext m
    rw [hany m]
    by_cases h : m = n
    · subst h; simp
    · have h1 : (m == n) = false := by simpa using h
      have h2 : (n == m) = false := by simpa using Ne.symm h
      rw [h1, h2]
  · exact hk.original_args.trans hq3
  · intro m h
    exact hk.registered m (by rw [hq1]; exact h)
  · intro m hr hev2
    rw [hany m] at hev2
    have hne : m ≠ n := by
      intro h; subst h; simp at hev2
    rw [← hq1]
    exact hk.others m hne hr
  · intro m hr h
    have := hk.defaults m hr (by rw [hq1]; exact h)
    simp only [optionAt, hq1] at this ⊢
    exact this
  · intro e he
    rcases List.mem_cons.1 he with h | h
    · rw [h]; rfl
    · exact (hev e h).2
  · have : evs.filter isSetOption = [] := by
      rw [List.filter_eq_nil_iff]
      intro e he
      simp [(hev e he).1]
    simp [List.filter, isSetOption, this]

/-- A stretch of the scan that touches neither `unset_args` nor `_options`. -/
theorem ScanKeeps.of_same_options (cbs : Callbacks) (st st1 : PassState) (evs : List Event)
    (h1 : st1.unset_args = st.unset_args) (h2 : st1.parser._options = st.parser._options)
    (h3 : st1.parser.trace = st.parser.trace ++ evs)
    (h4 : st1.parser._original_args = st.parser._original_args)
    (h5 : ∀ e ∈ evs, isSetOption e = false) : ScanKeeps cbs st st1 evs where
  trace := h3
  unset := by
    rw [h1]
    symm
    rw [List.filter_eq_self]
    intro n _
    have : evs.any (isSetOptionOf n) = false := by
      rw [List.any_eq_false]
      intro e he
      have := h5 e he
      cases e <;> simp_all [isSetOption, isSetOptionOf]
    simp [this]
  original_args := h4
  registered := fun m h => by rw [h2]; exact h
  others := fun m _ _ => by rw [h2]
  defaults := fun m _ _ => by simp [optionAt, h2]

theorem scanStep_keeps (cbs : Callbacks) (arg : String) (next : Option String)
    (st : PassState) : ∃ evs, ScanKeeps cbs st (scanStep cbs arg next st).1 evs := by
  obtain ⟨_, r2, r3, r4⟩ := resolveOption_keeps arg st.parser
  unfold scanStep
  by_cases h0 : charAt arg 0 = '-'
  · simp only [h0, if_true]
    by_cases h1 : (resolveOption arg st.parser).1 = ""
    · simp only [h1, if_true]
      by_cases h2 : arg = "--"
      · refine ⟨[], ?_⟩
        simp only [h2, ne_eq, not_true_eq_false, if_false]
        apply ScanKeeps.of_same_options <;> simp [← h2, r2, r3, r4]
      · refine ⟨[Event.unknown_option arg], ?_⟩
        simp only [ne_eq, h2, not_false_eq_true, if_true]
        apply ScanKeeps.of_same_options <;> simp [r2, r3, r4, isSetOption]
    · simp only [h1, if_false]
      cases next with
      | none =>
        obtain ⟨evs, h, _⟩ := ScanKeeps.commit cbs st (resolveOption arg st.parser).2
          (resolveOption arg st.parser).1 "true" r3 r4 r2
        exact ⟨evs, h⟩
      | some val =>
        by_cases h3 : charAt val 0 = '-'
        · simp only [h3, if_true]
          obtain ⟨evs, h, _⟩ := ScanKeeps.commit cbs st (resolveOption arg st.parser).2
            (resolveOption arg st.parser).1 "true" r3 r4 r2
          exact ⟨evs, h⟩
        · simp only [h3, if_false]
          obtain ⟨evs, h, _⟩ := ScanKeeps.commit cbs st (resolveOption arg st.parser).2
            (resolveOption arg st.parser).1 val r3 r4 r2
          exact ⟨evs, h⟩
  · refine ⟨[], ?_⟩
    simp only [h0, if_false]
    apply ScanKeeps.of_same_options <;> simp

theorem scanStep_args (cbs : Callbacks) (arg : String) (next : Option String)
    (st : PassState) :
    (scanStep cbs arg next st).1.parser._args =
      st.parser._args ++ (if charAt arg 0 = '-' then [] else [arg]) := by
  obtain ⟨r1, _, _, _⟩ := resolveOption_keeps arg st.parser
  unfold scanStep
  by_cases h0 : charAt arg 0 = '-'
  · simp only [h0, if_true, List.append_nil]
    by_cases h1 : (resolveOption arg st.parser).1 = ""
    · simp only [h1, if_true]
      by_cases h2 : arg = "--"
      · simp [← h2, r1]
      · simp [h2, r1]
    · simp only [h1, if_false]
      cases next with
      | none => simp [(SetOption_keeps cbs _ _ _).1.args, r1]
      | some val =>
        by_cases h3 : charAt val 0 = '-'
        · simp [h3, (SetOption_keeps cbs _ _ _).1.args, r1]
        · simp [h3, (SetOption_keeps cbs _ _ _).1.args, r1]
  · simp [h0]

/-- The scan keeps what `ScanKeeps` lists. -/
theorem scanArgs_keeps (cbs : Callbacks) :
    ∀ (toks : List String) (skip : Bool) (st : PassState),
      ∃ evs, ScanKeeps cbs st (scanArgs cbs toks skip st) evs := by
  intro toks
  induction toks with
  | nil => intro skip st; exact ⟨[], by simpa [scanArgs] using ScanKeeps.nil cbs st⟩
  | cons a rest ih =>
    intro skip st
    cases skip with
    | true => simpa [scanArgs] using ih false st
    | false =>
      obtain ⟨evs1, h1⟩ := scanStep_keeps cbs a rest.head? st
      obtain ⟨evs2, h2⟩ := ih (scanStep cbs a rest.head? st).2 (scanStep cbs a rest.head? st).1
      exact ⟨evs1 ++ evs2, by simpa [scanArgs] using h1.append h2⟩

/-- The positional arguments a scan appends are those read off the tokens alone. -/
theorem scanArgs_args (cbs : Callbacks) :
    ∀ (toks : List String) (skip : Bool) (st : PassState),
      (scanArgs cbs toks skip st).parser._args =
        st.parser._args ++ positionalsFrom toks skip := by
  intro toks
  induction toks with
  | nil => intro skip st; simp [scanArgs, positionalsFrom]
  | cons a rest ih =>
    intro skip st
    cases skip with
    | true => simpa [scanArgs, positionalsFrom] using ih false st
    | false =>
      simp only [scanArgs, positionalsFrom]
      rw [ih, scanStep_args, scanStep_snd]
      by_cases h0 : charAt a 0 = '-'
      · simp [h0]
      · simp [h0]

/-- The loop of `SetDefaultArgs` over the names `l`: what it keeps, and the calls of
`SetOption` it makes when every name of `l` is registered and never registered again. -/
theorem SetDefaultArgsLoop_spec (cbs : Callbacks) :
    ∀ (l : List String) (p : CommandLineParser) (nr : Bool),
      (SetDefaultArgsLoop cbs l p nr).1._args = p._args ∧
      (SetDefaultArgsLoop cbs l p nr).1._original_args = p._original_args ∧
      (∀ m, (mapFind m p._options).isSome →
        (mapFind m (SetDefaultArgsLoop cbs l p nr).1._options).isSome) ∧
      (∀ m, neverRegisters cbs m → m ∉ l →
        mapFind m (SetDefaultArgsLoop cbs l p nr).1._options = mapFind m p._options) ∧
      (∀ m, neverRegisters cbs m → (mapFind m p._options).isSome →
        ((SetDefaultArgsLoop cbs l p nr).1.optionAt m).default_value_string =
          (p.optionAt m).default_value_string) ∧
      ∃ evs, (SetDefaultArgsLoop cbs l p nr).1.trace = p.trace ++ evs ∧
        (∀ e ∈ evs, isUnknownOption e = false) ∧
        ((∀ n ∈ l, neverRegisters cbs n ∧ (mapFind n p._options).isSome) →
          evs.filter isSetOption =
            l.map (fun n => Event.set_option n (p.optionAt n).default_value_string)) := by
  intro l
  induction l with
  | nil =>
    intro p nr
    exact ⟨rfl, rfl, fun _ h => h, fun _ _ _ => rfl, fun _ _ _ => rfl, [],
      by simp [SetDefaultArgsLoop], by simp, by simp⟩
  | cons a rest ih =>
    intro p nr
    unfold SetDefaultArgsLoop
    cases hfind : mapFind a p._options with
    | none =>
      simp only
      obtain ⟨i1, i2, i3, i4, i5, evs, i6, i7, i8⟩ := ih p nr
      refine ⟨i1, i2, i3, ?_, i5, evs, i6, i7, ?_⟩
      · intro m hr hm
        exact i4 m hr (fun h => hm (List.mem_cons_of_mem _ h))
      · intro h
        have := (h a (List.mem_cons_self _ _)).2
        simp [hfind] at this
    | some info =>
      simp only
      obtain ⟨hk, evs1, ht1, he1⟩ := SetOption_keeps cbs p a info.default_value_string
      obtain ⟨i1, i2, i3, i4, i5, evs2, i6, i7, i8⟩ :=
        ih (SetOption cbs a info.default_value_string p).1
          ((SetOption cbs a info.default_value_string p).2 || nr)
      refine ⟨i1.trans hk.args, i2.trans hk.original_args,
        fun m h => i3 m (hk.registered m h), ?_, ?_,
        Event.set_option a info.default_value_string :: evs1 ++ evs2, ?_, ?_, ?_⟩
      · intro m hr hm
        have hma : m ≠ a := fun h => hm (h ▸ List.mem_cons_self _ _)
        rw [i4 m hr (fun h => hm (List.mem_cons_of_mem _ h)), hk.others m hma hr]
      · intro m hr h
        rw [i5 m hr (hk.registered m h), hk.defaults m hr h]
      · rw [i6, ht1]; simp
      · intro e he
        rcases List.mem_append.1 he with h | h
        · rcases List.mem_cons.1 h with h | h
          · rw [h]; rfl
          · exact (he1 e h).2
        · exact i7 e h
      · intro h
        have hrest : ∀ n ∈ rest, neverRegisters cbs n ∧
            (mapFind n (SetOption cbs a info.default_value_string p).1._options).isSome :=
          fun n hn => ⟨(h n (List.mem_cons_of_mem _ hn)).1,
            hk.registered n (h n (List.mem_cons_of_mem _ hn)).2⟩
        have h1 : evs1.filter isSetOption = [] := by
          rw [List.filter_eq_nil_iff]
          intro e he
          simp [(he1 e he).1]
        have hinfo : (p.optionAt a).default_value_string = info.default_value_string := by
          rw [optionAt_of_find hfind]
        rw [List.cons_append, List.filter_cons, List.filter_append, h1, i8 hrest]
        simp only [isSetOption, if_true, List.nil_append, List.map_cons, hinfo]
        congr 1
        apply List.map_congr_left
        intro n hn
        rw [hk.defaults n (h n (List.mem_cons_of_mem _ hn)).1
          (h n (List.mem_cons_of_mem _ hn)).2]

theorem scanPass_args (cbs : Callbacks) (p : CommandLineParser) :
    (scanPass cbs p).parser._args = p._args ++ positionalsFrom (p._original_args.drop 1) false := by
  unfold scanPass
  rw [scanArgs_args]

theorem scanPass_original_args (cbs : Callbacks) (p : CommandLineParser) :
    (scanPass cbs p).parser._original_args = p._original_args := by
  unfold scanPass
  obtain ⟨evs, h⟩ := scanArgs_keeps cbs (p._original_args.drop 1) false
    ⟨p, initialUnsetArgs p, false⟩
  exact h.original_args

/-- One pass appends the positional arguments read off the raw tokens and keeps the raw
tokens. -/
theorem parsePass_args (cbs : Callbacks) (p : CommandLineParser) :
    (parsePass cbs p).1._args = p._args ++ positionalsFrom (p._original_args.drop 1) false ∧
    (parsePass cbs p).1._original_args = p._original_args := by
  unfold parsePass SetDefaultArgs
  obtain ⟨i1, i2, _⟩ := SetDefaultArgsLoop_spec cbs (scanPass cbs p).unset_args
    (scanPass cbs p).parser false
  exact ⟨by rw [i1, scanPass_args], by rw [i2, scanPass_original_args]⟩

/-- The loop that stops after `k` passes has appended the positional arguments of one pass
`k` times. -/
theorem parseLoop_args (cbs : Callbacks) :
    ∀ (fuel : Nat) (p q : CommandLineParser) (k : Nat), parseLoop cbs fuel p = some (q, k) →
      q._args = p._args ++ repeatList (positionalsFrom (p._original_args.drop 1) false) k ∧
      q._original_args = p._original_args ∧ 1 ≤ k ∧ k ≤ fuel := by
  intro fuel
  induction fuel with
  | zero => intro p q k h; simp [parseLoop] at h
  | succ fuel ih =>
    intro p q k h
    unfold parseLoop at h
    obtain ⟨a1, a2⟩ := parsePass_args cbs p
    by_cases hr : (parsePass cbs p).2 = true
    · simp only [hr, if_true] at h
      cases hl : parseLoop cbs fuel (parsePass cbs p).1 with
      | none => simp [hl] at h
      | some r =>
        obtain ⟨q1, k1⟩ := r
        simp only [hl, Option.map_some', Option.some.injEq, Prod.mk.injEq] at h
        obtain ⟨b1, b2, b3, b4⟩ := ih _ _ _ hl
        obtain ⟨rfl, rfl⟩ := h
        refine ⟨?_, b2.trans a2, by omega, by omega⟩
        rw [b1, a1, a2]
        simp [repeatList, List.append_assoc]
    · simp only [hr, Bool.false_eq_true, if_false, Option.some.injEq, Prod.mk.injEq] at h
      obtain ⟨rfl, rfl⟩ := h
      exact ⟨by simp [a1, repeatList], a2, by omega, by omega⟩

/-- After an accepted commit the option holds the committed value, when no did-set callback
of the option registers the option itself. -/
theorem SetOption_accepted_value (cbs : Callbacks) (p : CommandLineParser) (n v : String)
    (hacc : ∀ cb ∈ (p.optionAt n).set_value_callbacks, cbs.set_value_cb cb v = true)
    (hself : ∀ cb ∈ (p.optionAt n).did_set_value_callbacks,
      ∀ i ∈ (cbs.did_set_value_cb cb v).1, i.name ≠ n) :
    ((SetOption cbs n v p).1.optionAt n).current_value_string = v := by
  have hall : ((p.optionAt n).set_value_callbacks.all (fun cb => cbs.set_value_cb cb v)) =
      true := by
    rw [List.all_eq_true]
    exact fun cb hcb => hacc cb hcb
  obtain ⟨evs, h1, _⟩ := SetOption_accepted cbs p n v hall
  have hq : (CommandLineParser.optionAt n
      { p with
        _options := mapInsert n { p.optionAt n with current_value_string := v } p._options
        trace := p.trace ++ Event.set_option n v :: evs }) =
      { p.optionAt n with current_value_string := v } := by
    simp [optionAt, mapFind_mapInsert_self]
  obtain ⟨k1, _, _⟩ := run_did_set_value_callbacks_exact cbs n v
    (p.optionAt n).did_set_value_callbacks []
    { p with
      _options := mapInsert n { p.optionAt n with current_value_string := v } p._options
      trace := p.trace ++ Event.set_option n v :: evs } false
    (by rw [hq]; simp) (by rw [hq]) hself
  simp only [List.length_nil] at k1
  rw [← h1, hq] at k1
  rw [k1]

theorem scanStep_sentinel (cbs : Callbacks) (next : Option String) (st : PassState) :
    scanStep cbs "--" next st = (st, false) := by
  unfold scanStep
  rw [resolveOption_sentinel]
  simp [charAt]

/-- The body of the `for` loop at a flag token that resolves to a name and is the last token
or is followed by a token that starts with `-`. -/
theorem scanStep_switch (cbs : Callbacks) (flag : String) (next : Option String)
    (st : PassState) (hflag : charAt flag 0 = '-')
    (hname : (resolveOption flag st.parser).1 ≠ "")
    (hnext : ∀ t, next = some t → charAt t 0 = '-') :
    scanStep cbs flag next st =
      (⟨(SetOption cbs (resolveOption flag st.parser).1 "true"
          (resolveOption flag st.parser).2).1,
        setErase (resolveOption flag st.parser).1 st.unset_args,
        (SetOption cbs (resolveOption flag st.parser).1 "true"
          (resolveOption flag st.parser).2).2 || st.needs_reparse⟩, false) := by
  unfold scanStep
  simp only [hflag, if_true, hname, if_false]
  cases next with
  | none => rfl
  | some t => simp [hnext t rfl]

/-- The body of the `for` loop at a flag token that resolves to a name and is followed by a
token that does not start with `-`. -/
theorem scanStep_value (cbs : Callbacks) (flag val : String) (st : PassState)
    (hflag : charAt flag 0 = '-') (hname : (resolveOption flag st.parser).1 ≠ "")
    (hval : charAt val 0 ≠ '-') :
    scanStep cbs flag (some val) st =
      (⟨(SetOption cbs (resolveOption flag st.parser).1 val
          (resolveOption flag st.parser).2).1,
        setErase (resolveOption flag st.parser).1 st.unset_args,
        (SetOption cbs (resolveOption flag st.parser).1 val
          (resolveOption flag st.parser).2).2 || st.needs_reparse⟩, true) := by
  unfold scanStep
  simp only [hflag, if_true, hname, if_false, hval]

/-- The scan of a token that does not start with `-`, met by the loop, and of what follows. -/
theorem scanArgs_cons_positional (cbs : Callbacks) (t : String) (rest : List String)
    (st : PassState) (ht : charAt t 0 ≠ '-') :
    scanArgs cbs (t :: rest) false st =
      scanArgs cbs rest false
        { st with parser := { st.parser with _args := st.parser._args ++ [t] } } := by
  simp [scanArgs, scanStep, ht]

theorem charAt_zero_dashes (n : String) : charAt ("--" ++ n) 0 = '-' := by
  simp [charAt, String.data_append]

theorem charAt_one_dashes (n : String) : charAt ("--" ++ n) 1 = '-' := by
  simp [charAt, String.data_append]

/-- A token `--n` names the option `n`, whatever is registered. -/
theorem resolveOption_long (n : String) (p : CommandLineParser) :
    resolveOption ("--" ++ n) p = (n, p) := by
  unfold resolveOption
  simp [charAt_one_dashes, dropChars, String.data_append]

/-- The body of the `for` loop at a flag token whose option name is empty and which is not
the bare `--`. -/
theorem scanStep_unknown (cbs : Callbacks) (flag : String) (next : Option String)
    (st : PassState) (hflag : charAt flag 0 = '-')
    (hunk : (resolveOption flag st.parser).1 = "") (hns : flag ≠ "--") :
    scanStep cbs flag next st =
      ({ st with parser := (resolveOption flag st.parser).2.emit (Event.unknown_option flag) },
        nextIsValue next) := by
  unfold scanStep
  simp [hflag, hunk, hns]

theorem neverRegisters_of_quiet (cbs : Callbacks)
    (hquiet : ∀ cb value, cbs.did_set_value_cb cb value = ([], false)) (m : String) :
    neverRegisters cbs m := by
  intro cb value info h
  rw [hquiet] at h
  simp at h

theorem run_did_set_value_callbacks_quiet (cbs : Callbacks)
    (hquiet : ∀ cb value, cbs.did_set_value_cb cb value = ([], false)) (n : String) :
    ∀ (todo : List CallbackId) (pos : Nat) (p : CommandLineParser) (b : Bool),
      (run_did_set_value_callbacks cbs n todo pos p b).2 = b := by
  intro todo
  induction todo with
  | nil => intro pos p b; rfl
  | cons cb rest ih =>
    intro pos p b
    unfold run_did_set_value_callbacks
    simp only [hquiet, Bool.false_eq_true, if_false]
    exact ih _ _ _

/-- When no did-set callback ever returns true, `SetOption` returns false. -/
theorem SetOption_quiet (cbs : Callbacks)
    (hquiet : ∀ cb value, cbs.did_set_value_cb cb value = ([], false))
    (n v : String) (p : CommandLineParser) : (SetOption cbs n v p).2 = false := by
  unfold SetOption
  simp only
  split
  · exact run_did_set_value_callbacks_quiet cbs hquiet n _ _ _ _
  · rfl

theorem SetDefaultArgsLoop_quiet (cbs : Callbacks)
    (hquiet : ∀ cb value, cbs.did_set_value_cb cb value = ([], false)) :
    ∀ (l : List String) (p : CommandLineParser) (nr : Bool),
      (SetDefaultArgsLoop cbs l p nr).2 = nr := by
  intro l
  induction l with
  | nil => intro p nr; rfl
  | cons a rest ih =>
    intro p nr
    unfold SetDefaultArgsLoop
    cases mapFind a p._options with
    | none => exact ih p nr
    | some info =>
      simp only
      rw [ih, SetOption_quiet cbs hquiet]
      simp

theorem not_mem_setErase (k : String) (l : List String) : k ∉ setErase k l := by
  rw [setErase_eq_filter]
  simp

theorem scanStep_quiet (cbs : Callbacks)
    (hquiet : ∀ cb value, cbs.did_set_value_cb cb value = ([], false))
    (arg : String) (next : Option String) (st : PassState) :
    (scanStep cbs arg next st).1.needs_reparse = st.needs_reparse := by
  unfold scanStep
  by_cases h0 : charAt arg 0 = '-'
  · simp only [h0, if_true]
    by_cases h1 : (resolveOption arg st.parser).1 = ""
    · simp only [h1, if_true]
      by_cases h2 : arg = "--"
      · simp [h2]
      · simp [h2]
    · simp only [h1, if_false]
      cases next with
      | none => simp [SetOption_quiet cbs hquiet]
      | some val =>
        by_cases h3 : charAt val 0 = '-'
        · simp [h3, SetOption_quiet cbs hquiet]
        · simp [h3, SetOption_quiet cbs hquiet]
  · simp [h0]

/-- When no did-set callback ever returns true, the scan leaves `needs_reparse` as it is. -/
theorem scanArgs_quiet (cbs : Callbacks)
    (hquiet : ∀ cb value, cbs.did_set_value_cb cb value = ([], false)) :
    ∀ (toks : List String) (skip : Bool) (st : PassState),
      (scanArgs cbs toks skip st).needs_reparse = st.needs_reparse := by
  intro toks
  induction toks with
  | nil => intro skip st; rfl
  | cons a rest ih =>
    intro skip st
    cases skip with
    | true => simpa [scanArgs] using ih false st
    | false =>
      simp only [scanArgs]
      rw [ih, scanStep_quiet cbs hquiet]

/-- When no did-set callback ever returns true, one pass is the whole parse. -/
theorem parsePass_quiet (cbs : Callbacks)
    (hquiet : ∀ cb value, cbs.did_set_value_cb cb value = ([], false))
    (p : CommandLineParser) : (parsePass cbs p).2 = false := by
  unfold parsePass SetDefaultArgs scanPass
  simp only
  rw [SetDefaultArgsLoop_quiet cbs hquiet, scanArgs_quiet cbs hquiet]
  rfl

theorem ParseArgs_of_args (cbs : Callbacks) (fuel : Nat) (p : CommandLineParser)
    (exe : String) (rest : List String) (h : p._original_args = exe :: rest) :
    ParseArgs cbs fuel p =
      (parseLoop cbs fuel { p with _exe_name := exeNameOf exe }).map (fun q => q.1) := by
  unfold ParseArgs
  split
  · rename_i h2
    rw [h] at h2
    cases h2
  · rename_i e r h2
    rw [h] at h2
    cases h2
    rfl

/-- One pass over `exe --foo v tok` when no did-set callback returns true or registers an
option and the validators of `foo` accept `v`. -/
theorem parsePass_foo (cbs : Callbacks) (p : CommandLineParser) (exe v tok : String)
    (info : OptionInfo) (hargs : p._original_args = [exe, "--foo", v, tok])
    (hfoo : mapFind "foo" p._options = some info)
    (hacc : ∀ cb ∈ info.set_value_callbacks, cbs.set_value_cb cb v = true)
    (hquiet : ∀ cb value, cbs.did_set_value_cb cb value = ([], false))
    (hv : charAt v 0 ≠ '-') (htok : charAt tok 0 ≠ '-') :
    ((parsePass cbs p).1.optionAt "foo").current_value_string = v ∧
    (parsePass cbs p).1._args = p._args ++ [tok] := by
  have hb : (charAt v 0 != '-') = true := by simpa using hv
  have hres : ∀ q : CommandLineParser, resolveOption "--foo" q = ("foo", q) :=
    fun q => resolveOption_long "foo" q
  have hscan : scanPass cbs p =
      ⟨{ (SetOption cbs "foo" v p).1 with _args := (SetOption cbs "foo" v p).1._args ++ [tok] },
        setErase "foo" (initialUnsetArgs p), (SetOption cbs "foo" v p).2 || false⟩ := by
    unfold scanPass
    simp only [hargs, List.drop_succ_cons, List.drop_zero, scanArgs, List.head?_cons]
    rw [scanStep_value cbs "--foo" v ⟨p, initialUnsetArgs p, false⟩ (by decide)
      (by rw [hres]; simp) hv]
    simp only [hres, scanArgs, scanStep, htok, if_false]
  have hval : ((SetOption cbs "foo" v p).1.optionAt "foo").current_value_string = v := by
    apply SetOption_accepted_value
    · rw [optionAt_of_find hfoo]
      exact hacc
    · intro cb _ i hi
      rw [hquiet] at hi
      simp at hi
  obtain ⟨_, _, _, k4, _⟩ := SetDefaultArgsLoop_spec cbs (scanPass cbs p).unset_args
    (scanPass cbs p).parser false
  have hkeep := k4 "foo" (neverRegisters_of_quiet cbs hquiet "foo")
    (by rw [hscan]; exact not_mem_setErase "foo" _)
  refine ⟨?_, ?_⟩
  · have : (parsePass cbs p).1.optionAt "foo" = (SetOption cbs "foo" v p).1.optionAt "foo" := by
      unfold parsePass SetDefaultArgs
      simp only [optionAt]
      rw [hkeep, hscan]
    rw [this, hval]
  · rw [(parsePass_args cbs _).1]
    simp [hargs, positionalsFrom, nextIsValue, hb, htok, show charAt "--foo" 0 = '-' by decide]

theorem char_eq_of_toNat_eq {a b : Char} (h : a.toNat = b.toNat) : a = b := by
  rw [← Char.ofNat_toNat a, ← Char.ofNat_toNat b, h]

theorem charsLt_irrefl (a : List Char) : charsLt a a = false := by
  induction a with
  | nil => rfl
  | cons x t ih => simp [charsLt, ih]

theorem charsLt_trans : ∀ (a b c : List Char), charsLt a b = true → charsLt b c = true →
    charsLt a c = true := by
  intro a
  induction a with
  | nil =>
    intro b c h1 h2
    cases b with
    | nil => simp [charsLt] at h1
    | cons y bt =>
      cases c with
      | nil => simp [charsLt] at h2
      | cons z ct => simp [charsLt]
  | cons x at1 ih =>
    intro b c h1 h2
    cases b with
    | nil => simp [charsLt] at h1
    | cons y bt =>
      cases c with
      | nil => simp [charsLt] at h2
      | cons z ct =>
        simp only [charsLt] at h1 h2 ⊢
        by_cases hxy : x.toNat < y.toNat
        · by_cases hyz : y.toNat < z.toNat
          · have : x.toNat < z.toNat := by omega
            simp [this]
          · simp only [hyz, if_false] at h2
            by_cases hzy : z.toNat < y.toNat
            · simp [hzy] at h2
            · have : x.toNat < z.toNat := by omega
              simp [this]
        · simp only [hxy, if_false] at h1
          by_cases hyx : y.toNat < x.toNat
          · simp [hyx] at h1
          · simp only [hyx, if_false] at h1
            have hxy2 : x.toNat = y.toNat := by omega
            by_cases hyz : y.toNat < z.toNat
            · have : x.toNat < z.toNat := by omega
              simp [this]
            · simp only [hyz, if_false] at h2
              by_cases hzy : z.toNat < y.toNat
              · simp [hzy] at h2
              · simp only [hzy, if_false] at h2
                have h3 : ¬ x.toNat < z.toNat := by omega
                have h4 : ¬ z.toNat < x.toNat := by omega
                simp only [h3, h4, if_false]
                exact ih bt ct h1 h2

theorem charsLt_total : ∀ (a b : List Char), charsLt a b = false → charsLt b a = false →
    a = b := by
  intro a
  induction a with
  | nil =>
    intro b h1 _
    cases b with
    | nil => rfl
    | cons y bt => simp [charsLt] at h1
  | cons x at1 ih =>
    intro b h1 h2
    cases b with
    | nil => simp [charsLt] at h2
    | cons y bt =>
      simp only [charsLt] at h1 h2
      by_cases hxy : x.toNat < y.toNat
      · simp [hxy] at h1
      · by_cases hyx : y.toNat < x.toNat
        · simp [hyx] at h2
        · simp only [hxy, hyx, if_false] at h1 h2
          have hc : x = y := char_eq_of_toNat_eq (by omega)
          rw [hc, ih bt h1 h2]

theorem strLt_irrefl (a : String) : strLt a a = false := charsLt_irrefl a.data

theorem strLt_trans {a b c : String} (h1 : strLt a b = true) (h2 : strLt b c = true) :
    strLt a c = true := charsLt_trans _ _ _ h1 h2

theorem strLt_total {a b : String} (h1 : strLt a b = false) (h2 : a ≠ b) :
    strLt b a = true := by
  by_contra h
  have h3 : strLt b a = false := by simpa using h
  exact h2 (String.ext (charsLt_total _ _ h1 h3))

theorem mem_setInsert (x k : String) (l : List String) :
    x ∈ setInsert k l ↔ x = k ∨ x ∈ l := by
  induction l with
  | nil => simp [setInsert]
  | cons a t ih =>
    unfold setInsert
    by_cases h1 : strLt k a = true
    · simp [h1]
    · by_cases h2 : k = a
      · subst h2; simp [h1]
      · have h1f : strLt k a = false := by simpa using h1
        simp only [h1f, Bool.false_eq_true, h2, if_false, List.mem_cons, ih]
        constructor
        · rintro (h | h | h)
          · exact Or.inr (Or.inl h)
          · exact Or.inl h
          · exact Or.inr (Or.inr h)
        · rintro (h | h | h)
          · exact Or.inr (Or.inl h)
          · exact Or.inl h
          · exact Or.inr (Or.inr h)

/-- The call `insert` keeps a set in strictly increasing key order. -/
theorem setInsert_sorted (k : String) (l : List String)
    (h : l.Pairwise (fun a b => strLt a b = true)) :
    (setInsert k l).Pairwise (fun a b => strLt a b = true) := by
  induction l with
  | nil => simp [setInsert]
  | cons a t ih =>
    obtain ⟨ha, ht⟩ := List.pairwise_cons.1 h
    unfold setInsert
    by_cases h1 : strLt k a = true
    · simp only [h1, if_true]
      refine List.pairwise_cons.2 ⟨?_, h⟩
      intro x hx
      rcases List.mem_cons.1 hx with hx | hx
      · rw [hx]; exact h1
      · exact strLt_trans h1 (ha x hx)
    · have h1f : strLt k a = false := by simpa using h1
      by_cases h2 : k = a
      · subst h2
        simp only [h1f, Bool.false_eq_true, if_true, if_false]
        exact h
      · simp only [h1f, Bool.false_eq_true, h2, if_false]
        refine List.pairwise_cons.2 ⟨?_, ih ht⟩
        intro x hx
        rcases (mem_setInsert x k t).1 hx with hx | hx
        · rw [hx]
          exact strLt_total (by simpa using h1) h2
        · exact ha x hx

theorem nodup_of_sorted (l : List String) (h : l.Pairwise (fun a b => strLt a b = true)) :
    l.Nodup := by
  refine List.Pairwise.imp ?_ h
  intro a b hab heq
  rw [heq, strLt_irrefl] at hab
  exact Bool.false_ne_true hab

theorem foldl_setInsert_spec {α : Type} (m : List (String × α)) :
    ∀ (s : List String), s.Pairwise (fun a b => strLt a b = true) →
      (m.foldl (fun s opt => setInsert opt.1 s) s).Pairwise (fun a b => strLt a b = true) ∧
      ∀ x, x ∈ m.foldl (fun s opt => setInsert opt.1 s) s ↔ (x ∈ s ∨ (mapFind x m).isSome) := by
  induction m with
  | nil => intro s hs; simp [mapFind, hs]
  | cons hd tl ih =>
    intro s hs
    obtain ⟨i1, i2⟩ := ih (setInsert hd.1 s) (setInsert_sorted hd.1 s hs)
    refine ⟨i1, ?_⟩
    intro x
    simp only [List.foldl]
    rw [i2 x, mem_setInsert]
    obtain ⟨k1, v1⟩ := hd
    by_cases hx : x = k1
    · subst hx; simp [mapFind]
    · simp [mapFind, hx]

/-- The set `unset_args` at the start of a pass holds the registered names, each once. -/
theorem initialUnsetArgs_spec (p : CommandLineParser) :
    (initialUnsetArgs p).Nodup ∧
    ∀ x, x ∈ initialUnsetArgs p ↔ (mapFind x p._options).isSome := by
  obtain ⟨h1, h2⟩ := foldl_setInsert_spec p._options [] List.Pairwise.nil
  exact ⟨nodup_of_sorted _ h1, fun x => by simpa using h2 x⟩

theorem filter_isSetOptionOf (n : String) (l : List Event) :
    (l.filter isSetOption).filter (isSetOptionOf n) = l.filter (isSetOptionOf n) := by
  rw [List.filter_filter]
  congr 1
  funext e
  cases e <;> simp [isSetOption, isSetOptionOf]

theorem filter_map_set_option (n : String) (d : String → String) :
    ∀ (l : List String), l.Nodup →
      (l.map (fun m => Event.set_option m (d m))).filter (isSetOptionOf n) =
        if n ∈ l then [Event.set_option n (d n)] else [] := by
  intro l
  induction l with
  | nil => intro _; rfl
  | cons a t ih =>
    intro h
    obtain ⟨ha, ht⟩ := List.nodup_cons.1 h
    simp only [List.map_cons, List.filter_cons, isSetOptionOf, ih ht]
    by_cases hn : a = n
    · subst hn
      simp [ha]
    · have hn2 : ¬ n = a := fun h => hn h.symm
      simp [hn, hn2]

theorem neverRegisters_of_fresh (cbs : Callbacks) (p : CommandLineParser)
    (hfresh : ∀ cb value info, info ∈ (cbs.did_set_value_cb cb value).1 →
      mapFind info.name p._options = none)
    (n : String) (hn : (mapFind n p._options).isSome) : neverRegisters cbs n := by
  intro cb value info hmem heq
  have := hfresh cb value info hmem
  rw [heq] at this
  rw [this] at hn
  exact Bool.false_ne_true hn

/-- The state after the scan of one pass relates to the state before it as `ScanKeeps`
says. -/
theorem scanPass_keeps (cbs : Callbacks) (p : CommandLineParser) :
    ∃ evs, ScanKeeps cbs ⟨p, initialUnsetArgs p, false⟩ (scanPass cbs p) evs :=
  scanArgs_keeps cbs (p._original_args.drop 1) false ⟨p, initialUnsetArgs p, false⟩

/-- The calls of `SetOption` made by the defaults step of a pass, for callbacks that do not
register a name present at the start of the pass. -/
theorem parsePass_defaults (cbs : Callbacks) (p : CommandLineParser)
    (hfresh : ∀ cb value info, info ∈ (cbs.did_set_value_cb cb value).1 →
      mapFind info.name p._options = none)
    (scanEvs : List Event)
    (hk : ScanKeeps cbs ⟨p, initialUnsetArgs p, false⟩ (scanPass cbs p) scanEvs) :
    (∀ n, n ∈ (scanPass cbs p).unset_args ↔
      ((mapFind n p._options).isSome ∧ scanEvs.any (isSetOptionOf n) = false)) ∧
    (scanPass cbs p).unset_args.Nodup ∧
    (∀ n, neverRegisters cbs n → n ∉ (scanPass cbs p).unset_args →
      mapFind n (parsePass cbs p).1._options = mapFind n (scanPass cbs p).parser._options) ∧
    ∃ defEvs, (parsePass cbs p).1.trace = (scanPass cbs p).parser.trace ++ defEvs ∧
      defEvs.filter isSetOption = (scanPass cbs p).unset_args.map
        (fun n => Event.set_option n (p.optionAt n).default_value_string) := by
  obtain ⟨hnd, hmem⟩ := initialUnsetArgs_spec p
  have hunset : ∀ n, n ∈ (scanPass cbs p).unset_args ↔
      ((mapFind n p._options).isSome ∧ scanEvs.any (isSetOptionOf n) = false) := by
    intro n
    rw [hk.unset, List.mem_filter]
    simp only [hmem]
    simp
  have hnodup : (scanPass cbs p).unset_args.Nodup := by
    rw [hk.unset]
    exact hnd.filter _
  obtain ⟨_, _, _, k4, _, defEvs, k6, _, k8⟩ := SetDefaultArgsLoop_spec cbs
    (scanPass cbs p).unset_args (scanPass cbs p).parser false
  have hall : ∀ n ∈ (scanPass cbs p).unset_args, neverRegisters cbs n ∧
      (mapFind n (scanPass cbs p).parser._options).isSome := by
    intro n hn
    have h1 := ((hunset n).1 hn).1
    exact ⟨neverRegisters_of_fresh cbs p hfresh n h1, hk.registered n h1⟩
  refine ⟨hunset, hnodup, fun n hr hn => k4 n hr hn, defEvs, k6, ?_⟩
  rw [k8 hall]
  apply List.map_congr_left
  intro n hn
  have h1 := ((hunset n).1 hn).1
  rw [hk.defaults n (neverRegisters_of_fresh cbs p hfresh n h1) h1]

/-- An explicit value that is accepted and is the last one the scan commits to an option
registered at the start of the pass is what the option holds when the pass ends. -/
theorem parsePass_explicit_value (cbs : Callbacks) (p : CommandLineParser)
    (hfresh : ∀ cb value info, info ∈ (cbs.did_set_value_cb cb value).1 →
      mapFind info.name p._options = none)
    (pre rest : List String) (flag val : String)
    (hsplit : p._original_args.drop 1 = pre ++ flag :: val :: rest)
    (hflag : charAt flag 0 = '-') (hval : charAt val 0 ≠ '-')
    (hname : (resolveOption flag
      (scanArgs cbs pre false ⟨p, initialUnsetArgs p, false⟩).parser).1 ≠ "")
    (hstart : (mapFind (resolveOption flag
      (scanArgs cbs pre false ⟨p, initialUnsetArgs p, false⟩).parser).1 p._options).isSome)
    (hacc : ∀ cb ∈ ((scanArgs cbs pre false ⟨p, initialUnsetArgs p, false⟩).parser.optionAt
        (resolveOption flag
          (scanArgs cbs pre false ⟨p, initialUnsetArgs p, false⟩).parser).1).set_value_callbacks,
      cbs.set_value_cb cb val = true)
    (hlast : ∀ e ∈ (scanArgs cbs rest false (scanStep cbs flag (some val)
          (scanArgs cbs pre false ⟨p, initialUnsetArgs p, false⟩)).1).parser.trace.drop
        (scanStep cbs flag (some val)
          (scanArgs cbs pre false ⟨p, initialUnsetArgs p, false⟩)).1.parser.trace.length,
      isSetOptionOf (resolveOption flag
        (scanArgs cbs pre false ⟨p, initialUnsetArgs p, false⟩).parser).1 e = false) :
    ((parsePass cbs p).1.optionAt (resolveOption flag
      (scanArgs cbs pre false ⟨p, initialUnsetArgs p, false⟩).parser).1).current_value_string =
      val := by
  generalize hS1 : scanArgs cbs pre false ⟨p, initialUnsetArgs p, false⟩ = S1 at *
  generalize hN : (resolveOption flag S1.parser).1 = N at *
  have hnr : neverRegisters cbs N := neverRegisters_of_fresh cbs p hfresh N hstart
  obtain ⟨_, _, r3, _⟩ := resolveOption_keeps flag S1.parser
  have hstep := scanStep_value cbs flag val S1 hflag (by rw [hN]; exact hname) hval
  rw [hN] at hstep
  generalize hS2 : (scanStep cbs flag (some val) S1).1 = S2 at *
  have hS2eq : S2 = ⟨(SetOption cbs N val (resolveOption flag S1.parser).2).1,
      setErase N S1.unset_args,
      (SetOption cbs N val (resolveOption flag S1.parser).2).2 || S1.needs_reparse⟩ := by
    rw [← hS2, hstep]
  have hscan : scanPass cbs p = scanArgs cbs rest false S2 := by
    unfold scanPass
    rw [hsplit, scanArgs_append cbs (flag :: val :: rest) (by simp [hflag]) pre false _
      (fun _ => rfl), hS1]
    simp only [scanArgs, List.head?_cons]
    rw [hstep, hS2eq]
    simp only [scanArgs]
  have hvalue : (S2.parser.optionAt N).current_value_string = val := by
    rw [hS2eq]
    apply SetOption_accepted_value
    · simpa [optionAt, r3] using hacc
    · intro cb _ i hi
      exact hnr cb val i hi
  obtain ⟨evs, hk⟩ := scanArgs_keeps cbs rest false S2
  have hevs : evs.any (isSetOptionOf N) = false := by
    rw [List.any_eq_false]
    intro e he
    have := hlast e (by rw [hk.trace]; simpa using he)
    simp [this]
  have hkeep : mapFind N (scanPass cbs p).parser._options = mapFind N S2.parser._options := by
    rw [hscan]
    exact hk.others N hnr hevs
  have hnot : N ∉ (scanPass cbs p).unset_args := by
    rw [hscan, hk.unset, hS2eq]
    intro h
    exact not_mem_setErase N _ (List.mem_filter.1 h).1
  obtain ⟨scanEvs, hk0⟩ := scanPass_keeps cbs p
  obtain ⟨_, _, h3, _⟩ := parsePass_defaults cbs p hfresh scanEvs hk0
  have : (parsePass cbs p).1.optionAt N = S2.parser.optionAt N := by
    simp only [optionAt]
    rw [h3 N hnr hnot, hkeep]
  rw [this, hvalue]

theorem charAt_zero_dash (s : String) : charAt ("-" ++ s) 0 = '-' := by
  simp [charAt, String.data_append]

theorem charAt_one_dash (s : String) : charAt ("-" ++ s) 1 = charAt s 0 := by
  simp [charAt, String.data_append]

/-- A token `-s` names what the alias table holds for `s`, when `s` does not start with
`-`. -/
theorem resolveOption_short (s long_name : String) (p : CommandLineParser)
    (hs : charAt s 0 ≠ '-') (hmap : mapFind s p._short_to_long_name_map = some long_name) :
    resolveOption ("-" ++ s) p = (long_name, p) := by
  unfold resolveOption
  rw [charAt_one_dash]
  simp only [hs, if_false]
  have : dropChars ("-" ++ s) 1 = s := by
    simp [dropChars, String.data_append]
  rw [this]
  unfold shortToLong
  rw [hmap]

/-- After two registrations under the same non-empty alias the alias names the second. -/
theorem alias_after_two (A B : OptionInfo) (p : CommandLineParser)
    (hs : A.short_name = B.short_name) (hne : B.short_name ≠ "") :
    mapFind B.short_name (AddOption B (AddOption A p))._short_to_long_name_map =
      some B.name := by
  unfold AddOption
  simp [hs, hne, mapFind_mapInsert_self]

theorem options_after_two (A B : OptionInfo) (p : CommandLineParser)
    (hab : A.name ≠ B.name) :
    mapFind A.name (AddOption B (AddOption A p))._options = some A ∧
    mapFind B.name (AddOption B (AddOption A p))._options = some B := by
  simp only [AddOption_options]
  exact ⟨by rw [mapFind_mapInsert_ne _ _ hab, mapFind_mapInsert_self],
    mapFind_mapInsert_self _ _ _⟩

theorem run_set_value_callbacks_false (cbs : Callbacks) (n v : String) (l : List CallbackId)
    (p : CommandLineParser) : run_set_value_callbacks cbs n v l p false = (p, false) := by
  induction l with
  | nil => rfl
  | cons cb rest ih => simp [run_set_value_callbacks, ih]

/-- The events of the validator loop: one invocation for each validator up to and including
the first that rejects. -/
theorem run_set_value_callbacks_trace (cbs : Callbacks) (n v : String) :
    ∀ (l : List CallbackId) (p : CommandLineParser),
      (run_set_value_callbacks cbs n v l p true).1 =
        { p with trace := p.trace ++ validatorEvents cbs n v l } := by
  intro l
  induction l with
  | nil => intro p; simp [run_set_value_callbacks, validatorEvents, invokedValidators]
  | cons cb rest ih =>
    intro p
    unfold run_set_value_callbacks validatorEvents invokedValidators
    simp only [if_true]
    cases hcb : cbs.set_value_cb cb v with
    | false =>
      rw [run_set_value_callbacks_false]
      simp [emit, hcb]
    | true =>
      rw [ih]
      simp [emit, hcb, validatorEvents]

/-- The events of one call of `SetOption`: the call, the validator invocations, and then
did-set invocations only. -/
theorem SetOption_trace (cbs : Callbacks) (p : CommandLineParser) (n v : String) :
    ∃ devs, (SetOption cbs n v p).1.trace =
        p.trace ++ Event.set_option n v ::
          (validatorEvents cbs n v (p.optionAt n).set_value_callbacks ++ devs) ∧
      ∀ e ∈ devs, ∃ cb w r, e = Event.did_set_value_cb n cb w r := by
  unfold SetOption
  simp only [modifyOption_optionAt_self, emit_optionAt]
  generalize hp1 : (p.emit (Event.set_option n v)).modifyOption n
    (fun o => { o with current_value_string := v }) = p1
  have ht1 : p1.trace = p.trace ++ [Event.set_option n v] := by rw [← hp1]; simp
  rw [run_set_value_callbacks_trace]
  generalize validatorEvents cbs n v (p.optionAt n).set_value_callbacks = ve
  generalize hp2 : ({ p1 with trace := p1.trace ++ ve } : CommandLineParser) = p2
  have ht2 : p2.trace = p1.trace ++ ve := by rw [← hp2]
  split
  · obtain ⟨_, devs, h1, h2⟩ := run_did_set_value_callbacks_keeps cbs n
      (p2.optionAt n).did_set_value_callbacks 0 p2 false
    exact ⟨devs, by rw [h1, ht2, ht1]; simp, h2⟩
  · exact ⟨[], by simp [ht2, ht1], by simp⟩

/-- The scan's own reading of the tokens agrees with the neighbour rule. -/
theorem positionalsFrom_eq_after :
    ∀ (toks : List String) (prev : Option String),
      positionalsFrom toks
          ((match prev with
            | none => false
            | some q => decide (charAt q 0 = '-') && q != "--") && nextIsValue toks.head?) =
        positionalsAfter prev toks := by
  intro toks
  induction toks with
  | nil => intro prev; simp [positionalsFrom, positionalsAfter]
  | cons t rest ih =>
    intro prev
    have ih1 := ih (some t)
    simp only at ih1
    by_cases ht : charAt t 0 = '-'
    · have hnv : nextIsValue (some t) = false := by simp [nextIsValue, ht]
      simp only [List.head?_cons, hnv, Bool.and_false, positionalsFrom, ht, if_true,
        positionalsAfter, isPositionalAfter]
      simp only [ht, decide_True, Bool.true_and] at ih1
      rw [ih1]
      simp
    · have hnv : nextIsValue (some t) = true := by simp [nextIsValue, ht]
      have hdt : decide (charAt t 0 = '-') = false := by simp [ht]
      simp only [hdt, Bool.false_and] at ih1
      simp only [List.head?_cons, hnv, Bool.and_true]
      cases prev with
      | none =>
        simp only [positionalsFrom, ht, if_false, positionalsAfter, isPositionalAfter]
        rw [ih1]
        simp [ht]
      | some q =>
        by_cases hq : charAt q 0 = '-'
        · by_cases hq2 : q = "--"
          · simp only [hq2, positionalsAfter, isPositionalAfter]
            simp only [bne_self_eq_false, Bool.and_false, positionalsFrom, ht, if_false]
            rw [ih1]
            simp [ht]
          · simp only [hq, decide_True, Bool.true_and, positionalsAfter, isPositionalAfter]
            have : (q != "--") = true := by simpa using hq2
            simp only [this, positionalsFrom]
            rw [ih1]
            simp [hq, hq2]
        · simp only [hq, decide_False, Bool.false_and, positionalsFrom, ht, if_false,
            positionalsAfter, isPositionalAfter]
          rw [ih1]
          simp [ht, hq]

theorem getD_append_length (prevs rest : List String) (t : String) :
    (prevs ++ t :: rest).getD prevs.length "" = t := by
  induction prevs with
  | nil => rfl
  | cons a l ih => simpa [List.getD] using ih

theorem getD_append_pred (prevs rest : List String) (t : String) (h : prevs ≠ []) :
    some ((prevs ++ t :: rest).getD (prevs.length - 1) "") = prevs.getLast? := by
  induction prevs with
  | nil => exact absurd rfl h
  | cons a l ih =>
    cases l with
    | nil => rfl
    | cons b l2 =>
      have := ih (by simp)
      simp only [List.length_cons, Nat.add_sub_cancel, List.cons_append] at this ⊢
      rw [List.getLast?_cons_cons, ← this]
      rfl

/-- The rule by index, read along the tokens that follow `prevs`, is the neighbour rule. -/
theorem byRule_aux :
    ∀ (toks prevs : List String), prevs ≠ [] →
      ((List.range' prevs.length toks.length).filter (positionalRule (prevs ++ toks))).map
          (fun i => (prevs ++ toks).getD i "") =
        positionalsAfter (if prevs.length = 1 then none else prevs.getLast?) toks := by
  intro toks
  induction toks with
  | nil => intro prevs _; simp [positionalsAfter]
  | cons t rest ih =>
    intro prevs hne
    have hlen : 1 ≤ prevs.length := by
      cases prevs with
      | nil => exact absurd rfl hne
      | cons a l => simp
    have ih1 := ih (prevs ++ [t]) (by simp)
    have hassoc : prevs ++ [t] ++ rest = prevs ++ t :: rest := by simp
    have hlen2 : ¬ (prevs ++ [t]).length = 1 := by
      rw [List.length_append, List.length_singleton]; omega
    rw [hassoc] at ih1
    have hlast : (prevs ++ [t]).getLast? = some t := by simp
    simp only [hlen2, if_false, hlast, List.length_append, List.length_singleton] at ih1
    have hne1 : ¬ prevs.length + 1 = 1 := by omega
    simp only [hne1, if_false] at ih1
    simp only [List.length_cons, List.range'_succ, List.filter_cons, positionalsAfter]
    have hcur : (prevs ++ t :: rest).getD prevs.length "" = t := getD_append_length _ _ _
    have hprev := getD_append_pred prevs rest t hne
    have hrule : positionalRule (prevs ++ t :: rest) prevs.length =
        isPositionalAfter (if prevs.length = 1 then none else prevs.getLast?) t := by
      unfold positionalRule isPositionalAfter
      rw [hcur]
      by_cases h1 : prevs.length = 1
      · simp [h1]
      · simp only [h1, if_false, ← hprev]
        have : (prevs.length == 1) = false := by simpa using h1
        simp [this, hlen]
    rw [hrule]
    by_cases hp : isPositionalAfter (if prevs.length = 1 then none else prevs.getLast?) t = true
    · simp only [hp, if_true, List.map_cons, hcur]
      rw [ih1]
    · simp only [hp, if_false, Bool.false_eq_true]
      rw [ih1]

/-- The positional arguments one scan reads off the raw tokens after the program path are
the tokens the rule by index selects. -/
theorem positionalsFrom_eq_byRule (args : List String) :
    positionalsFrom (args.drop 1) false = positionalsByRule args := by
  cases args with
  | nil => rfl
  | cons a0 toks =>
    have h1 := positionalsFrom_eq_after toks none
    simp only [Bool.false_and] at h1
    have h2 := byRule_aux toks [a0] (by simp)
    simp only [List.length_singleton, if_true, List.singleton_append] at h2
    unfold positionalsByRule
    rw [List.drop_succ_cons, List.drop_zero, h1, ← h2, List.length_cons, List.range_eq_range',
      List.range'_succ, List.filter_cons]
    have h0 : positionalRule (a0 :: toks) 0 = false := by simp [positionalRule]
    simp [h0]

/-- When the loop stops after `k` passes, the final parser is the one after `k` passes. -/
theorem parseLoop_eq_runPasses (cbs : Callbacks) :
    ∀ (fuel : Nat) (p q : CommandLineParser) (k : Nat), parseLoop cbs fuel p = some (q, k) →
      q = runPasses cbs k p ∧ (parsePass cbs (runPasses cbs (k - 1) p)).2 = false := by
  intro fuel
  induction fuel with
  | zero => intro p q k h; simp [parseLoop] at h
  | succ fuel ih =>
    intro p q k h
    unfold parseLoop at h
    by_cases hr : (parsePass cbs p).2 = true
    · simp only [hr, if_true] at h
      cases hl : parseLoop cbs fuel (parsePass cbs p).1 with
      | none => simp [hl] at h
      | some r =>
        obtain ⟨q1, k1⟩ := r
        simp only [hl, Option.map_some', Option.some.injEq, Prod.mk.injEq] at h
        obtain ⟨b1, b2⟩ := ih _ _ _ hl
        obtain ⟨_, _, hk1, _⟩ := parseLoop_args cbs fuel _ _ _ hl
        obtain ⟨rfl, rfl⟩ := h
        refine ⟨by rw [b1]; rfl, ?_⟩
        obtain ⟨j, rfl⟩ : ∃ j, k1 = j + 1 := ⟨k1 - 1, by omega⟩
        simpa [runPasses] using b2
    · simp only [hr, Bool.false_eq_true, if_false, Option.some.injEq, Prod.mk.injEq] at h
      obtain ⟨rfl, rfl⟩ := h
      exact ⟨rfl, by simpa [runPasses] using hr⟩

section Rebase

variable (oa : List String) (ex : String) (ar : List String) (dc : List DocumentationEntry)
  (ev : List Event)

theorem rebase_optionAt (n : String) (p : CommandLineParser) :
    (rebase oa ex ar dc ev p).optionAt n = p.optionAt n := rfl

theorem rebase_emit (e : Event) (p : CommandLineParser) :
    (rebase oa ex ar dc ev p).emit e = rebase oa ex ar dc ev (p.emit e) := by
  simp [rebase, emit, List.append_assoc]

theorem rebase_modifyOption (n : String) (f : OptionInfo → OptionInfo)
    (p : CommandLineParser) :
    (rebase oa ex ar dc ev p).modifyOption n f = rebase oa ex ar dc ev (p.modifyOption n f) :=
  rfl

theorem rebase_AddOption (i : OptionInfo) (p : CommandLineParser) :
    (rebase oa ex ar dc ev p).AddOption i = rebase oa ex ar dc ev (p.AddOption i) := by
  unfold AddOption
  split <;> simp [rebase, List.append_assoc]

theorem rebase_AddOptions (l : List OptionInfo) (p : CommandLineParser) :
    (rebase oa ex ar dc ev p).AddOptions l = rebase oa ex ar dc ev (p.AddOptions l) := by
  induction l generalizing p with
  | nil => rfl
  | cons i rest ih =>
    simp only [AddOptions, List.foldl] at ih ⊢
    rw [rebase_AddOption, ih]

theorem rebase_run_set_value_callbacks (cbs : Callbacks) (n v : String)
    (l : List CallbackId) (p : CommandLineParser) (ok : Bool) :
    run_set_value_callbacks cbs n v l (rebase oa ex ar dc ev p) ok =
      (rebase oa ex ar dc ev (run_set_value_callbacks cbs n v l p ok).1,
        (run_set_value_callbacks cbs n v l p ok).2) := by
  induction l generalizing p ok with
  | nil => rfl
  | cons cb rest ih =>
    unfold run_set_value_callbacks
    cases ok
    · simp only [Bool.false_eq_true, if_false]
      exact ih p false
    · simp only [if_true]
      rw [rebase_emit]
      exact ih _ _

theorem rebase_run_did_set_value_callbacks (cbs : Callbacks) (n : String)
    (todo : List CallbackId) (pos : Nat) (p : CommandLineParser) (b : Bool) :
    run_did_set_value_callbacks cbs n todo pos (rebase oa ex ar dc ev p) b =
      (rebase oa ex ar dc ev (run_did_set_value_callbacks cbs n todo pos p b).1,
        (run_did_set_value_callbacks cbs n todo pos p b).2) := by
  induction todo generalizing pos p b with
  | nil => rfl
  | cons cb rest ih =>
    unfold run_did_set_value_callbacks
    simp only [rebase_optionAt, rebase_emit, rebase_AddOptions, rebase_modifyOption]
    split
    · exact ih _ _ _
    · exact ih _ _ _

theorem rebase_SetOption (cbs : Callbacks) (n v : String) (p : CommandLineParser) :
    SetOption cbs n v (rebase oa ex ar dc ev p) =
      (rebase oa ex ar dc ev (SetOption cbs n v p).1, (SetOption cbs n v p).2) := by
  unfold SetOption
  simp only [rebase_emit, rebase_optionAt, rebase_modifyOption, rebase_run_set_value_callbacks,
    rebase_run_did_set_value_callbacks]
  split <;> rfl

theorem rebase_SetDefaultArgsLoop (cbs : Callbacks) (l : List String)
    (p : CommandLineParser) (nr : Bool) :
    SetDefaultArgsLoop cbs l (rebase oa ex ar dc ev p) nr =
      (rebase oa ex ar dc ev (SetDefaultArgsLoop cbs l p nr).1,
        (SetDefaultArgsLoop cbs l p nr).2) := by
  induction l generalizing p nr with
  | nil => rfl
  | cons a rest ih =>
    unfold SetDefaultArgsLoop
    have h : (rebase oa ex ar dc ev p)._options = p._options := rfl
    rw [h]
    cases mapFind a p._options with
    | none => exact ih p nr
    | some info =>
      simp only [rebase_SetOption]
      exact ih _ _

theorem rebase_resolveOption (arg : String) (p : CommandLineParser) :
    resolveOption arg (rebase oa ex ar dc ev p) =
      ((resolveOption arg p).1, rebase oa ex ar dc ev (resolveOption arg p).2) := by
  unfold resolveOption
  split
  · rfl
  · unfold shortToLong
    have h : (rebase oa ex ar dc ev p)._short_to_long_name_map = p._short_to_long_name_map :=
      rfl
    rw [h]
    cases mapFind (dropChars arg 1) p._short_to_long_name_map <;> rfl

theorem rebase_scanStep (cbs : Callbacks) (arg : String) (next : Option String)
    (st : PassState) :
    scanStep cbs arg next (rebaseState oa ex ar dc ev st) =
      (rebaseState oa ex ar dc ev (scanStep cbs arg next st).1,
        (scanStep cbs arg next st).2) := by
  unfold scanStep
  have hp : (rebaseState oa ex ar dc ev st).parser = rebase oa ex ar dc ev st.parser := rfl
  simp only [hp, rebase_resolveOption]
  by_cases h0 : charAt arg 0 = '-'
  · simp only [h0, if_true]
    by_cases h1 : (resolveOption arg st.parser).1 = ""
    · simp only [h1, if_true]
      by_cases h2 : arg = "--"
      · simp [h2, rebaseState]
      · simp [h2, rebaseState, rebase_emit]
    · simp only [h1, if_false]
      cases next with
      | none => simp [rebase_SetOption, rebaseState]
      | some val =>
        by_cases h3 : charAt val 0 = '-'
        · simp [h3, rebase_SetOption, rebaseState]
        · simp [h3, rebase_SetOption, rebaseState]
  · simp [h0, rebaseState, rebase, List.append_assoc]

theorem rebase_scanArgs (cbs : Callbacks) (toks : List String) (skip : Bool)
    (st : PassState) :
    scanArgs cbs toks skip (rebaseState oa ex ar dc ev st) =
      rebaseState oa ex ar dc ev (scanArgs cbs toks skip st) := by
  induction toks generalizing skip st with
  | nil => rfl
  | cons a rest ih =>
    cases skip with
    | true => simpa [scanArgs] using ih false st
    | false =>
      simp only [scanArgs]
      rw [rebase_scanStep]
      exact ih _ _

/-- One pass on a rebased parser that keeps its own raw arguments is the pass on the parser,
rebased. -/
theorem rebase_parsePass (cbs : Callbacks) (p : CommandLineParser) :
    parsePass cbs (rebase p._original_args ex ar dc ev p) =
      (rebase p._original_args ex ar dc ev (parsePass cbs p).1, (parsePass cbs p).2) := by
  unfold parsePass scanPass SetDefaultArgs
  have h1 : (⟨rebase p._original_args ex ar dc ev p,
      initialUnsetArgs (rebase p._original_args ex ar dc ev p), false⟩ : PassState) =
      rebaseState p._original_args ex ar dc ev ⟨p, initialUnsetArgs p, false⟩ := rfl
  have h2 : (rebase p._original_args ex ar dc ev p)._original_args = p._original_args := rfl
  simp only [h1, h2, rebase_scanArgs]
  have h3 : ∀ st : PassState, (rebaseState p._original_args ex ar dc ev st).parser =
      rebase p._original_args ex ar dc ev st.parser := fun _ => rfl
  have h4 : ∀ st : PassState, (rebaseState p._original_args ex ar dc ev st).unset_args =
      st.unset_args := fun _ => rfl
  have h5 : ∀ st : PassState, (rebaseState p._original_args ex ar dc ev st).needs_reparse =
      st.needs_reparse := fun _ => rfl
  simp only [h3, h4, h5, rebase_SetDefaultArgsLoop]

end Rebase

theorem rebase_rebase (oa oa2 : List String) (ex ex2 : String) (ar ar2 : List String)
    (dc dc2 : List DocumentationEntry) (ev ev2 : List Event) (p : CommandLineParser) :
    rebase oa ex ar dc ev (rebase oa2 ex2 ar2 dc2 ev2 p) =
      rebase oa ex (ar ++ ar2) (dc ++ dc2) (ev ++ ev2) p := by
  simp [rebase, List.append_assoc]

/-- One pass on the steady ping-pong registry, whatever has been collected before: the
registry comes back and the pass asks for another one. -/
theorem pingPong_pass (ex : String) (ar : List String) (dc : List DocumentationEntry)
    (ev : List Event) :
    ∃ ar2 dc2 ev2, parsePass pingPongCallbacks (rebase ["prog"] ex ar dc ev pingPongSteady) =
      (rebase ["prog"] ex ar2 dc2 ev2 pingPongSteady, true) := by
  have h := rebase_parsePass ex ar dc ev pingPongCallbacks pingPongSteady
  have h0 : pingPongSteady._original_args = ["prog"] := rfl
  rw [h0] at h
  have h1 : parsePass pingPongCallbacks pingPongSteady =
      (rebase ["prog"] "" []
        [⟨DocumentationEntryType.option, "B"⟩, ⟨DocumentationEntryType.option, "A"⟩]
        [Event.set_option "A" "", Event.set_value_cb "A" 0 "" true,
          Event.did_set_value_cb "A" 1 "" true,
          Event.set_option "B" "", Event.set_value_cb "B" 0 "" true,
          Event.did_set_value_cb "B" 2 "" true] pingPongSteady, true) := by
    decide
  rw [h1] at h
  simp only [rebase_rebase] at h
  exact ⟨_, _, _, h⟩

theorem pingPong_parseLoop (n : Nat) :
    ∀ (ex : String) (ar : List String) (dc : List DocumentationEntry) (ev : List Event),
      parseLoop pingPongCallbacks n (rebase ["prog"] ex ar dc ev pingPongSteady) = none := by
  induction n with
  | zero => intro ex ar dc ev; rfl
  | succ n ih =>
    intro ex ar dc ev
    obtain ⟨ar2, dc2, ev2, h⟩ := pingPong_pass ex ar dc ev
    unfold parseLoop
    simp only [h, if_true, ih, Option.map_none']

theorem pingPong_runPasses (k : Nat) :
    ∀ (ex : String) (ar : List String) (dc : List DocumentationEntry) (ev : List Event),
      (parsePass pingPongCallbacks (runPasses pingPongCallbacks k
        (rebase ["prog"] ex ar dc ev pingPongSteady))).2 = true := by
  induction k with
  | zero =>
    intro ex ar dc ev
    obtain ⟨ar2, dc2, ev2, h⟩ := pingPong_pass ex ar dc ev
    simp only [runPasses, h]
  | succ k ih =>
    intro ex ar dc ev
    obtain ⟨ar2, dc2, ev2, h⟩ := pingPong_pass ex ar dc ev
    simp only [runPasses, h]
    exact ih _ _ _ _

/-- The ping-pong parser reaches the steady registry after two passes, both of which ask
for another pass. -/
theorem pingPong_start :
    (parsePass pingPongCallbacks { pingPongParser with _exe_name := exeNameOf "prog" }).2 =
      true ∧
    (parsePass pingPongCallbacks (parsePass pingPongCallbacks
      { pingPongParser with _exe_name := exeNameOf "prog" }).1).2 = true ∧
    ∃ dc ev, (parsePass pingPongCallbacks (parsePass pingPongCallbacks
      { pingPongParser with _exe_name := exeNameOf "prog" }).1).1 =
        rebase ["prog"] "prog" [] dc ev pingPongSteady :=
  ⟨by decide, by decide,
    [⟨DocumentationEntryType.option, "A"⟩, ⟨DocumentationEntryType.option, "B"⟩,
      ⟨DocumentationEntryType.option, "A"⟩],
    [Event.set_option "A" "", Event.set_value_cb "A" 0 "" true,
      Event.did_set_value_cb "A" 1 "" true,
      Event.set_option "A" "", Event.set_value_cb "A" 0 "" true,
      Event.set_option "B" "", Event.set_value_cb "B" 0 "" true,
      Event.did_set_value_cb "B" 2 "" true], by decide⟩

theorem run_set_value_callbacks_aliases (cbs : Callbacks) (n v : String)
    (l : List CallbackId) (p : CommandLineParser) (ok : Bool) :
    (run_set_value_callbacks cbs n v l p ok).1._short_to_long_name_map =
      p._short_to_long_name_map := by
  obtain ⟨evs, h, _⟩ := run_set_value_callbacks_fst cbs n v l p ok
  rw [h]

theorem run_did_set_value_callbacks_aliases (cbs : Callbacks)
    (hnone : ∀ cb value, (cbs.did_set_value_cb cb value).1 = []) (n : String) :
    ∀ (todo : List CallbackId) (pos : Nat) (p : CommandLineParser) (b : Bool),
      (run_did_set_value_callbacks cbs n todo pos p b).1._short_to_long_name_map =
        p._short_to_long_name_map := by
  intro todo
  induction todo with
  | nil => intro pos p b; rfl
  | cons cb rest ih =>
    intro pos p b
    unfold run_did_set_value_callbacks
    simp only [hnone, AddOptions, List.foldl]
    split
    · rw [ih]; rfl
    · rw [ih]; rfl

/-- When the callbacks register no option, `SetOption` leaves the alias table alone. -/
theorem SetOption_aliases (cbs : Callbacks)
    (hnone : ∀ cb value, (cbs.did_set_value_cb cb value).1 = [])
    (n v : String) (p : CommandLineParser) :
    (SetOption cbs n v p).1._short_to_long_name_map = p._short_to_long_name_map := by
  unfold SetOption
  simp only
  split
  · rw [run_did_set_value_callbacks_aliases cbs hnone, run_set_value_callbacks_aliases]
    rfl
  · show (run_set_value_callbacks cbs n v _ _ true).1._short_to_long_name_map = _
    rw [run_set_value_callbacks_aliases]
    rfl

theorem SetDefaultArgsLoop_aliases (cbs : Callbacks)
    (hnone : ∀ cb value, (cbs.did_set_value_cb cb value).1 = []) :
    ∀ (l : List String) (p : CommandLineParser) (nr : Bool),
      (SetDefaultArgsLoop cbs l p nr).1._short_to_long_name_map =
        p._short_to_long_name_map := by
  intro l
  induction l with
  | nil => intro p nr; rfl
  | cons a rest ih =>
    intro p nr
    unfold SetDefaultArgsLoop
    cases mapFind a p._options with
    | none => exact ih p nr
    | some info =>
      simp only
      rw [ih, SetOption_aliases cbs hnone]

theorem resolveOption_alias_kept (arg s n : String) (p : CommandLineParser)
    (h : mapFind s p._short_to_long_name_map = some n) :
    mapFind s (resolveOption arg p).2._short_to_long_name_map = some n := by
  unfold resolveOption
  split
  · exact h
  · unfold shortToLong
    cases hk : mapFind (dropChars arg 1) p._short_to_long_name_map with
    | some long_name => exact h
    | none =>
      have hne : s ≠ dropChars arg 1 := by
        intro heq
        rw [heq, hk] at h
        cases h
      simp only
      rw [mapFind_mapInsert_ne _ _ hne]
      exact h

/-- When the callbacks register no option, an alias the table holds stays as it is through
the body of the scan loop. -/
theorem scanStep_alias_kept (cbs : Callbacks)
    (hnone : ∀ cb value, (cbs.did_set_value_cb cb value).1 = [])
    (arg : String) (next : Option String) (st : PassState) (s n : String)
    (h : mapFind s st.parser._short_to_long_name_map = some n) :
    mapFind s (scanStep cbs arg next st).1.parser._short_to_long_name_map = some n := by
  have hr := resolveOption_alias_kept arg s n st.parser h
  unfold scanStep
  by_cases h0 : charAt arg 0 = '-'
  · simp only [h0, if_true]
    by_cases h1 : (resolveOption arg st.parser).1 = ""
    · simp only [h1, if_true]
      by_cases h2 : arg = "--"
      · simpa [h2] using hr
      · simpa [h2, emit] using hr
    · simp only [h1, if_false]
      cases next with
      | none => simpa [SetOption_aliases cbs hnone] using hr
      | some val =>
        by_cases h3 : charAt val 0 = '-'
        · simpa [h3, SetOption_aliases cbs hnone] using hr
        · simpa [h3, SetOption_aliases cbs hnone] using hr
  · simpa [h0] using h

theorem scanArgs_alias_kept (cbs : Callbacks)
    (hnone : ∀ cb value, (cbs.did_set_value_cb cb value).1 = []) (s n : String) :
    ∀ (toks : List String) (skip : Bool) (st : PassState),
      mapFind s st.parser._short_to_long_name_map = some n →
      mapFind s (scanArgs cbs toks skip st).parser._short_to_long_name_map = some n := by
  intro toks
  induction toks with
  | nil => intro skip st h; exact h
  | cons a rest ih =>
    intro skip st h
    cases skip with
    | true => simpa [scanArgs] using ih false st h
    | false =>
      simp only [scanArgs]
      exact ih _ _ (scanStep_alias_kept cbs hnone a rest.head? st s n h)

theorem parsePass_alias_kept (cbs : Callbacks)
    (hnone : ∀ cb value, (cbs.did_set_value_cb cb value).1 = []) (s n : String)
    (p : CommandLineParser) (h : mapFind s p._short_to_long_name_map = some n) :
    mapFind s (parsePass cbs p).1._short_to_long_name_map = some n := by
  unfold parsePass SetDefaultArgs scanPass
  simp only
  rw [SetDefaultArgsLoop_aliases cbs hnone]
  exact scanArgs_alias_kept cbs hnone s n _ _ _ h

/-- The body of the scan loop does the same at `-s` and at `--n` when the alias table maps
`s` to `n`. -/
theorem scanStep_short_long (cbs : Callbacks) (s n : String) (next : Option String)
    (st : PassState) (hdash : charAt s 0 ≠ '-') (hn : n ≠ "")
    (h : mapFind s st.parser._short_to_long_name_map = some n) :
    scanStep cbs ("--" ++ n) next st = scanStep cbs ("-" ++ s) next st := by
  unfold scanStep
  rw [resolveOption_long, resolveOption_short s n st.parser hdash h]
  simp [charAt_zero_dashes, charAt_zero_dash, hn]

/-- The body of the scan loop looks at the next token only to see whether it starts with
`-`, and takes it as the value when it does not. -/
theorem scanStep_next_related (cbs : Callbacks) (arg : String) (a b : String)
    (st : PassState) (h : a = b ∨ (charAt a 0 = '-' ∧ charAt b 0 = '-')) :
    scanStep cbs arg (some b) st = scanStep cbs arg (some a) st := by
  rcases h with h | ⟨ha, hb⟩
  · rw [h]
  · rw [scanStep_next_dash cbs arg a st ha, scanStep_next_dash cbs arg b st hb]

/-- Replacing tokens `-s` by `--n` does not change the scan, when the alias table maps `s`
to `n` and the callbacks register no option. -/
theorem scanArgs_short_long (cbs : Callbacks)
    (hnone : ∀ cb value, (cbs.did_set_value_cb cb value).1 = []) (s n : String)
    (hdash : charAt s 0 ≠ '-') (hn : n ≠ "") (toks toks2 : List String)
    (hrel : List.Forall₂ (fun a b => b = a ∨ (a = "-" ++ s ∧ b = "--" ++ n)) toks toks2) :
    ∀ (skip : Bool) (st : PassState),
      mapFind s st.parser._short_to_long_name_map = some n →
      scanArgs cbs toks2 skip st = scanArgs cbs toks skip st := by
  induction hrel with
  | nil => intro skip st _; rfl
  | @cons a b rest rest2 hab hrest ih =>
    intro skip st hI
    cases skip with
    | true => simpa [scanArgs] using ih false st hI
    | false =>
      simp only [scanArgs]
      have hstep : scanStep cbs b rest2.head? st = scanStep cbs a rest.head? st := by
        have hnext : scanStep cbs b rest2.head? st = scanStep cbs b rest.head? st := by
          cases hrest with
          | nil => rfl
          | @cons x y r r2 hxy _ =>
            simp only [List.head?_cons]
            apply scanStep_next_related
            rcases hxy with h | ⟨h1, h2⟩
            · exact Or.inl h.symm
            · exact Or.inr ⟨by rw [h1]; exact charAt_zero_dash s,
                by rw [h2]; exact charAt_zero_dashes n⟩
        rw [hnext]
        rcases hab with h | ⟨h1, h2⟩
        · rw [h]
        · rw [h1, h2]
          exact scanStep_short_long cbs s n _ st hdash hn hI
      rw [hstep]
      exact ih _ _ (scanStep_alias_kept cbs hnone a rest.head? st s n hI)

/-- One pass over the tokens with `-s` replaced by `--n` is the pass over the tokens. -/
theorem parsePass_short_long (cbs : Callbacks)
    (hnone : ∀ cb value, (cbs.did_set_value_cb cb value).1 = []) (s n : String)
    (hdash : charAt s 0 ≠ '-') (hn : n ≠ "") (exe ex : String) (toks toks2 : List String)
    (hrel : List.Forall₂ (fun a b => b = a ∨ (a = "-" ++ s ∧ b = "--" ++ n)) toks toks2)
    (q : CommandLineParser) (hargs : q._original_args = exe :: toks)
    (hI : mapFind s q._short_to_long_name_map = some n) :
    parsePass cbs (rebase (exe :: toks2) ex [] [] [] q) =
      (rebase (exe :: toks2) ex [] [] [] (parsePass cbs q).1, (parsePass cbs q).2) := by
  have hscan : scanPass cbs (rebase (exe :: toks2) ex [] [] [] q) =
      rebaseState (exe :: toks2) ex [] [] [] (scanPass cbs q) := by
    unfold scanPass
    have h1 : (rebase (exe :: toks2) ex [] [] [] q)._original_args.drop 1 = toks2 := rfl
    have h2 : q._original_args.drop 1 = toks := by rw [hargs]; rfl
    have h3 : (⟨rebase (exe :: toks2) ex [] [] [] q,
        initialUnsetArgs (rebase (exe :: toks2) ex [] [] [] q), false⟩ : PassState) =
        rebaseState (exe :: toks2) ex [] [] [] ⟨q, initialUnsetArgs q, false⟩ := rfl
    rw [h1, h2, h3, scanArgs_short_long cbs hnone s n hdash hn toks toks2 hrel _ _ hI,
      rebase_scanArgs]
  unfold parsePass SetDefaultArgs
  simp only [hscan]
  have h3 : ∀ st : PassState, (rebaseState (exe :: toks2) ex [] [] [] st).parser =
      rebase (exe :: toks2) ex [] [] [] st.parser := fun _ => rfl
  have h4 : ∀ st : PassState, (rebaseState (exe :: toks2) ex [] [] [] st).unset_args =
      st.unset_args := fun _ => rfl
  have h5 : ∀ st : PassState, (rebaseState (exe :: toks2) ex [] [] [] st).needs_reparse =
      st.needs_reparse := fun _ => rfl
  simp only [h3, h4, h5, rebase_SetDefaultArgsLoop]

theorem parseLoop_short_long (cbs : Callbacks)
    (hnone : ∀ cb value, (cbs.did_set_value_cb cb value).1 = []) (s n : String)
    (hdash : charAt s 0 ≠ '-') (hn : n ≠ "") (exe ex : String) (toks toks2 : List String)
    (hrel : List.Forall₂ (fun a b => b = a ∨ (a = "-" ++ s ∧ b = "--" ++ n)) toks toks2) :
    ∀ (fuel : Nat) (q : CommandLineParser), q._original_args = exe :: toks →
      mapFind s q._short_to_long_name_map = some n →
      parseLoop cbs fuel (rebase (exe :: toks2) ex [] [] [] q) =
        (parseLoop cbs fuel q).map (fun r => (rebase (exe :: toks2) ex [] [] [] r.1, r.2)) := by
  intro fuel
  induction fuel with
  | zero => intro q _ _; rfl
  | succ fuel ih =>
    intro q hargs hI
    unfold parseLoop
    simp only [parsePass_short_long cbs hnone s n hdash hn exe ex toks toks2 hrel q hargs hI]
    split
    · rw [ih _ ((parsePass_args cbs q).2.trans hargs)
        (parsePass_alias_kept cbs hnone s n q hI)]
      cases parseLoop cbs fuel (parsePass cbs q).1 <;> rfl
    · rfl

theorem eq_sentinel_of_long_empty (arg : String) (h0 : charAt arg 0 = '-')
    (h1 : charAt arg 1 = '-') (h2 : dropChars arg 2 = "") : arg = "--" := by
  obtain ⟨l⟩ := arg
  cases l with
  | nil => simp [charAt] at h0
  | cons c1 t =>
    cases t with
    | nil => simp [charAt] at h1
    | cons c2 r =>
      simp only [charAt, List.get?_cons_zero, Option.getD_some] at h0
      simp only [charAt, List.get?_cons_succ, List.get?_cons_zero, Option.getD_some] at h1
      have h3 : r = [] := by
        have := congrArg String.data h2
        simpa [dropChars] using this
      subst h0 h1 h3
      rfl

/-- The events of the body of the scan loop hold a diagnostic only when the token starts
with a single `-` and its alias is absent from the alias table or mapped to the empty
name. -/
theorem scanStep_unknown_only (cbs : Callbacks) (arg : String) (next : Option String)
    (st : PassState)
    (h : ∃ e ∈ (scanStep cbs arg next st).1.parser.trace.drop st.parser.trace.length,
      isUnknownOption e = true) :
    charAt arg 0 = '-' ∧ charAt arg 1 ≠ '-' ∧
      (mapFind (dropChars arg 1) st.parser._short_to_long_name_map = none ∨
        mapFind (dropChars arg 1) st.parser._short_to_long_name_map = some "") := by
  obtain ⟨_, _, r3, r4⟩ := resolveOption_keeps arg st.parser
  have hcommit : ∀ v : String, ¬ ∃ e ∈ (SetOption cbs (resolveOption arg st.parser).1 v
      (resolveOption arg st.parser).2).1.trace.drop st.parser.trace.length,
      isUnknownOption e = true := by
    intro v ⟨e, he, hu⟩
    obtain ⟨_, evs, ht, hev⟩ := SetOption_keeps cbs (resolveOption arg st.parser).2
      (resolveOption arg st.parser).1 v
    rw [ht, r4, List.drop_left'] at he
    rcases List.mem_cons.1 he with h1 | h1
    · rw [h1] at hu; simp [isUnknownOption] at hu
    · rw [(hev e h1).2] at hu; exact Bool.false_ne_true hu
    · rfl
  by_cases h0 : charAt arg 0 = '-'
  · by_cases h1 : (resolveOption arg st.parser).1 = ""
    · by_cases h2 : arg = "--"
      · exfalso
        obtain ⟨e, he, _⟩ := h
        rw [h2, scanStep_sentinel] at he
        simp at he
      · have hc1 : charAt arg 1 ≠ '-' := by
          intro hc
          apply h2
          apply eq_sentinel_of_long_empty arg h0 hc
          simpa [resolveOption, hc] using h1
        refine ⟨h0, hc1, ?_⟩
        simp only [resolveOption, hc1, if_false, shortToLong] at h1
        cases hk : mapFind (dropChars arg 1) st.parser._short_to_long_name_map with
        | none => exact Or.inl rfl
        | some long_name =>
          rw [hk] at h1
          simp only at h1
          rw [h1]
          exact Or.inr rfl
    · exfalso
      cases next with
      | none =>
        rw [scanStep_switch cbs arg none st h0 h1 (by simp)] at h
        exact hcommit "true" h
      | some val =>
        by_cases h3 : charAt val 0 = '-'
        · rw [scanStep_switch cbs arg (some val) st h0 h1
            (by intro t ht; cases ht; exact h3)] at h
          exact hcommit "true" h
        · rw [scanStep_value cbs arg val st h0 h1 h3] at h
          exact hcommit val h
  · exfalso
    obtain ⟨e, he, _⟩ := h
    unfold scanStep at he
    simp [h0] at he

/-- One pass over `exe --n v` when `n` is unregistered, or holds the entry a previous such
pass created, and no callback registers `n`: the entry under `n` is the default-constructed
one holding `v`, and the pass emits no diagnostic. -/
theorem parsePass_auto (cbs : Callbacks) (p : CommandLineParser) (exe n v : String)
    (hn : n ≠ "") (hv : charAt v 0 ≠ '-')
    (hargs : p._original_args = [exe, "--" ++ n, v])
    (hnr : neverRegisters cbs n)
    (hkey : mapFind n p._options = none ∨
      mapFind n p._options = some { current_value_string := v }) :
    mapFind n (parsePass cbs p).1._options = some { current_value_string := v } ∧
    (parsePass cbs p).1._original_args = p._original_args ∧
    ∃ evs, (parsePass cbs p).1.trace = p.trace ++ evs ∧
      ∀ e ∈ evs, isUnknownOption e = false := by
  have hopt : ({ p.optionAt n with current_value_string := v } : OptionInfo) =
      { current_value_string := v } ∧ (p.optionAt n).set_value_callbacks = [] ∧
      (p.optionAt n).did_set_value_callbacks = [] := by
    rcases hkey with h | h
    · simp [optionAt, h]
    · simp [optionAt, h]
  obtain ⟨ho1, ho2, ho3⟩ := hopt
  obtain ⟨evs1, hset, hevs1⟩ := SetOption_accepted cbs p n v (by rw [ho2]; rfl)
  rw [ho3, ho1] at hset
  simp only [run_did_set_value_callbacks] at hset
  have hfind : mapFind n (SetOption cbs n v p).1._options =
      some { current_value_string := v } := by
    rw [hset]
    exact mapFind_mapInsert_self _ _ _
  have htrace : (SetOption cbs n v p).1.trace = p.trace ++ Event.set_option n v :: evs1 := by
    rw [hset]
  have hres : resolveOption ("--" ++ n) p = (n, p) := resolveOption_long n p
  have hscan : scanPass cbs p =
      ⟨(SetOption cbs n v p).1, setErase n (initialUnsetArgs p),
        (SetOption cbs n v p).2 || false⟩ := by
    unfold scanPass
    simp only [hargs, List.drop_succ_cons, List.drop_zero, scanArgs, List.head?_cons]
    rw [scanStep_value cbs ("--" ++ n) v ⟨p, initialUnsetArgs p, false⟩ (charAt_zero_dashes n)
      (by rw [hres]; exact hn) hv]
    simp only [hres, scanArgs]
  obtain ⟨_, k2, _, k4, _, evs2, k6, k7, _⟩ := SetDefaultArgsLoop_spec cbs
    (scanPass cbs p).unset_args (scanPass cbs p).parser false
  have hkeep := k4 n hnr (by rw [hscan]; exact not_mem_setErase n _)
  have hpass : (parsePass cbs p).1 =
      (SetDefaultArgsLoop cbs (scanPass cbs p).unset_args (scanPass cbs p).parser false).1 := rfl
  refine ⟨?_, ?_, Event.set_option n v :: evs1 ++ evs2, ?_, ?_⟩
  · rw [hpass, hkeep, hscan]
    exact hfind
  · rw [hpass, k2, scanPass_original_args]
  · rw [hpass, k6, hscan]
    simp only [htrace]
    simp
  · intro e he
    rcases List.mem_append.1 he with h | h
    · rcases List.mem_cons.1 h with h | h
      · rw [h]; rfl
      · obtain ⟨cb, r, rfl⟩ := hevs1 e h
        rfl
    · exact k7 e h

/-- Every number of such passes, at least one, ends the same way. -/
theorem runPasses_auto (cbs : Callbacks) (exe n v : String) (hn : n ≠ "")
    (hv : charAt v 0 ≠ '-') (hnr : neverRegisters cbs n) :
    ∀ (k : Nat) (p : CommandLineParser), p._original_args = [exe, "--" ++ n, v] →
      (mapFind n p._options = none ∨
        mapFind n p._options = some { current_value_string := v }) →
      mapFind n (runPasses cbs (k + 1) p)._options = some { current_value_string := v } ∧
      ∃ evs, (runPasses cbs (k + 1) p).trace = p.trace ++ evs ∧
        ∀ e ∈ evs, isUnknownOption e = false := by
  intro k
  induction k with
  | zero =>
    intro p hargs hkey
    obtain ⟨h1, _, h3⟩ := parsePass_auto cbs p exe n v hn hv hargs hnr hkey
    exact ⟨h1, h3⟩
  | succ k ih =>
    intro p hargs hkey
    obtain ⟨h1, h2, evs1, h3, h4⟩ := parsePass_auto cbs p exe n v hn hv hargs hnr hkey
    obtain ⟨i1, evs2, i2, i3⟩ := ih (parsePass cbs p).1 (h2.trans hargs) (Or.inr h1)
    refine ⟨i1, evs1 ++ evs2, ?_, ?_⟩
    · show (runPasses cbs (k + 1) (parsePass cbs p).1).trace = _
      rw [i2, h3, List.append_assoc]
    · intro e he
      rcases List.mem_append.1 he with h | h
      · exact h4 e h
      · exact i3 e h

theorem mem_of_mapFind {α : Type} (k : String) (v : α) (m : List (String × α))
    (h : mapFind k m = some v) : (k, v) ∈ m := by
  induction m with
  | nil => simp [mapFind] at h
  | cons hd tl ih =>
    obtain ⟨k1, v1⟩ := hd
    unfold mapFind at h
    by_cases hk : k = k1
    · simp only [hk, if_true, Option.some.injEq] at h
      rw [hk, h]
      exact List.mem_cons_self _ _
    · simp only [hk, if_false] at h
      exact List.mem_cons_of_mem _ (ih h)

theorem option_name_help_length_le (o : OptionInfo) : option_name_help_length o ≤ 32 := by
  unfold option_name_help_length
  exact Nat.min_le_left _ _

theorem foldl_longest_spec (m : List (String × OptionInfo)) :
    ∀ acc : Nat, acc ≤ 32 →
      acc ≤ m.foldl (fun longest_name iter =>
          if iter.1 = iter.2.name then max longest_name (option_name_help_length iter.2)
          else longest_name) acc ∧
      m.foldl (fun longest_name iter =>
          if iter.1 = iter.2.name then max longest_name (option_name_help_length iter.2)
          else longest_name) acc ≤ 32 ∧
      ∀ k info, (k, info) ∈ m → k = info.name →
        option_name_help_length info ≤ m.foldl (fun longest_name iter =>
          if iter.1 = iter.2.name then max longest_name (option_name_help_length iter.2)
          else longest_name) acc := by
  induction m with
  | nil => intro acc h; simp [h]
  | cons hd tl ih =>
    intro acc hacc
    simp only [List.foldl]
    have hle := option_name_help_length_le hd.2
    by_cases hk : hd.1 = hd.2.name
    · simp only [hk, if_true]
      obtain ⟨i1, i2, i3⟩ := ih (max acc (option_name_help_length hd.2)) (by omega)
      refine ⟨by omega, i2, ?_⟩
      intro k info hmem hname
      rcases List.mem_cons.1 hmem with h | h
      · rw [← h] at i1
        simp only at i1
        subst h
        simp only at i1 ⊢
        omega
      · exact i3 k info h hname
    · simp only [hk, if_false]
      obtain ⟨i1, i2, i3⟩ := ih acc hacc
      refine ⟨i1, i2, ?_⟩
      intro k info hmem hname
      rcases List.mem_cons.1 hmem with h | h
      · exfalso
        apply hk
        rw [← h]
        exact hname
      · exact i3 k info h hname

/-- The value `longest_name` is at most 32 and at least the help length of every entry
that is stored under its own name. -/
theorem longestName_spec (p : CommandLineParser) :
    longestName p ≤ 32 ∧
    ∀ k info, mapFind k p._options = some info → info.name = k →
      option_name_help_length info ≤ longestName p := by
  obtain ⟨_, h2, h3⟩ := foldl_longest_spec p._options 0 (by omega)
  exact ⟨h2, fun k info hf hn => h3 k info (mem_of_mapFind k info _ hf) hn.symm⟩

theorem padLen_of_le (longest this : Nat) (h1 : this ≤ longest) (h2 : longest ≤ 32) :
    padLen longest this = 2 + (longest - this) := by
  unfold padLen sizeAdd sizeSub sizeModulus
  omega

theorem DocInvariant_emit (e : Event) (p : CommandLineParser) (h : DocInvariant p) :
    DocInvariant (p.emit e) := h

theorem DocInvariant_modifyOption (n : String) (f : OptionInfo → OptionInfo)
    (hf : ∀ o, (f o).name = o.name) (p : CommandLineParser) (h : DocInvariant p) :
    DocInvariant (p.modifyOption n f) := by
  intro e he ht
  obtain ⟨info, h1, h2⟩ := h e he ht
  by_cases hk : e.EntryString = n
  · refine ⟨f info, ?_, by rw [hf, h2]⟩
    rw [hk] at h1 ⊢
    rw [modifyOption_find_self, optionAt_of_find h1]
  · exact ⟨info, by rw [modifyOption_find_ne f p hk]; exact h1, h2⟩

theorem DocInvariant_AddOption (info : OptionInfo) (p : CommandLineParser)
    (h : DocInvariant p) : DocInvariant (p.AddOption info) := by
  have hdocs : (p.AddOption info)._doc_entries =
      p._doc_entries ++ [⟨DocumentationEntryType.option, info.name⟩] := by
    unfold AddOption; split <;> rfl
  intro e he ht
  rw [hdocs] at he
  rw [AddOption_options]
  by_cases hk : e.EntryString = info.name
  · exact ⟨info, by rw [hk, mapFind_mapInsert_self], hk.symm⟩
  · rcases List.mem_append.1 he with h1 | h1
    · obtain ⟨i, hi1, hi2⟩ := h e h1 ht
      exact ⟨i, by rw [mapFind_mapInsert_ne _ _ hk]; exact hi1, hi2⟩
    · exfalso
      apply hk
      rw [List.mem_singleton] at h1
      rw [h1]

theorem DocInvariant_AddOptions (l : List OptionInfo) :
    ∀ (p : CommandLineParser), DocInvariant p → DocInvariant (p.AddOptions l) := by
  induction l with
  | nil => intro p h; exact h
  | cons i rest ih =>
    intro p h
    exact ih _ (DocInvariant_AddOption i p h)

theorem DocInvariant_AddDocumentationString (str : String) (p : CommandLineParser)
    (h : DocInvariant p) : DocInvariant (p.AddDocumentationString str) := by
  intro e he ht
  have hmem : e ∈ p._doc_entries ++ [⟨DocumentationEntryType.str, str⟩] := he
  rcases List.mem_append.1 hmem with h1 | h1
  · exact h e h1 ht
  · rw [List.mem_singleton] at h1
    rw [h1] at ht
    cases ht

theorem DocInvariant_run_set_value_callbacks (cbs : Callbacks) (n v : String)
    (l : List CallbackId) (p : CommandLineParser) (ok : Bool) (h : DocInvariant p) :
    DocInvariant (run_set_value_callbacks cbs n v l p ok).1 := by
  obtain ⟨evs, h1, _⟩ := run_set_value_callbacks_fst cbs n v l p ok
  rw [h1]
  exact h

theorem DocInvariant_run_did_set_value_callbacks (cbs : Callbacks) (n : String) :
    ∀ (todo : List CallbackId) (pos : Nat) (p : CommandLineParser) (b : Bool),
      DocInvariant p → DocInvariant (run_did_set_value_callbacks cbs n todo pos p b).1 := by
  intro todo
  induction todo with
  | nil => intro pos p b h; exact h
  | cons cb rest ih =>
    intro pos p b h
    unfold run_did_set_value_callbacks
    simp only
    have h1 := DocInvariant_AddOptions
      (cbs.did_set_value_cb cb (p.optionAt n).current_value_string).1 _
      (DocInvariant_emit (Event.did_set_value_cb n cb (p.optionAt n).current_value_string
        (cbs.did_set_value_cb cb (p.optionAt n).current_value_string).2) p h)
    split
    · apply ih
      apply DocInvariant_modifyOption
      · intro o; rfl
      · exact h1
    · exact ih _ _ _ h1

/-- The call `SetOption` keeps the invariant of the documentation entries. -/
theorem DocInvariant_SetOption (cbs : Callbacks) (n v : String) (p : CommandLineParser)
    (h : DocInvariant p) : DocInvariant (SetOption cbs n v p).1 := by
  have ha : DocInvariant ((p.emit (Event.set_option n v)).modifyOption n
      (fun o => { o with current_value_string := v })) := by
    apply DocInvariant_modifyOption
    · intro o; rfl
    · exact DocInvariant_emit _ p h
  unfold SetOption
  simp only
  split
  · apply DocInvariant_run_did_set_value_callbacks
    exact DocInvariant_run_set_value_callbacks cbs n v _ _ true ha
  · apply DocInvariant_modifyOption
    · intro o; rfl
    · exact DocInvariant_run_set_value_callbacks cbs n v _ _ true ha

theorem DocInvariant_SetDefaultArgsLoop (cbs : Callbacks) :
    ∀ (l : List String) (p : CommandLineParser) (nr : Bool),
      DocInvariant p → DocInvariant (SetDefaultArgsLoop cbs l p nr).1 := by
  intro l
  induction l with
  | nil => intro p nr h; exact h
  | cons a rest ih =>
    intro p nr h
    unfold SetDefaultArgsLoop
    cases mapFind a p._options with
    | none => exact ih p nr h
    | some info => exact ih _ _ (DocInvariant_SetOption cbs a _ p h)

theorem DocInvariant_of_same (p q : CommandLineParser) (h : DocInvariant p)
    (h1 : q._options = p._options) (h2 : q._doc_entries = p._doc_entries) :
    DocInvariant q := by
  intro e he ht
  rw [h2] at he
  rw [h1]
  exact h e he ht

theorem DocInvariant_resolveOption (arg : String) (p : CommandLineParser)
    (h : DocInvariant p) : DocInvariant (resolveOption arg p).2 := by
  apply DocInvariant_of_same p _ h (resolveOption_keeps arg p).2.2.1
  unfold resolveOption
  split
  · rfl
  · unfold shortToLong
    split <;> rfl

theorem DocInvariant_scanStep (cbs : Callbacks) (arg : String) (next : Option String)
    (st : PassState) (h : DocInvariant st.parser) :
    DocInvariant (scanStep cbs arg next st).1.parser := by
  have hr := DocInvariant_resolveOption arg st.parser h
  unfold scanStep
  by_cases h0 : charAt arg 0 = '-'
  · simp only [h0, if_true]
    by_cases h1 : (resolveOption arg st.parser).1 = ""
    · simp only [h1, if_true]
      by_cases h2 : arg = "--"
      · simpa [h2] using hr
      · simpa [h2] using DocInvariant_emit (Event.unknown_option arg) _ hr
    · simp only [h1, if_false]
      cases next with
      | none => exact DocInvariant_SetOption cbs _ _ _ hr
      | some val =>
        by_cases h3 : charAt val 0 = '-'
        · simp only [h3, if_true]
          exact DocInvariant_SetOption cbs _ _ _ hr
        · simp only [h3, if_false]
          exact DocInvariant_SetOption cbs _ _ _ hr
  · simp only [h0, if_false]
    exact DocInvariant_of_same st.parser _ h rfl rfl

theorem DocInvariant_scanArgs (cbs : Callbacks) :
    ∀ (toks : List String) (skip : Bool) (st : PassState),
      DocInvariant st.parser → DocInvariant (scanArgs cbs toks skip st).parser := by
  intro toks
  induction toks with
  | nil => intro skip st h; exact h
  | cons a rest ih =>
    intro skip st h
    cases skip with
    | true => simpa [scanArgs] using ih false st h
    | false =>
      simp only [scanArgs]
      exact ih _ _ (DocInvariant_scanStep cbs a rest.head? st h)

/-- One pass keeps the invariant of the documentation entries. -/
theorem DocInvariant_parsePass (cbs : Callbacks) (p : CommandLineParser)
    (h : DocInvariant p) : DocInvariant (parsePass cbs p).1 :=
  DocInvariant_SetDefaultArgsLoop cbs _ _ _ (DocInvariant_scanArgs cbs _ _ _ h)

theorem DocInvariant_runPasses (cbs : Callbacks) :
    ∀ (k : Nat) (p : CommandLineParser), DocInvariant p → DocInvariant (runPasses cbs k p) := by
  intro k
  induction k with
  | zero => intro p h; exact h
  | succ k ih => intro p h; exact ih _ (DocInvariant_parsePass cbs p h)

theorem DocInvariant_ParseArgs (cbs : Callbacks) (fuel : Nat) (p q : CommandLineParser)
    (h : DocInvariant p) (hq : ParseArgs cbs fuel p = some q) : DocInvariant q := by
  unfold ParseArgs at hq
  split at hq
  · cases hq; exact h
  · rename_i exe rest _
    cases hl : parseLoop cbs fuel { p with _exe_name := exeNameOf exe } with
    | none => simp [hl] at hq
    | some r =>
      obtain ⟨q1, k⟩ := r
      simp only [hl, Option.map_some', Option.some.injEq] at hq
      subst hq
      rw [(parseLoop_eq_runPasses cbs fuel _ _ _ hl).1]
      exact DocInvariant_runPasses cbs k _ (DocInvariant_of_same p _ h rfl rfl)

/-- Under the invariant the lookups of `PrintUsage` insert nothing. -/
theorem printEntries_of_invariant (longest : Nat) (p : CommandLineParser) :
    ∀ (docs : List DocumentationEntry),
      (∀ e ∈ docs, e.EntryType = DocumentationEntryType.option →
        (mapFind e.EntryString p._options).isSome) →
      printEntries longest docs p = (docs.map (fun e => (printEntry longest e p).1), p) := by
  intro docs
  induction docs with
  | nil => intro _; rfl
  | cons e rest ih =>
    intro h
    have h2 : (printEntry longest e p).2 = p := by
      unfold printEntry
      cases ht : e.EntryType with
      | option =>
        simp only [touchOption, h e (List.mem_cons_self _ _) ht, if_true]
      | str => rfl
    unfold printEntries
    simp only [h2]
    rw [ih (fun e1 he1 => h e1 (List.mem_cons_of_mem _ he1))]
    rfl

theorem mapFind_none_of_ne {α : Type} (k : String) :
    ∀ (m : List (String × α)), (∀ e ∈ m, e.1 ≠ k) → mapFind k m = none := by
  intro m
  induction m with
  | nil => intro _; rfl
  | cons hd tl ih =>
    intro h
    obtain ⟨k1, v1⟩ := hd
    have h1 : k ≠ k1 := fun hk => h (k1, v1) (List.mem_cons_self _ _) hk.symm
    simp only [mapFind, h1, if_false]
    exact ih (fun e he => h e (List.mem_cons_of_mem _ he))

theorem mem_mapInsert {α : Type} (k : String) (v : α) :
    ∀ (m : List (String × α)) (e : String × α), e ∈ mapInsert k v m → e.1 = k ∨ e ∈ m := by
  intro m
  induction m with
  | nil =>
    intro e he
    simp only [mapInsert, List.mem_singleton] at he
    exact Or.inl (by rw [he])
  | cons hd tl ih =>
    intro e he
    obtain ⟨k1, v1⟩ := hd
    unfold mapInsert at he
    by_cases h1 : strLt k k1 = true
    · simp only [h1, if_true, List.mem_cons] at he
      rcases he with he | he | he
      · exact Or.inl (by rw [he])
      · exact Or.inr (by rw [he]; exact List.mem_cons_self _ _)
      · exact Or.inr (List.mem_cons_of_mem _ he)
    · by_cases h2 : k = k1
      · rw [if_neg h1, if_pos h2, List.mem_cons] at he
        rcases he with he | he
        · exact Or.inl (by rw [he])
        · exact Or.inr (List.mem_cons_of_mem _ he)
      · simp only [h1, h2, Bool.false_eq_true, if_false, List.mem_cons] at he
        rcases he with he | he
        · exact Or.inr (by rw [he]; exact List.mem_cons_self _ _)
        · rcases ih e he with h3 | h3
          · exact Or.inl h3
          · exact Or.inr (List.mem_cons_of_mem _ h3)

theorem keysSorted_mapInsert {α : Type} (k : String) (v : α) :
    ∀ (m : List (String × α)), keysSorted m → keysSorted (mapInsert k v m) := by
  intro m
  induction m with
  | nil => intro _; simp [keysSorted, mapInsert]
  | cons hd tl ih =>
    intro h
    obtain ⟨k1, v1⟩ := hd
    unfold keysSorted at h ih ⊢
    rw [List.pairwise_cons] at h
    obtain ⟨hhd, htl⟩ := h
    unfold mapInsert
    by_cases h1 : strLt k k1 = true
    · simp only [h1, if_true]
      refine List.Pairwise.cons ?_ (List.Pairwise.cons hhd htl)
      intro e he
      rcases List.mem_cons.1 he with he | he
      · rw [he]; exact h1
      · exact strLt_trans h1 (hhd e he)
    · by_cases h2 : k = k1
      · rw [if_neg h1, if_pos h2]
        exact List.Pairwise.cons (fun e he => by rw [h2]; exact hhd e he) htl
      · simp only [h1, h2, Bool.false_eq_true, if_false]
        refine List.Pairwise.cons ?_ (ih htl)
        intro e he
        rcases mem_mapInsert k v tl e he with h3 | h3
        · rw [h3]
          exact strLt_total (by simpa using h1) h2
        · exact hhd e h3

theorem unlockCountOf_mapInsert (k : String) (v : OptionInfo) :
    ∀ (m : List (String × OptionInfo)), keysSorted m →
      unlockCountOf (mapInsert k v m) +
          ((mapFind k m).getD {}).did_set_value_callbacks.length =
        unlockCountOf m + v.did_set_value_callbacks.length := by
  intro m
  induction m with
  | nil => intro _; simp [unlockCountOf, mapInsert, mapFind]
  | cons hd tl ih =>
    intro h
    obtain ⟨k1, v1⟩ := hd
    unfold keysSorted at h ih
    rw [List.pairwise_cons] at h
    obtain ⟨hhd, htl⟩ := h
    unfold mapInsert
    by_cases h1 : strLt k k1 = true
    · have hne : k ≠ k1 := by
        intro hk
        rw [hk, strLt_irrefl] at h1
        exact Bool.noConfusion h1
      have hnone : mapFind k tl = none := by
        apply mapFind_none_of_ne
        intro e he hk
        have h3 := strLt_trans h1 (hhd e he)
        rw [hk, strLt_irrefl] at h3
        exact Bool.noConfusion h3
      simp only [h1, if_true, mapFind, hne, if_false, hnone, Option.getD_none]
      simp [unlockCountOf]
      omega
    · by_cases h2 : k = k1
      · rw [if_neg h1, if_pos h2]
        simp only [mapFind, h2, if_true, Option.getD_some]
        simp only [unlockCountOf, List.map_cons, List.sum_cons]
        omega
      · have ih1 := ih htl
        simp only [h1, h2, Bool.false_eq_true, if_false, mapFind]
        simp only [unlockCountOf, List.map_cons, List.sum_cons] at ih1 ⊢
        omega

theorem optionsSorted_of_options {p q : CommandLineParser} (h : q._options = p._options)
    (hs : optionsSorted p) : optionsSorted q := by
  unfold optionsSorted at hs ⊢
  rw [h]
  exact hs

theorem unlockCount_of_options {p q : CommandLineParser} (h : q._options = p._options) :
    unlockCount q = unlockCount p := by
  unfold unlockCount
  rw [h]

theorem optionAt_of_options {p q : CommandLineParser} (h : q._options = p._options)
    (n : String) : q.optionAt n = p.optionAt n := by
  unfold optionAt
  rw [h]

theorem optionsSorted_modifyOption (n : String) (f : OptionInfo → OptionInfo)
    (p : CommandLineParser) (hs : optionsSorted p) : optionsSorted (p.modifyOption n f) :=
  keysSorted_mapInsert n _ _ hs

theorem unlockCount_modifyOption (n : String) (f : OptionInfo → OptionInfo)
    (p : CommandLineParser) (hs : optionsSorted p) :
    unlockCount (p.modifyOption n f) + (p.optionAt n).did_set_value_callbacks.length =
      unlockCount p + (f (p.optionAt n)).did_set_value_callbacks.length :=
  unlockCountOf_mapInsert n _ _ hs

theorem optionsSorted_AddOption (info : OptionInfo) (p : CommandLineParser)
    (hs : optionsSorted p) : optionsSorted (p.AddOption info) := by
  unfold optionsSorted
  rw [AddOption_options]
  exact keysSorted_mapInsert _ _ _ hs

theorem unlockCount_AddOption (info : OptionInfo) (p : CommandLineParser)
    (hs : optionsSorted p) :
    unlockCount (p.AddOption info) + (p.optionAt info.name).did_set_value_callbacks.length =
      unlockCount p + info.did_set_value_callbacks.length := by
  unfold unlockCount
  rw [AddOption_options]
  exact unlockCountOf_mapInsert _ _ _ hs

theorem AddOptions_unlock (n : String) :
    ∀ (infos : List OptionInfo) (p : CommandLineParser),
      (∀ info ∈ infos, info.did_set_value_callbacks = []) → optionsSorted p →
      optionsSorted (p.AddOptions infos) ∧
      unlockCount (p.AddOptions infos) ≤ unlockCount p ∧
      (((p.AddOptions infos).optionAt n).did_set_value_callbacks.length =
          (p.optionAt n).did_set_value_callbacks.length ∨
        unlockCount (p.AddOptions infos) < unlockCount p) := by
  intro infos
  induction infos with
  | nil => intro p _ hs; exact ⟨hs, Nat.le_refl _, Or.inl rfl⟩
  | cons info rest ih =>
    intro p h hs
    have h0 : info.did_set_value_callbacks = [] := h info (List.mem_cons_self _ _)
    have hs1 := optionsSorted_AddOption info p hs
    have hU := unlockCount_AddOption info p hs
    rw [h0, List.length_nil] at hU
    obtain ⟨a1, a2, a3⟩ := ih (p.AddOption info) (fun i hi => h i (List.mem_cons_of_mem _ hi)) hs1
    have hfold : p.AddOptions (info :: rest) = (p.AddOption info).AddOptions rest := rfl
    rw [hfold]
    refine ⟨a1, by omega, ?_⟩
    by_cases hn : info.name = n
    · have hat : ((p.AddOption info).optionAt n).did_set_value_callbacks.length = 0 := by
        unfold optionAt
        rw [AddOption_options, ← hn, mapFind_mapInsert_self, Option.getD_some, h0]
        rfl
      rw [hn] at hU
      rcases a3 with a3 | a3
      · rw [hat] at a3
        by_cases hz : (p.optionAt n).did_set_value_callbacks.length = 0
        · exact Or.inl (by omega)
        · exact Or.inr (by omega)
      · exact Or.inr (by omega)
    · have hat : (p.AddOption info).optionAt n = p.optionAt n := by
        unfold optionAt
        rw [AddOption_options, mapFind_mapInsert_ne _ _ (Ne.symm hn)]
      rcases a3 with a3 | a3
      · exact Or.inl (by rw [a3, hat])
      · exact Or.inr (by omega)

theorem registersNoUnlock_mono {cbs : Callbacks} {t1 t2 : List Event} (h : t1 ⊆ t2)
    (hg : registersNoUnlock cbs t2) : registersNoUnlock cbs t1 :=
  fun n cb v r he => hg n cb v r (h he)

theorem length_eraseIdx_cases {α : Type} :
    ∀ (l : List α) (i : Nat), (l.eraseIdx i).length ≤ l.length ∧
      (i < l.length → (l.eraseIdx i).length + 1 = l.length) := by
  intro l
  induction l with
  | nil => intro i; simp
  | cons a t ih =>
    intro i
    cases i with
    | zero => simp
    | succ i =>
      obtain ⟨h1, h2⟩ := ih i
      simp only [List.eraseIdx, List.length_cons]
      exact ⟨by omega, fun h => by have := h2 (by omega); omega⟩

theorem run_did_set_value_callbacks_cons_true (cbs : Callbacks) (n : String) (cb : CallbackId)
    (rest : List CallbackId) (pos : Nat) (p : CommandLineParser) (b : Bool)
    (h : (cbs.did_set_value_cb cb (p.optionAt n).current_value_string).2 = true) :
    run_did_set_value_callbacks cbs n (cb :: rest) pos p b =
      run_did_set_value_callbacks cbs n rest pos
        (((p.emit (Event.did_set_value_cb n cb (p.optionAt n).current_value_string
          true)).AddOptions
          (cbs.did_set_value_cb cb (p.optionAt n).current_value_string).1).modifyOption n
            (fun o =>
              { o with did_set_value_callbacks := o.did_set_value_callbacks.eraseIdx pos }))
        true := by
  rw [run_did_set_value_callbacks]
  simp only [h, if_true]

theorem run_did_set_value_callbacks_cons_false (cbs : Callbacks) (n : String)
    (cb : CallbackId) (rest : List CallbackId) (pos : Nat) (p : CommandLineParser) (b : Bool)
    (h : (cbs.did_set_value_cb cb (p.optionAt n).current_value_string).2 = false) :
    run_did_set_value_callbacks cbs n (cb :: rest) pos p b =
      run_did_set_value_callbacks cbs n rest (pos + 1)
        ((p.emit (Event.did_set_value_cb n cb (p.optionAt n).current_value_string
          false)).AddOptions
          (cbs.did_set_value_cb cb (p.optionAt n).current_value_string).1)
        b := by
  rw [run_did_set_value_callbacks]
  simp only [h, Bool.false_eq_true, if_false]

/-- The did-set loop never raises the number of did-set callbacks when what it registers
carries none, and lowers it when a callback returns true. -/
theorem run_did_set_value_callbacks_unlock (cbs : Callbacks) (n : String) (U0 : Nat) :
    ∀ (todo : List CallbackId) (pos : Nat) (p : CommandLineParser) (b : Bool),
      registersNoUnlock cbs (run_did_set_value_callbacks cbs n todo pos p b).1.trace →
      optionsSorted p → unlockCount p ≤ U0 →
      (pos + todo.length ≤ (p.optionAt n).did_set_value_callbacks.length ∨
        unlockCount p < U0) →
      (b = true → unlockCount p < U0) →
      optionsSorted (run_did_set_value_callbacks cbs n todo pos p b).1 ∧
      unlockCount (run_did_set_value_callbacks cbs n todo pos p b).1 ≤ U0 ∧
      ((run_did_set_value_callbacks cbs n todo pos p b).2 = true →
        unlockCount (run_did_set_value_callbacks cbs n todo pos p b).1 < U0) := by
  intro todo
  induction todo with
  | nil => intro pos p b _ hs hU _ hb; exact ⟨hs, hU, hb⟩
  | cons cb rest ih =>
    intro pos p b hg hs hU hL hb
    rw [List.length_cons] at hL
    by_cases hr : (cbs.did_set_value_cb cb (p.optionAt n).current_value_string).2 = true
    · rw [run_did_set_value_callbacks_cons_true cbs n cb rest pos p b hr] at hg ⊢
      obtain ⟨_, evs, k2, _⟩ := run_did_set_value_callbacks_keeps cbs n rest pos
        (((p.emit (Event.did_set_value_cb n cb (p.optionAt n).current_value_string
          true)).AddOptions
          (cbs.did_set_value_cb cb (p.optionAt n).current_value_string).1).modifyOption n
            (fun o =>
              { o with did_set_value_callbacks := o.did_set_value_callbacks.eraseIdx pos }))
        true
      have hinfo := hg n cb (p.optionAt n).current_value_string true (by rw [k2]; simp)
      obtain ⟨a1, a2, a3⟩ := AddOptions_unlock n _
        (p.emit (Event.did_set_value_cb n cb (p.optionAt n).current_value_string true))
        hinfo hs
      have hm := unlockCount_modifyOption n (fun o =>
        { o with did_set_value_callbacks := o.did_set_value_callbacks.eraseIdx pos }) _ a1
      have hms := optionsSorted_modifyOption n (fun o =>
        { o with did_set_value_callbacks := o.did_set_value_callbacks.eraseIdx pos }) _ a1
      obtain ⟨l1, l2⟩ := length_eraseIdx_cases
        (((p.emit (Event.did_set_value_cb n cb (p.optionAt n).current_value_string
          true)).AddOptions
          (cbs.did_set_value_cb cb
            (p.optionAt n).current_value_string).1).optionAt n).did_set_value_callbacks pos
      have e1 : unlockCount (p.emit (Event.did_set_value_cb n cb
          (p.optionAt n).current_value_string true)) = unlockCount p := rfl
      have e2 : (p.emit (Event.did_set_value_cb n cb
          (p.optionAt n).current_value_string true)).optionAt n = p.optionAt n := rfl
      rw [e1] at a2 a3
      rw [e2] at a3
      simp only [] at hm
      have hlt : unlockCount
          (((p.emit (Event.did_set_value_cb n cb (p.optionAt n).current_value_string
            true)).AddOptions
            (cbs.did_set_value_cb cb (p.optionAt n).current_value_string).1).modifyOption n
              (fun o =>
                { o with did_set_value_callbacks := o.did_set_value_callbacks.eraseIdx pos }))
          < U0 := by
        rcases hL with hL | hL
        · rcases a3 with a3 | a3
          · have := l2 (by omega)
            omega
          · omega
        · omega
      exact ih pos _ true hg hms (by omega) (Or.inr hlt) (fun _ => hlt)
    · have hr2 : (cbs.did_set_value_cb cb (p.optionAt n).current_value_string).2 = false := by
        simpa using hr
      rw [run_did_set_value_callbacks_cons_false cbs n cb rest pos p b hr2] at hg ⊢
      obtain ⟨_, evs, k2, _⟩ := run_did_set_value_callbacks_keeps cbs n rest (pos + 1)
        ((p.emit (Event.did_set_value_cb n cb (p.optionAt n).current_value_string
          false)).AddOptions
          (cbs.did_set_value_cb cb (p.optionAt n).current_value_string).1)
        b
      have hinfo := hg n cb (p.optionAt n).current_value_string false (by rw [k2]; simp)
      obtain ⟨a1, a2, a3⟩ := AddOptions_unlock n _
        (p.emit (Event.did_set_value_cb n cb (p.optionAt n).current_value_string false))
        hinfo hs
      have e1 : unlockCount (p.emit (Event.did_set_value_cb n cb
          (p.optionAt n).current_value_string false)) = unlockCount p := rfl
      have e2 : (p.emit (Event.did_set_value_cb n cb
          (p.optionAt n).current_value_string false)).optionAt n = p.optionAt n := rfl
      rw [e1] at a2 a3
      rw [e2] at a3
      refine ih (pos + 1) _ b hg a1 (by omega) ?_ (fun h => by have := hb h; omega)
      rcases hL with hL | hL
      · rcases a3 with a3 | a3
        · exact Or.inl (by omega)
        · exact Or.inr (by omega)
      · exact Or.inr (by omega)

theorem run_set_value_callbacks_options (cbs : Callbacks) (n v : String)
    (l : List CallbackId) (p : CommandLineParser) (ok : Bool) :
    (run_set_value_callbacks cbs n v l p ok).1._options = p._options := by
  obtain ⟨evs, h, _⟩ := run_set_value_callbacks_fst cbs n v l p ok
  rw [h]

theorem unlockCount_modifyOption_same (n : String) (f : OptionInfo → OptionInfo)
    (p : CommandLineParser) (hs : optionsSorted p)
    (hf : ∀ o, (f o).did_set_value_callbacks = o.did_set_value_callbacks) :
    unlockCount (p.modifyOption n f) = unlockCount p := by
  have h := unlockCount_modifyOption n f p hs
  rw [hf] at h
  omega

/-- The call `SetOption` never raises the number of did-set callbacks when what it registers
carries none, and lowers it when it returns true. -/
theorem SetOption_unlock (cbs : Callbacks) (n v : String) (p : CommandLineParser)
    (hg : registersNoUnlock cbs (SetOption cbs n v p).1.trace) (hs : optionsSorted p) :
    optionsSorted (SetOption cbs n v p).1 ∧
    unlockCount (SetOption cbs n v p).1 ≤ unlockCount p ∧
    ((SetOption cbs n v p).2 = true → unlockCount (SetOption cbs n v p).1 < unlockCount p) := by
  have hs1 := optionsSorted_modifyOption n (fun o => { o with current_value_string := v })
    (p.emit (Event.set_option n v)) hs
  have hU1 := unlockCount_modifyOption_same n (fun o => { o with current_value_string := v })
    (p.emit (Event.set_option n v)) hs (fun _ => rfl)
  have e1 : unlockCount (p.emit (Event.set_option n v)) = unlockCount p := rfl
  rw [e1] at hU1
  have hro := run_set_value_callbacks_options cbs n v
    (((p.emit (Event.set_option n v)).modifyOption n
      (fun o => { o with current_value_string := v })).optionAt n).set_value_callbacks
    ((p.emit (Event.set_option n v)).modifyOption n
      (fun o => { o with current_value_string := v })) true
  unfold SetOption at hg ⊢
  simp only [] at hg ⊢
  generalize run_set_value_callbacks cbs n v
    (((p.emit (Event.set_option n v)).modifyOption n
      (fun o => { o with current_value_string := v })).optionAt n).set_value_callbacks
    ((p.emit (Event.set_option n v)).modifyOption n
      (fun o => { o with current_value_string := v })) true = r at hg hro ⊢
  have hs2 : optionsSorted r.1 := optionsSorted_of_options hro hs1
  have hU2 : unlockCount r.1 = unlockCount p := (unlockCount_of_options hro).trans hU1
  by_cases hok : r.2 = true
  · simp only [hok, if_true] at hg ⊢
    exact run_did_set_value_callbacks_unlock cbs n (unlockCount p) _ 0 r.1 false hg hs2
      (Nat.le_of_eq hU2) (Or.inl (Nat.le_of_eq (Nat.zero_add _)))
      (fun h => Bool.noConfusion h)
  · simp only [hok, Bool.false_eq_true, if_false] at hg ⊢
    have h := unlockCount_modifyOption_same n
      (fun o => { o with current_value_string :=
        ((p.emit (Event.set_option n v)).optionAt n).current_value_string })
      r.1 hs2 (fun _ => rfl)
    exact ⟨optionsSorted_modifyOption _ _ _ hs2, Nat.le_of_eq (h.trans hU2),
      fun h => h.elim⟩

/-- The body of the scan loop keeps the bound on the number of did-set callbacks, and a
request for another pass comes with a lower number. -/
theorem scanStep_unlock (cbs : Callbacks) (arg : String) (next : Option String)
    (st : PassState) (U0 : Nat)
    (hg : registersNoUnlock cbs (scanStep cbs arg next st).1.parser.trace)
    (hs : optionsSorted st.parser) (hU : unlockCount st.parser ≤ U0)
    (hb : st.needs_reparse = true → unlockCount st.parser < U0) :
    optionsSorted (scanStep cbs arg next st).1.parser ∧
    unlockCount (scanStep cbs arg next st).1.parser ≤ U0 ∧
    ((scanStep cbs arg next st).1.needs_reparse = true →
      unlockCount (scanStep cbs arg next st).1.parser < U0) := by
  have hro := (resolveOption_keeps arg st.parser).2.2.1
  have hsr : optionsSorted (resolveOption arg st.parser).2 := optionsSorted_of_options hro hs
  have hUr : unlockCount (resolveOption arg st.parser).2 = unlockCount st.parser :=
    unlockCount_of_options hro
  have key : ∀ val : String,
      registersNoUnlock cbs (SetOption cbs (resolveOption arg st.parser).1 val
        (resolveOption arg st.parser).2).1.trace →
      optionsSorted (SetOption cbs (resolveOption arg st.parser).1 val
        (resolveOption arg st.parser).2).1 ∧
      unlockCount (SetOption cbs (resolveOption arg st.parser).1 val
        (resolveOption arg st.parser).2).1 ≤ U0 ∧
      (((SetOption cbs (resolveOption arg st.parser).1 val
          (resolveOption arg st.parser).2).2 || st.needs_reparse) = true →
        unlockCount (SetOption cbs (resolveOption arg st.parser).1 val
          (resolveOption arg st.parser).2).1 < U0) := by
    intro val hg1
    obtain ⟨a1, a2, a3⟩ := SetOption_unlock cbs _ val _ hg1 hsr
    refine ⟨a1, by omega, ?_⟩
    intro h
    rcases Bool.or_eq_true_iff.1 h with h | h
    · have := a3 h
      omega
    · have := hb h
      omega
  unfold scanStep at hg ⊢
  by_cases h0 : charAt arg 0 = '-'
  · simp only [h0, if_true] at hg ⊢
    by_cases h1 : (resolveOption arg st.parser).1 = ""
    · simp only [h1, if_true] at hg ⊢
      by_cases h2 : arg = "--"
      · simp only [h2, ne_eq, not_true_eq_false, if_false] at hg ⊢
        rw [h2] at hsr hUr
        exact ⟨hsr, by omega, fun h => by have := hb h; omega⟩
      · simp only [h2, ne_eq, not_false_eq_true, if_true] at hg ⊢
        exact ⟨hsr, by
          show unlockCount (resolveOption arg st.parser).2 ≤ U0
          omega, fun h => by
          have := hb h
          show unlockCount (resolveOption arg st.parser).2 < U0
          omega⟩
    · simp only [h1, if_false] at hg ⊢
      cases next with
      | none => exact key _ hg
      | some val =>
        by_cases h3 : charAt val 0 = '-'
        · simp only [h3, if_true] at hg ⊢
          exact key _ hg
        · simp only [h3, if_false] at hg ⊢
          exact key _ hg
  · simp only [h0, if_false] at hg ⊢
    exact ⟨hs, hU, hb⟩

theorem scanArgs_unlock (cbs : Callbacks) (U0 : Nat) :
    ∀ (toks : List String) (skip : Bool) (st : PassState),
      registersNoUnlock cbs (scanArgs cbs toks skip st).parser.trace →
      optionsSorted st.parser → unlockCount st.parser ≤ U0 →
      (st.needs_reparse = true → unlockCount st.parser < U0) →
      optionsSorted (scanArgs cbs toks skip st).parser ∧
      unlockCount (scanArgs cbs toks skip st).parser ≤ U0 ∧
      ((scanArgs cbs toks skip st).needs_reparse = true →
        unlockCount (scanArgs cbs toks skip st).parser < U0) := by
  intro toks
  induction toks with
  | nil => intro skip st _ hs hU hb; exact ⟨hs, hU, hb⟩
  | cons a rest ih =>
    intro skip st hg hs hU hb
    cases skip with
    | true => exact ih false st hg hs hU hb
    | false =>
      simp only [scanArgs] at hg ⊢
      obtain ⟨evs, hk⟩ := scanArgs_keeps cbs rest (scanStep cbs a rest.head? st).2
        (scanStep cbs a rest.head? st).1
      have hsub : (scanStep cbs a rest.head? st).1.parser.trace ⊆
          (scanArgs cbs rest (scanStep cbs a rest.head? st).2
            (scanStep cbs a rest.head? st).1).parser.trace := by
        rw [hk.trace]
        exact List.subset_append_left _ _
      obtain ⟨b1, b2, b3⟩ := scanStep_unlock cbs a rest.head? st U0
        (registersNoUnlock_mono hsub hg) hs hU hb
      exact ih _ _ hg b1 b2 b3

theorem SetDefaultArgsLoop_unlock (cbs : Callbacks) (U0 : Nat) :
    ∀ (l : List String) (p : CommandLineParser) (nr : Bool),
      registersNoUnlock cbs (SetDefaultArgsLoop cbs l p nr).1.trace →
      optionsSorted p → unlockCount p ≤ U0 → (nr = true → unlockCount p < U0) →
      optionsSorted (SetDefaultArgsLoop cbs l p nr).1 ∧
      unlockCount (SetDefaultArgsLoop cbs l p nr).1 ≤ U0 ∧
      ((SetDefaultArgsLoop cbs l p nr).2 = true →
        unlockCount (SetDefaultArgsLoop cbs l p nr).1 < U0) := by
  intro l
  induction l with
  | nil => intro p nr _ hs hU hb; exact ⟨hs, hU, hb⟩
  | cons a rest ih =>
    intro p nr hg hs hU hb
    unfold SetDefaultArgsLoop at hg ⊢
    cases hf : mapFind a p._options with
    | none =>
      simp only [hf] at hg ⊢
      exact ih p nr hg hs hU hb
    | some info =>
      simp only [hf] at hg ⊢
      obtain ⟨_, _, _, _, _, evs, ht, _⟩ := SetDefaultArgsLoop_spec cbs rest
        (SetOption cbs a info.default_value_string p).1
        ((SetOption cbs a info.default_value_string p).2 || nr)
      have hsub : (SetOption cbs a info.default_value_string p).1.trace ⊆
          (SetDefaultArgsLoop cbs rest (SetOption cbs a info.default_value_string p).1
            ((SetOption cbs a info.default_value_string p).2 || nr)).1.trace := by
        rw [ht]
        exact List.subset_append_left _ _
      obtain ⟨a1, a2, a3⟩ := SetOption_unlock cbs a info.default_value_string p
        (registersNoUnlock_mono hsub hg) hs
      refine ih _ _ hg a1 (by omega) ?_
      intro h
      rcases Bool.or_eq_true_iff.1 h with h | h
      · have := a3 h
        omega
      · have := hb h
        omega

/-- One pass never raises the number of did-set callbacks when what it registers carries
none, and a pass that asks for another one has lowered it. -/
theorem parsePass_unlock (cbs : Callbacks) (p : CommandLineParser)
    (hg : registersNoUnlock cbs (parsePass cbs p).1.trace) (hs : optionsSorted p) :
    optionsSorted (parsePass cbs p).1 ∧
    unlockCount (parsePass cbs p).1 ≤ unlockCount p ∧
    ((parsePass cbs p).2 = true → unlockCount (parsePass cbs p).1 < unlockCount p) := by
  unfold parsePass SetDefaultArgs at hg ⊢
  simp only [] at hg ⊢
  obtain ⟨_, _, _, _, _, evs, ht, _⟩ := SetDefaultArgsLoop_spec cbs
    (scanPass cbs p).unset_args (scanPass cbs p).parser false
  have hsub : (scanPass cbs p).parser.trace ⊆
      (SetDefaultArgsLoop cbs (scanPass cbs p).unset_args (scanPass cbs p).parser
        false).1.trace := by
    rw [ht]
    exact List.subset_append_left _ _
  obtain ⟨b1, b2, b3⟩ := scanArgs_unlock cbs (unlockCount p) (p._original_args.drop 1) false
    ⟨p, initialUnsetArgs p, false⟩ (registersNoUnlock_mono hsub hg) hs (Nat.le_refl _)
    (fun h => Bool.noConfusion h)
  obtain ⟨c1, c2, c3⟩ := SetDefaultArgsLoop_unlock cbs (unlockCount p)
    (scanPass cbs p).unset_args (scanPass cbs p).parser false hg b1 b2
    (fun h => Bool.noConfusion h)
  obtain ⟨_, d2, _⟩ := SetDefaultArgsLoop_unlock cbs (unlockCount (scanPass cbs p).parser)
    (scanPass cbs p).unset_args (scanPass cbs p).parser false hg b1 (Nat.le_refl _)
    (fun h => Bool.noConfusion h)
  refine ⟨c1, c2, ?_⟩
  intro h
  rcases Bool.or_eq_true_iff.1 h with h | h
  · exact c3 h
  · have b4 : unlockCount (scanPass cbs p).parser < unlockCount p := b3 h
    omega

theorem loopUpTo_one (cbs : Callbacks) (p : CommandLineParser) :
    loopUpTo cbs 1 p = (parsePass cbs p).1 := by
  unfold loopUpTo
  simp only []
  split <;> rfl

theorem loopUpTo_succ_of_true (cbs : Callbacks) (k : Nat) (p : CommandLineParser)
    (h : (parsePass cbs p).2 = true) :
    loopUpTo cbs (k + 1) p = loopUpTo cbs k (parsePass cbs p).1 := by
  rw [loopUpTo]
  simp only [h, if_true]

/-- The loop stops within `n + 1` passes when the registry holds at most `n` did-set
callbacks and what the passes register carries none. -/
theorem parseLoop_bounded (cbs : Callbacks) :
    ∀ (n : Nat) (p : CommandLineParser), optionsSorted p → unlockCount p ≤ n →
      (∀ k, registersNoUnlock cbs (loopUpTo cbs k p).trace) →
      ∃ q k, k ≤ n + 1 ∧ (∀ fuel, n + 1 ≤ fuel → parseLoop cbs fuel p = some (q, k)) ∧
        ∀ j, j + 1 < k →
          unlockCount (runPasses cbs (j + 1) p) < unlockCount (runPasses cbs j p) := by
  intro n
  induction n with
  | zero =>
    intro p hs hU hg
    have hg1 := hg 1
    rw [loopUpTo_one] at hg1
    obtain ⟨a1, a2, a3⟩ := parsePass_unlock cbs p hg1 hs
    have hr : (parsePass cbs p).2 = false := by
      cases h : (parsePass cbs p).2 with
      | false => rfl
      | true =>
        have := a3 h
        omega
    refine ⟨(parsePass cbs p).1, 1, Nat.le_refl _, ?_, fun j hj => by omega⟩
    intro fuel hf
    obtain ⟨f, rfl⟩ : ∃ f, fuel = f + 1 := ⟨fuel - 1, by omega⟩
    rw [parseLoop]
    simp only [hr, Bool.false_eq_true, if_false]
  | succ n ih =>
    intro p hs hU hg
    have hg1 := hg 1
    rw [loopUpTo_one] at hg1
    obtain ⟨a1, a2, a3⟩ := parsePass_unlock cbs p hg1 hs
    cases hr : (parsePass cbs p).2 with
    | false =>
      refine ⟨(parsePass cbs p).1, 1, by omega, ?_, fun j hj => by omega⟩
      intro fuel hf
      obtain ⟨f, rfl⟩ : ∃ f, fuel = f + 1 := ⟨fuel - 1, by omega⟩
      rw [parseLoop]
      simp only [hr, Bool.false_eq_true, if_false]
    | true =>
      have hlt := a3 hr
      obtain ⟨q, k, hk, hfuel, hdec⟩ := ih (parsePass cbs p).1 a1 (by omega)
        (fun k => by
          have := hg (k + 1)
          rw [loopUpTo_succ_of_true cbs k p hr] at this
          exact this)
      refine ⟨q, k + 1, by omega, ?_, ?_⟩
      · intro fuel hf
        obtain ⟨f, rfl⟩ : ∃ f, fuel = f + 1 := ⟨fuel - 1, by omega⟩
        rw [parseLoop]
        simp only [hr, if_true, hfuel f (by omega), Option.map_some']
      · intro j hj
        cases j with
        | zero => exact hlt
        | succ j => exact hdec j (by omega)

theorem rebase_loopUpTo (ex : String) (ar : List String) (dc : List DocumentationEntry)
    (ev : List Event) (cbs : Callbacks) :
    ∀ (k : Nat) (p : CommandLineParser),
      loopUpTo cbs k (rebase p._original_args ex ar dc ev p) =
        rebase p._original_args ex ar dc ev (loopUpTo cbs k p) := by
  intro k
  induction k with
  | zero => intro p; rfl
  | succ k ih =>
    intro p
    have h := ih (parsePass cbs p).1
    rw [(parsePass_args cbs p).2] at h
    rw [loopUpTo, loopUpTo]
    simp only [rebase_parsePass]
    split
    · exact h
    · rfl

theorem rebase_runPasses (ex : String) (ar : List String) (dc : List DocumentationEntry)
    (ev : List Event) (cbs : Callbacks) :
    ∀ (k : Nat) (p : CommandLineParser),
      runPasses cbs k (rebase p._original_args ex ar dc ev p) =
        rebase p._original_args ex ar dc ev (runPasses cbs k p) := by
  intro k
  induction k with
  | zero => intro p; rfl
  | succ k ih =>
    intro p
    have h := ih (parsePass cbs p).1
    rw [(parsePass_args cbs p).2] at h
    rw [runPasses, runPasses]
    simp only [rebase_parsePass]
    exact h

theorem rebase_parseLoop (ex : String) (ar : List String) (dc : List DocumentationEntry)
    (ev : List Event) (cbs : Callbacks) :
    ∀ (fuel : Nat) (p : CommandLineParser),
      parseLoop cbs fuel (rebase p._original_args ex ar dc ev p) =
        (parseLoop cbs fuel p).map (fun r => (rebase p._original_args ex ar dc ev r.1, r.2)) := by
  intro fuel
  induction fuel with
  | zero => intro p; rfl
  | succ fuel ih =>
    intro p
    have h := ih (parsePass cbs p).1
    rw [(parsePass_args cbs p).2] at h
    rw [parseLoop, parseLoop]
    simp only [rebase_parsePass]
    split
    · rw [h]
      cases parseLoop cbs fuel (parsePass cbs p).1 with
      | none => rfl
      | some r => rfl
    · rfl

theorem eq_rebase_of_trace (ex : String) (p : CommandLineParser) :
    { p with _exe_name := ex } =
      rebase ({ p with trace := [] } : CommandLineParser)._original_args ex [] [] p.trace
        { p with trace := [] } := by
  simp [rebase]

/-- The loop started on `p` under any program name stops within `unlockCount p + 1` passes
when what its passes register carries no did-set callbacks. -/
theorem parseLoop_bounded_named (cbs : Callbacks) (p : CommandLineParser) (ex : String)
    (hs : optionsSorted p) (hreg : ∀ k, registersNoUnlock cbs (loopEvents cbs k p)) :
    ∃ q k, k ≤ unlockCount p + 1 ∧
      (∀ fuel, unlockCount p + 1 ≤ fuel →
        parseLoop cbs fuel { p with _exe_name := ex } = some (q, k)) ∧
      ∀ j, j + 1 < k →
        unlockCount (runPasses cbs (j + 1) { p with _exe_name := ex }) <
          unlockCount (runPasses cbs j { p with _exe_name := ex }) := by
  obtain ⟨q, k, hk, hfuel, hdec⟩ := parseLoop_bounded cbs (unlockCount p)
    { p with trace := [] } hs (Nat.le_refl _) hreg
  rw [eq_rebase_of_trace ex p]
  refine ⟨rebase p._original_args ex [] [] p.trace q, k, hk, ?_, ?_⟩
  · intro fuel hf
    rw [rebase_parseLoop, hfuel fuel hf]
    rfl
  · intro j hj
    rw [rebase_runPasses, rebase_runPasses]
    exact hdec j hj

theorem modeLevel_registersNoUnlock (events : List Event) :
    registersNoUnlock modeLevelCallbacks events := by
  intro n cb v r _ info hinfo
  simp only [modeLevelCallbacks] at hinfo
  split at hinfo
  · rw [List.mem_singleton] at hinfo
    rw [hinfo]
    rfl
  · exact absurd hinfo (List.not_mem_nil _)

theorem loopUpTo_stop (cbs : Callbacks) (p : CommandLineParser) (k : Nat)
    (h1 : (parsePass cbs p).2 = true)
    (h2 : (parsePass cbs (parsePass cbs p).1).2 = false) :
    loopUpTo cbs (k + 2) p = (parsePass cbs (parsePass cbs p).1).1 := by
  rw [loopUpTo_succ_of_true cbs (k + 1) p h1, loopUpTo]
  simp only [h2, Bool.false_eq_true, if_false]

theorem modeLevel_registersNoSelf (events : List Event)
    (h : ∀ e ∈ events.filter isDidSet,
      ∃ cb value result, e = Event.did_set_value_cb "mode" cb value result) :
    registersNoSelf modeLevelCallbacks events := by
  intro n cb v r he info hinfo hn
  have hname : info.name = "level" := by
    simp only [modeLevelCallbacks] at hinfo
    split at hinfo
    · rw [List.mem_singleton] at hinfo
      rw [hinfo]
      rfl
    · exact absurd hinfo (List.not_mem_nil _)
  obtain ⟨cb2, v2, r2, h2⟩ := h _ (List.mem_filter.2 ⟨he, rfl⟩)
  rw [Event.did_set_value_cb.injEq] at h2
  rw [← hn, hname] at h2
  exact absurd h2.1 (by decide)

/-- In the `mode`/`level` run on `prog --mode advanced` every did-set invocation belongs to a
commit to `mode`, and what it registers is `level`. -/
theorem modeLevel_run_registersNoSelf (k : Nat) :
    registersNoSelf modeLevelCallbacks
      (loopEvents modeLevelCallbacks k (modeLevelParser ["prog", "--mode", "advanced"])) := by
  apply modeLevel_registersNoSelf
  have h0 : (loopEvents modeLevelCallbacks 0
      (modeLevelParser ["prog", "--mode", "advanced"])).filter isDidSet = [] := by decide
  have h1 : (loopEvents modeLevelCallbacks 1
      (modeLevelParser ["prog", "--mode", "advanced"])).filter isDidSet =
      [Event.did_set_value_cb "mode" 1 "advanced" true] := by decide
  have h2 : (loopEvents modeLevelCallbacks 2
      (modeLevelParser ["prog", "--mode", "advanced"])).filter isDidSet =
      [Event.did_set_value_cb "mode" 1 "advanced" true] := by decide
  match k with
  | 0 => rw [h0]; intro e he; exact absurd he (List.not_mem_nil _)
  | 1 => rw [h1]; intro e he; exact ⟨_, _, _, List.mem_singleton.1 he⟩
  | k + 2 =>
    have hk : loopEvents modeLevelCallbacks (k + 2)
        (modeLevelParser ["prog", "--mode", "advanced"]) =
        loopEvents modeLevelCallbacks 2 (modeLevelParser ["prog", "--mode", "advanced"]) := by
      unfold loopEvents
      rw [loopUpTo_stop _ _ k (by decide) (by decide),
        loopUpTo_stop _ _ 0 (by decide) (by decide)]
    rw [hk, h2]
    intro e he
    exact ⟨_, _, _, List.mem_singleton.1 he⟩

/-! ## The claims -/

/-- C1: in the `mode`/`level` scenario, on `prog --mode advanced --level 5` and on
`prog --level 5 --mode advanced` alike, `level` is not registered at the start, `ParseArgs`
has not finished after one pass (the first pass reports `needs_reparse`) and finishes after
the second one, whatever fuel beyond two is given.  At the end `mode` holds `advanced` and
`level` holds `5`; the registry consists of the revealed option `level` as the did-set
callback registered it (name `level`, default `1`, validator `0`, no did-set callbacks) with
current value `5`, and of `mode` with current value `advanced` and its did-set callback
consumed; `level` has been documented after `mode`; and the did-set callback of `mode` has
been invoked exactly once, with `advanced`, returning true. -/
theorem C1_fixed_point_unlocking :
    (∃ p, ParseArgs modeLevelCallbacks 2
          (modeLevelParser ["prog", "--mode", "advanced", "--level", "5"]) = some p ∧
        (p.optionAt "mode").current_value_string = "advanced" ∧
        (p.optionAt "level").current_value_string = "5" ∧
        HasOption "level" (modeLevelParser ["prog", "--mode", "advanced", "--level", "5"]) =
          false ∧
        ParseArgs modeLevelCallbacks 1
          (modeLevelParser ["prog", "--mode", "advanced", "--level", "5"]) = none ∧
        (∀ fuel, 2 ≤ fuel → ParseArgs modeLevelCallbacks fuel
          (modeLevelParser ["prog", "--mode", "advanced", "--level", "5"]) = some p) ∧
        p._options =
          [("level", { OptionInfo.ctor "level" "" "" "1" 0 with current_value_string := "5" }),
            ("mode",
              { OptionInfo.ctor "mode" "" "" "" 0 with current_value_string := "advanced" })] ∧
        p._doc_entries = [⟨DocumentationEntryType.option, "mode"⟩,
          ⟨DocumentationEntryType.option, "level"⟩] ∧
        p.trace.filter isDidSet = [Event.did_set_value_cb "mode" 1 "advanced" true]) ∧
    (∃ p, ParseArgs modeLevelCallbacks 2
          (modeLevelParser ["prog", "--level", "5", "--mode", "advanced"]) = some p ∧
        (p.optionAt "mode").current_value_string = "advanced" ∧
        (p.optionAt "level").current_value_string = "5" ∧
        HasOption "level" (modeLevelParser ["prog", "--level", "5", "--mode", "advanced"]) =
          false ∧
        ParseArgs modeLevelCallbacks 1
          (modeLevelParser ["prog", "--level", "5", "--mode", "advanced"]) = none ∧
        (∀ fuel, 2 ≤ fuel → ParseArgs modeLevelCallbacks fuel
          (modeLevelParser ["prog", "--level", "5", "--mode", "advanced"]) = some p) ∧
        p._options =
          [("level", { OptionInfo.ctor "level" "" "" "1" 0 with current_value_string := "5" }),
            ("mode",
              { OptionInfo.ctor "mode" "" "" "" 0 with current_value_string := "advanced" })] ∧
        p._doc_entries = [⟨DocumentationEntryType.option, "mode"⟩,
          ⟨DocumentationEntryType.option, "level"⟩] ∧
        p.trace.filter isDidSet = [Event.did_set_value_cb "mode" 1 "advanced" true]) := by
  have stop : ∀ (P : CommandLineParser) (fuel : Nat),
      (parsePass modeLevelCallbacks P).2 = true →
      (parsePass modeLevelCallbacks (parsePass modeLevelCallbacks P).1).2 = false →
      2 ≤ fuel → parseLoop modeLevelCallbacks fuel P = parseLoop modeLevelCallbacks 2 P := by
    intro P fuel h1 h2 hf
    obtain ⟨f, rfl⟩ : ∃ f, fuel = f + 2 := ⟨fuel - 2, by omega⟩
    simp only [parseLoop, h1, h2, if_true, Bool.false_eq_true, if_false]
  refine ⟨⟨_, rfl, by decide, by decide, by decide, by decide, ?_, by decide, by decide,
    by decide⟩, ⟨_, rfl, by decide, by decide, by decide, by decide, ?_, by decide, by decide,
    by decide⟩⟩
  · intro fuel hf
    rw [ParseArgs_of_args _ fuel _ "prog" ["--mode", "advanced", "--level", "5"] rfl,
      stop _ fuel (by decide) (by decide) hf]
    rfl
  · intro fuel hf
    rw [ParseArgs_of_args _ fuel _ "prog" ["--level", "5", "--mode", "advanced"] rfl,
      stop _ fuel (by decide) (by decide) hf]
    rfl

/-- C2: when some validator of a registered option rejects the candidate value, `SetOption`
returns false, the registry entry of the option is what it was (so its current value and its
list of did-set callbacks are unchanged), and the events of the call contain no did-set
invocation. -/
theorem C2_rejected_commit_is_atomic (cbs : Callbacks) (p : CommandLineParser)
    (option_name option_val : String) (info : OptionInfo)
    (hreg : mapFind option_name p._options = some info)
    (hrej : ∃ cb ∈ info.set_value_callbacks, cbs.set_value_cb cb option_val = false) :
    (SetOption cbs option_name option_val p).2 = false ∧
    mapFind option_name (SetOption cbs option_name option_val p).1._options = some info ∧
    ((SetOption cbs option_name option_val p).1.optionAt option_name).current_value_string =
      info.current_value_string ∧
    ((SetOption cbs option_name option_val p).1.optionAt option_name).did_set_value_callbacks =
      info.did_set_value_callbacks ∧
    ∃ evs, (SetOption cbs option_name option_val p).1.trace = p.trace ++ evs ∧
      ∀ e ∈ evs, isDidSet e = false := by
  have hat : p.optionAt option_name = info := optionAt_of_find hreg
  have hall : ((p.optionAt option_name).set_value_callbacks.all
      (fun cb => cbs.set_value_cb cb option_val)) = false := by
    rw [hat]
    obtain ⟨cb, hmem, hcb⟩ := hrej
    rw [List.all_eq_false]
    exact ⟨cb, hmem, by simp [hcb]⟩
  obtain ⟨evs, h1, h2⟩ := SetOption_rejected cbs p option_name option_val hall
  have hfind : mapFind option_name (SetOption cbs option_name option_val p).1._options =
      some info := by
    rw [h1]; simp [mapFind_mapInsert_self, hat]
  refine ⟨by rw [h1], hfind, ?_, ?_, Event.set_option option_name option_val :: evs, ?_, ?_⟩
  · rw [optionAt_of_find hfind]
  · rw [optionAt_of_find hfind]
  · rw [h1]
  · intro e he
    rcases List.mem_cons.1 he with h | h
    · rw [h]; rfl
    · obtain ⟨cb, r, rfl⟩ := h2 e h; rfl

/-- Witness of C2: `port` in the `port` scenario, candidate value `abc`. -/
theorem C2_rejected_commit_is_atomic_witness :
    (SetOption portCallbacks "port" "abc" (portParser ["prog"])).2 = false ∧
    mapFind "port" (SetOption portCallbacks "port" "abc" (portParser ["prog"])).1._options =
      some portOption ∧
    ((SetOption portCallbacks "port" "abc" (portParser ["prog"])).1.optionAt
      "port").current_value_string = portOption.current_value_string ∧
    ((SetOption portCallbacks "port" "abc" (portParser ["prog"])).1.optionAt
      "port").did_set_value_callbacks = portOption.did_set_value_callbacks ∧
    ∃ evs, (SetOption portCallbacks "port" "abc" (portParser ["prog"])).1.trace =
        (portParser ["prog"]).trace ++ evs ∧
      ∀ e ∈ evs, isDidSet e = false :=
  C2_rejected_commit_is_atomic portCallbacks (portParser ["prog"]) "port" "abc" portOption
    (by decide) ⟨0, by decide, by decide⟩

/-- C3: when every validator of a registered option accepts the value and no did-set callback
of the option registers the option itself, `SetOption` leaves the value committed, invokes
each did-set callback of the list once, in list order, with that value, keeps exactly the
callbacks that returned false, in their order, and returns true exactly when some callback
returned true; a callback that returned true is no longer in the list. -/
theorem C3_accepted_commit_consumes_unlock_callbacks (cbs : Callbacks)
    (p : CommandLineParser) (option_name option_val : String) (info : OptionInfo)
    (hreg : mapFind option_name p._options = some info)
    (hacc : ∀ cb ∈ info.set_value_callbacks, cbs.set_value_cb cb option_val = true)
    (hself : ∀ cb ∈ info.did_set_value_callbacks,
      ∀ i ∈ (cbs.did_set_value_cb cb option_val).1, i.name ≠ option_name) :
    ((SetOption cbs option_name option_val p).1.optionAt option_name).current_value_string =
      option_val ∧
    (∃ evs, (SetOption cbs option_name option_val p).1.trace = p.trace ++ evs ∧
      evs.filter isDidSet = info.did_set_value_callbacks.map (fun cb =>
        Event.did_set_value_cb option_name cb option_val
          (cbs.did_set_value_cb cb option_val).2)) ∧
    ((SetOption cbs option_name option_val p).1.optionAt option_name).did_set_value_callbacks =
      info.did_set_value_callbacks.filter (fun cb => !(cbs.did_set_value_cb cb option_val).2) ∧
    ((SetOption cbs option_name option_val p).2 = true ↔
      ∃ cb ∈ info.did_set_value_callbacks, (cbs.did_set_value_cb cb option_val).2 = true) ∧
    (∀ cb, (cbs.did_set_value_cb cb option_val).2 = true →
      cb ∉ ((SetOption cbs option_name option_val p).1.optionAt
        option_name).did_set_value_callbacks) := by
  have hat : p.optionAt option_name = info := optionAt_of_find hreg
  have hall : ((p.optionAt option_name).set_value_callbacks.all
      (fun cb => cbs.set_value_cb cb option_val)) = true := by
    rw [hat, List.all_eq_true]
    exact fun cb hcb => hacc cb hcb
  obtain ⟨evs, h1, h2⟩ := SetOption_accepted cbs p option_name option_val hall
  rw [hat] at h1
  have hq : (CommandLineParser.optionAt option_name
      { p with
        _options := mapInsert option_name { info with current_value_string := option_val }
          p._options
        trace := p.trace ++ Event.set_option option_name option_val :: evs }) =
      { info with current_value_string := option_val } := by
    simp [optionAt, mapFind_mapInsert_self]
  obtain ⟨k1, k2, k3⟩ := run_did_set_value_callbacks_exact cbs option_name option_val
    info.did_set_value_callbacks []
    { p with
      _options := mapInsert option_name { info with current_value_string := option_val }
        p._options
      trace := p.trace ++ Event.set_option option_name option_val :: evs } false
    (by rw [hq]; simp) (by rw [hq]) hself
  simp only [List.length_nil, List.nil_append, Bool.false_or] at k1 k2 k3
  rw [← h1] at k1 k2 k3
  rw [hq] at k1
  have hlist : ((SetOption cbs option_name option_val p).1.optionAt
      option_name).did_set_value_callbacks =
      info.did_set_value_callbacks.filter
        (fun cb => !(cbs.did_set_value_cb cb option_val).2) := by rw [k1]
  refine ⟨by rw [k1], ⟨_, k3.trans (List.append_assoc _ _ _), ?_⟩, hlist, ?_, ?_⟩
  · have hv : evs.filter isDidSet = [] := by
      rw [List.filter_eq_nil_iff]
      intro e he
      obtain ⟨cb, r, rfl⟩ := h2 e he
      simp [isDidSet]
    have hd : ∀ l : List CallbackId,
        (l.map (fun cb => Event.did_set_value_cb option_name cb option_val
          (cbs.did_set_value_cb cb option_val).2)).filter isDidSet =
        l.map (fun cb => Event.did_set_value_cb option_name cb option_val
          (cbs.did_set_value_cb cb option_val).2) := by
      intro l
      rw [List.filter_eq_self]
      intro e he
      obtain ⟨cb, _, rfl⟩ := List.mem_map.1 he
      rfl
    simp [List.filter_append, hv, hd, isDidSet]
  · rw [k2, List.any_eq_true]
  · intro cb hcb hmem
    rw [hlist, List.mem_filter] at hmem
    simp [hcb] at hmem

/-- Witness of C3: `mode` in the `mode`/`level` scenario, committed value `advanced`. -/
theorem C3_accepted_commit_consumes_unlock_callbacks_witness :
    ((SetOption modeLevelCallbacks "mode" "advanced" (modeLevelParser ["prog"])).1.optionAt
      "mode").current_value_string = "advanced" ∧
    (∃ evs, (SetOption modeLevelCallbacks "mode" "advanced" (modeLevelParser ["prog"])).1.trace =
        (modeLevelParser ["prog"]).trace ++ evs ∧
      evs.filter isDidSet = modeOption.did_set_value_callbacks.map (fun cb =>
        Event.did_set_value_cb "mode" cb "advanced"
          (modeLevelCallbacks.did_set_value_cb cb "advanced").2)) ∧
    ((SetOption modeLevelCallbacks "mode" "advanced" (modeLevelParser ["prog"])).1.optionAt
      "mode").did_set_value_callbacks =
      modeOption.did_set_value_callbacks.filter
        (fun cb => !(modeLevelCallbacks.did_set_value_cb cb "advanced").2) ∧
    ((SetOption modeLevelCallbacks "mode" "advanced" (modeLevelParser ["prog"])).2 = true ↔
      ∃ cb ∈ modeOption.did_set_value_callbacks,
        (modeLevelCallbacks.did_set_value_cb cb "advanced").2 = true) ∧
    (∀ cb, (modeLevelCallbacks.did_set_value_cb cb "advanced").2 = true →
      cb ∉ ((SetOption modeLevelCallbacks "mode" "advanced" (modeLevelParser ["prog"])).1.optionAt
        "mode").did_set_value_callbacks) :=
  C3_accepted_commit_consumes_unlock_callbacks modeLevelCallbacks (modeLevelParser ["prog"])
    "mode" "advanced" modeOption (by decide) (by decide) (by decide)

/-- Counterexample to C4 as stated: `foo` is registered as the claim says, next to `gate`
whose did-set callback returns true; on `prog --foo bar baz` one pass is not enough and the
parse ends after two passes with the positional arguments `baz`, `baz`. -/
theorem C4_second_pass_counterexample :
    mapFind "foo" (fooGateParser ["prog", "--foo", "bar", "baz"])._options = some fooOption ∧
    fooOption.short_name = "" ∧ fooOption.default_value_string = "" ∧
    fooOption.did_set_value_callbacks = [] ∧
    (∀ cb ∈ fooOption.set_value_callbacks, eagerCallbacks.set_value_cb cb "bar" = true) ∧
    charAt "bar" 0 ≠ '-' ∧ charAt "baz" 0 ≠ '-' ∧
    ParseArgs eagerCallbacks 1 (fooGateParser ["prog", "--foo", "bar", "baz"]) = none ∧
    ∃ q, ParseArgs eagerCallbacks 2 (fooGateParser ["prog", "--foo", "bar", "baz"]) = some q ∧
      (q.optionAt "foo").current_value_string = "bar" ∧
      q._args = ["baz", "baz"] ∧ q._args ≠ ["baz"] :=
  ⟨by decide, by decide, by decide, by decide, by decide, by decide, by decide, by decide,
    _, rfl, by decide, by decide, by decide⟩

/-- C4, amended: when no did-set callback returns true or registers an option, `foo` is
registered and its validators accept `v`, and neither `v` nor `tok` starts with `-`, then on
`prog --foo v tok` the parse ends after one pass with `foo` holding `v` and with `tok`
appended to the positional arguments (whatever alias, default and did-set list `foo`
has). -/
theorem C4_explicit_value_and_positional (cbs : Callbacks) (p : CommandLineParser)
    (v tok : String) (info : OptionInfo)
    (hargs : p._original_args = ["prog", "--foo", v, tok])
    (hfoo : mapFind "foo" p._options = some info)
    (hacc : ∀ cb ∈ info.set_value_callbacks, cbs.set_value_cb cb v = true)
    (hquiet : ∀ cb value, cbs.did_set_value_cb cb value = ([], false))
    (hv : charAt v 0 ≠ '-') (htok : charAt tok 0 ≠ '-') :
    ∃ q, ParseArgs cbs 1 p = some q ∧
      parseLoop cbs 1 { p with _exe_name := exeNameOf "prog" } = some (q, 1) ∧
      (q.optionAt "foo").current_value_string = v ∧
      q._args = p._args ++ [tok] := by
  have hloop : parseLoop cbs 1 { p with _exe_name := exeNameOf "prog" } =
      some ((parsePass cbs { p with _exe_name := exeNameOf "prog" }).1, 1) := by
    simp [parseLoop, parsePass_quiet cbs hquiet]
  obtain ⟨h1, h2⟩ := parsePass_foo cbs { p with _exe_name := exeNameOf "prog" } "prog" v tok
    info hargs hfoo hacc hquiet hv htok
  refine ⟨(parsePass cbs { p with _exe_name := exeNameOf "prog" }).1, ?_, hloop, h1, h2⟩
  rw [ParseArgs_of_args cbs 1 p "prog" _ hargs, hloop]
  rfl

/-- Witness of C4, amended: `foo` alone registered, `v` is `bar` and `tok` is `baz`, with
callbacks whose did-set callbacks never return true. -/
theorem C4_explicit_value_and_positional_witness :
    ∃ q, ParseArgs quietCallbacks 1
        (AddOption fooOption (SetArgs ["prog", "--foo", "bar", "baz"] {})) = some q ∧
      parseLoop quietCallbacks 1
        { AddOption fooOption (SetArgs ["prog", "--foo", "bar", "baz"] {}) with
          _exe_name := exeNameOf "prog" } = some (q, 1) ∧
      (q.optionAt "foo").current_value_string = "bar" ∧
      q._args = (AddOption fooOption (SetArgs ["prog", "--foo", "bar", "baz"] {}))._args ++
        ["baz"] :=
  C4_explicit_value_and_positional quietCallbacks
    (AddOption fooOption (SetArgs ["prog", "--foo", "bar", "baz"] {})) "bar" "baz" fooOption
    rfl (by decide) (by decide) (fun _ _ => rfl) (by decide) (by decide)

/-- C5: when a flag token met by the scan resolves to a name and is the last token or is
followed by a token that starts with `-`, the scan calls `SetOption` on that name with the
literal `true` and goes on with the very next token; when the option is registered, its
validators accept `true` and its did-set callbacks do not register it again, the option
holds `true` right after that call.  On `prog --verbose` with `verbose` registered the parse
ends with `verbose` holding `true`. -/
theorem C5_boolean_switch_shorthand (cbs : Callbacks) (pre rest : List String)
    (flag : String) (st : PassState) (info : OptionInfo)
    (hflag : charAt flag 0 = '-')
    (hname : (resolveOption flag (scanArgs cbs pre false st).parser).1 ≠ "")
    (hnext : ∀ t, rest.head? = some t → charAt t 0 = '-')
    (hreg : mapFind (resolveOption flag (scanArgs cbs pre false st).parser).1
      (scanArgs cbs pre false st).parser._options = some info)
    (hacc : ∀ cb ∈ info.set_value_callbacks, cbs.set_value_cb cb "true" = true)
    (hself : ∀ cb ∈ info.did_set_value_callbacks, ∀ i ∈ (cbs.did_set_value_cb cb "true").1,
      i.name ≠ (resolveOption flag (scanArgs cbs pre false st).parser).1) :
    scanArgs cbs (pre ++ flag :: rest) false st =
      scanArgs cbs rest false
        ⟨(SetOption cbs (resolveOption flag (scanArgs cbs pre false st).parser).1 "true"
            (resolveOption flag (scanArgs cbs pre false st).parser).2).1,
          setErase (resolveOption flag (scanArgs cbs pre false st).parser).1
            (scanArgs cbs pre false st).unset_args,
          (SetOption cbs (resolveOption flag (scanArgs cbs pre false st).parser).1 "true"
            (resolveOption flag (scanArgs cbs pre false st).parser).2).2 ||
            (scanArgs cbs pre false st).needs_reparse⟩ ∧
    ((SetOption cbs (resolveOption flag (scanArgs cbs pre false st).parser).1 "true"
        (resolveOption flag (scanArgs cbs pre false st).parser).2).1.optionAt
      (resolveOption flag (scanArgs cbs pre false st).parser).1).current_value_string =
      "true" ∧
    (∃ q, ParseArgs modeLevelCallbacks 1
        (AddOption (OptionInfo.ctor "verbose" "" "" "" 0) (SetArgs ["prog", "--verbose"] {})) =
          some q ∧
      (q.optionAt "verbose").current_value_string = "true") := by
  obtain ⟨_, _, r3, _⟩ := resolveOption_keeps flag (scanArgs cbs pre false st).parser
  have hat : (resolveOption flag (scanArgs cbs pre false st).parser).2.optionAt
      (resolveOption flag (scanArgs cbs pre false st).parser).1 = info := by
    simp [optionAt, r3, hreg]
  refine ⟨?_, ?_, ⟨_, rfl, by decide⟩⟩
  · rw [scanArgs_append cbs (flag :: rest) (by simp [hflag]) pre false st (fun _ => rfl)]
    simp only [scanArgs]
    rw [scanStep_switch cbs flag rest.head? _ hflag hname hnext]
  · apply SetOption_accepted_value
    · rw [hat]; exact hacc
    · rw [hat]; exact hself

/-- Witness of C5: the token `--verbose` alone, `verbose` registered. -/
theorem C5_boolean_switch_shorthand_witness :
    ((scanPass modeLevelCallbacks
        (AddOption (OptionInfo.ctor "verbose" "" "" "" 0)
          (SetArgs ["prog", "--verbose"] {}))).parser.optionAt
      "verbose").current_value_string = "true" ∧
    (∃ q, ParseArgs modeLevelCallbacks 1
        (AddOption (OptionInfo.ctor "verbose" "" "" "" 0) (SetArgs ["prog", "--verbose"] {})) =
          some q ∧
      (q.optionAt "verbose").current_value_string = "true") :=
  ⟨(C5_boolean_switch_shorthand modeLevelCallbacks [] [] "--verbose"
      ⟨AddOption (OptionInfo.ctor "verbose" "" "" "" 0) (SetArgs ["prog", "--verbose"] {}),
        ["verbose"], false⟩
      (OptionInfo.ctor "verbose" "" "" "" 0)
      (by decide) (by decide) (by simp) (by decide) (by decide) (by decide)).2.1,
   (C5_boolean_switch_shorthand modeLevelCallbacks [] [] "--verbose"
      ⟨AddOption (OptionInfo.ctor "verbose" "" "" "" 0) (SetArgs ["prog", "--verbose"] {}),
        ["verbose"], false⟩
      (OptionInfo.ctor "verbose" "" "" "" 0)
      (by decide) (by decide) (by simp) (by decide) (by decide) (by decide)).2.2⟩

/-- Counterexample to C6 as stated: on an empty registry and the tokens
`prog --nope val x` the parse emits no diagnostic, registers `nope` and commits `val` to
it. -/
theorem C6_unknown_long_option_counterexample :
    HasOption "nope" (SetArgs ["prog", "--nope", "val", "x"] {}) = false ∧
    mapFind "nope" (SetArgs ["prog", "--nope", "val", "x"] {})._short_to_long_name_map = none ∧
    ∃ q, ParseArgs modeLevelCallbacks 1 (SetArgs ["prog", "--nope", "val", "x"] {}) = some q ∧
      (∀ e ∈ q.trace, isUnknownOption e = false) ∧
      q.trace = [Event.set_option "nope" "val"] ∧
      HasOption "nope" q = true ∧
      (q.optionAt "nope").current_value_string = "val" ∧
      q._args = ["x"] :=
  ⟨by decide, by decide, _, rfl, by decide, by decide, by decide, by decide, by decide⟩

/-- C6, amended: a flag token met by the scan whose option name is empty (a short alias that
is absent from the alias table or mapped to the empty name) and which is not the bare `--`
makes the scan emit the diagnostic, leave `_options`, `_args` and `unset_args` as they are
and step over a following token that does not start with `-`; a token `--n` with `n` not
empty names the option `n` whether `n` is registered or not, so the scan emits no diagnostic
for it and calls `SetOption` on `n`.  On an empty registry `prog -nope val x` ends with one
diagnostic, no option and the positional arguments `x`. -/
theorem C6_unknown_option_handling (cbs : Callbacks) (pre rest : List String)
    (flag val : String) (st : PassState) (hflag : charAt flag 0 = '-')
    (hunk : (resolveOption flag (scanArgs cbs pre false st).parser).1 = "")
    (hns : flag ≠ "--") (hval : charAt val 0 ≠ '-') :
    scanArgs cbs (pre ++ flag :: val :: rest) false st =
      scanArgs cbs rest false
        { scanArgs cbs pre false st with
          parser := (resolveOption flag (scanArgs cbs pre false st).parser).2.emit
            (Event.unknown_option flag) } ∧
    (∀ next, scanStep cbs flag next (scanArgs cbs pre false st) =
      ({ scanArgs cbs pre false st with
          parser := (resolveOption flag (scanArgs cbs pre false st).parser).2.emit
            (Event.unknown_option flag) }, nextIsValue next)) ∧
    ((resolveOption flag (scanArgs cbs pre false st).parser).2.emit
        (Event.unknown_option flag))._options = (scanArgs cbs pre false st).parser._options ∧
    ((resolveOption flag (scanArgs cbs pre false st).parser).2.emit
        (Event.unknown_option flag))._args = (scanArgs cbs pre false st).parser._args ∧
    ((resolveOption flag (scanArgs cbs pre false st).parser).2.emit
        (Event.unknown_option flag)).trace =
      (scanArgs cbs pre false st).parser.trace ++ [Event.unknown_option flag] ∧
    (∀ (n : String) (next : Option String) (s : PassState), n ≠ "" →
      resolveOption ("--" ++ n) s.parser = (n, s.parser) ∧
      ∃ evs, (scanStep cbs ("--" ++ n) next s).1.parser.trace = s.parser.trace ++ evs ∧
        (∀ e ∈ evs, isUnknownOption e = false) ∧
        ∃ v, evs.filter isSetOption = [Event.set_option n v]) ∧
    (∃ q, ParseArgs modeLevelCallbacks 1 (SetArgs ["prog", "-nope", "val", "x"] {}) = some q ∧
      q.trace = [Event.unknown_option "-nope"] ∧ q._options = [] ∧ q._args = ["x"]) := by
  obtain ⟨r1, _, r3, r4⟩ := resolveOption_keeps flag (scanArgs cbs pre false st).parser
  refine ⟨?_, fun next => scanStep_unknown cbs flag next _ hflag hunk hns, by simp [r3],
    by simp [r1], by simp [r4], ?_, ⟨_, rfl, by decide, by decide, by decide⟩⟩
  · rw [scanArgs_append cbs (flag :: val :: rest) (by simp [hflag]) pre false st (fun _ => rfl)]
    simp only [scanArgs, List.head?_cons]
    rw [scanStep_unknown cbs flag (some val) _ hflag hunk hns]
    have hb : (charAt val 0 != '-') = true := by simpa using hval
    simp only [nextIsValue, hb, scanArgs]
  · intro n next s hn
    refine ⟨resolveOption_long n s.parser, ?_⟩
    have hname : (resolveOption ("--" ++ n) s.parser).1 ≠ "" := by
      rw [resolveOption_long]; exact hn
    cases next with
    | none =>
      rw [scanStep_switch cbs _ none s (charAt_zero_dashes n) hname (by simp)]
      obtain ⟨evs, hk, h1, h2⟩ := ScanKeeps.commit cbs s (resolveOption ("--" ++ n) s.parser).2
        (resolveOption ("--" ++ n) s.parser).1 "true" (by rw [resolveOption_long])
        (by rw [resolveOption_long]) (by rw [resolveOption_long])
      rw [resolveOption_long] at hk h2
      exact ⟨evs, by simpa [resolveOption_long] using hk.trace, h1, _, h2⟩
    | some t =>
      by_cases ht : charAt t 0 = '-'
      · rw [scanStep_switch cbs _ (some t) s (charAt_zero_dashes n) hname
          (by intro u hu; cases hu; exact ht)]
        obtain ⟨evs, hk, h1, h2⟩ := ScanKeeps.commit cbs s
          (resolveOption ("--" ++ n) s.parser).2
          (resolveOption ("--" ++ n) s.parser).1 "true" (by rw [resolveOption_long])
          (by rw [resolveOption_long]) (by rw [resolveOption_long])
        rw [resolveOption_long] at hk h2
        exact ⟨evs, by simpa [resolveOption_long] using hk.trace, h1, _, h2⟩
      · rw [scanStep_value cbs _ t s (charAt_zero_dashes n) hname ht]
        obtain ⟨evs, hk, h1, h2⟩ := ScanKeeps.commit cbs s
          (resolveOption ("--" ++ n) s.parser).2
          (resolveOption ("--" ++ n) s.parser).1 t (by rw [resolveOption_long])
          (by rw [resolveOption_long]) (by rw [resolveOption_long])
        rw [resolveOption_long] at hk h2
        exact ⟨evs, by simpa [resolveOption_long] using hk.trace, h1, _, h2⟩

/-- Witness of C6, amended: the tokens `-nope val x` scanned from the start of a pass on an
empty registry. -/
theorem C6_unknown_option_handling_witness :
    scanArgs modeLevelCallbacks ["-nope", "val", "x"] false
        ⟨SetArgs ["prog", "-nope", "val", "x"] {}, [], false⟩ =
      scanArgs modeLevelCallbacks ["x"] false
        ⟨(resolveOption "-nope" (SetArgs ["prog", "-nope", "val", "x"] {})).2.emit
          (Event.unknown_option "-nope"), [], false⟩ :=
  (C6_unknown_option_handling modeLevelCallbacks [] ["x"] "-nope" "val"
    ⟨SetArgs ["prog", "-nope", "val", "x"] {}, [], false⟩
    (by decide) (by decide) (by decide) (by decide)).1

/-- Counterexample to C7 as stated: in the `port` scenario on `prog --port abc` the parse
ends with `port` holding the empty string, not `8080`. -/
theorem C7_rollback_counterexample :
    ∃ q, ParseArgs portCallbacks 1 (portParser ["prog", "--port", "abc"]) = some q ∧
      (q.optionAt "port").current_value_string = "" ∧
      (q.optionAt "port").current_value_string ≠ "8080" :=
  ⟨_, rfl, by decide, by decide⟩

/-- C7, amended: in the `port` scenario on `prog --port abc` the parse ends after one pass
with `port` holding the value it held before the parse, which is the empty string; the only
events are the call of `SetOption` with `abc` and the rejecting validator, so the default
`8080` is not committed and no did-set callback is invoked; the did-set callback stays in
the list. -/
theorem C7_rollback_on_rejection :
    ∃ q, ParseArgs portCallbacks 1 (portParser ["prog", "--port", "abc"]) = some q ∧
      (q.optionAt "port").current_value_string =
        ((portParser ["prog", "--port", "abc"]).optionAt "port").current_value_string ∧
      (q.optionAt "port").current_value_string = "" ∧
      (q.optionAt "port").default_value_string = "8080" ∧
      q.trace = [Event.set_option "port" "abc", Event.set_value_cb "port" 0 "abc" false] ∧
      (∀ e ∈ q.trace, isDidSet e = false) ∧
      (q.optionAt "port").did_set_value_callbacks = [1] :=
  ⟨_, rfl, by decide, by decide, by decide, by decide, by decide, by decide⟩

/-- C8: in one pass whose callbacks register no name that is registered when the pass
starts, the trace is the events of the scan followed by the events of the defaults step;
the defaults step calls `SetOption` on a name exactly once, with its default, when the name
was registered at the start of the pass and the scan made no call of `SetOption` on it (no
flag token resolved to it), and not at all otherwise (so not for a name the scan committed
to, and not for a name registered during the pass); an option registered at the start that
the scan committed to has after the pass the entry it had after the scan; and when the last
call the scan makes on such an option carries an explicit value that its validators accept,
the option holds that value when the pass ends. -/
theorem C8_defaults_after_scan (cbs : Callbacks) (p : CommandLineParser)
    (hfresh : ∀ cb value info, info ∈ (cbs.did_set_value_cb cb value).1 →
      mapFind info.name p._options = none) :
    ∃ scanEvs defEvs : List Event,
      (scanPass cbs p).parser.trace = p.trace ++ scanEvs ∧
      (parsePass cbs p).1.trace = p.trace ++ scanEvs ++ defEvs ∧
      (∀ n, defEvs.filter (isSetOptionOf n) =
        if (mapFind n p._options).isSome && !(scanEvs.any (isSetOptionOf n)) then
          [Event.set_option n (p.optionAt n).default_value_string]
        else []) ∧
      (∀ n, (mapFind n p._options).isSome → scanEvs.any (isSetOptionOf n) = true →
        mapFind n (parsePass cbs p).1._options = mapFind n (scanPass cbs p).parser._options) ∧
      (∀ (pre rest : List String) (flag val : String),
        p._original_args.drop 1 = pre ++ flag :: val :: rest →
        charAt flag 0 = '-' → charAt val 0 ≠ '-' →
        (resolveOption flag
          (scanArgs cbs pre false ⟨p, initialUnsetArgs p, false⟩).parser).1 ≠ "" →
        (mapFind (resolveOption flag
          (scanArgs cbs pre false ⟨p, initialUnsetArgs p, false⟩).parser).1 p._options).isSome →
        (∀ cb ∈ ((scanArgs cbs pre false ⟨p, initialUnsetArgs p, false⟩).parser.optionAt
            (resolveOption flag (scanArgs cbs pre false
              ⟨p, initialUnsetArgs p, false⟩).parser).1).set_value_callbacks,
          cbs.set_value_cb cb val = true) →
        (∀ e ∈ (scanArgs cbs rest false (scanStep cbs flag (some val)
              (scanArgs cbs pre false ⟨p, initialUnsetArgs p, false⟩)).1).parser.trace.drop
            (scanStep cbs flag (some val)
              (scanArgs cbs pre false ⟨p, initialUnsetArgs p, false⟩)).1.parser.trace.length,
          isSetOptionOf (resolveOption flag
            (scanArgs cbs pre false ⟨p, initialUnsetArgs p, false⟩).parser).1 e = false) →
        ((parsePass cbs p).1.optionAt (resolveOption flag
          (scanArgs cbs pre false
            ⟨p, initialUnsetArgs p, false⟩).parser).1).current_value_string = val) := by
  obtain ⟨scanEvs, hk⟩ := scanPass_keeps cbs p
  obtain ⟨hmem, hnodup, hkeep, defEvs, htr, hdef⟩ := parsePass_defaults cbs p hfresh scanEvs hk
  refine ⟨scanEvs, defEvs, hk.trace, by rw [htr, hk.trace], ?_, ?_, ?_⟩
  · intro n
    rw [← filter_isSetOptionOf, hdef,
      filter_map_set_option n (fun m => (p.optionAt m).default_value_string) _ hnodup]
    by_cases hn : n ∈ (scanPass cbs p).unset_args
    · have := (hmem n).1 hn
      simp [hn, this.1, this.2]
    · have h2 : ¬ ((mapFind n p._options).isSome = true ∧
          scanEvs.any (isSetOptionOf n) = false) := fun h => hn ((hmem n).2 h)
      have h3 : ((mapFind n p._options).isSome && !(scanEvs.any (isSetOptionOf n))) = false := by
        cases h4 : (mapFind n p._options).isSome
        · rfl
        · cases h5 : scanEvs.any (isSetOptionOf n)
          · exact absurd ⟨h4, h5⟩ h2
          · rfl
      rw [h3]
      simp [hn]
  · intro n hn hev
    apply hkeep n (neverRegisters_of_fresh cbs p hfresh n hn)
    intro h
    have := ((hmem n).1 h).2
    rw [hev] at this
    exact Bool.noConfusion this
  · intro pre rest flag val h1 h2 h3 h4 h5 h6 h7
    exact parsePass_explicit_value cbs p hfresh pre rest flag val h1 h2 h3 h4 h5 h6 h7

/-- Witness of C8: `foo` and `gate` registered, tokens `prog --foo bar`, callbacks that
register nothing: `foo` ends the pass holding `bar`, and the statement of C8 holds there. -/
theorem C8_defaults_after_scan_witness :
    ((parsePass eagerCallbacks (fooGateParser ["prog", "--foo", "bar"])).1.optionAt
      "foo").current_value_string = "bar" ∧
    (parsePass eagerCallbacks (fooGateParser ["prog", "--foo", "bar"])).1.trace =
      [Event.set_option "foo" "bar", Event.set_value_cb "foo" 0 "bar" true,
        Event.set_option "gate" "", Event.set_value_cb "gate" 0 "" true,
        Event.did_set_value_cb "gate" 1 "" true] := by
  obtain ⟨_, _, _, _, _, _, h⟩ := C8_defaults_after_scan eagerCallbacks
    (fooGateParser ["prog", "--foo", "bar"]) (fun _ _ _ hi => by simp [eagerCallbacks] at hi)
  exact ⟨h [] [] "--foo" "bar" rfl (by decide) (by decide) (by decide) (by decide)
    (by decide) (by decide), by decide⟩

/-- C9: at a bare `--` the body of the scan loop changes nothing in the pass state (no
event, no commit, no positional argument) and does not step over the next token; the loop
always reaches a `--` and scans what follows it from the state before it; a following token
that does not start with `-` becomes a positional argument.  On `prog -- file.txt` the parse
ends with the positional arguments `file.txt` and an empty trace. -/
theorem C9_sentinel_is_noop (cbs : Callbacks) (pre rest : List String) (t : String)
    (st : PassState) (ht : charAt t 0 ≠ '-') :
    (∀ next, scanStep cbs "--" next (scanArgs cbs pre false st) =
      (scanArgs cbs pre false st, false)) ∧
    scanArgs cbs (pre ++ "--" :: rest) false st =
      scanArgs cbs rest false (scanArgs cbs pre false st) ∧
    scanArgs cbs (pre ++ "--" :: t :: rest) false st =
      scanArgs cbs rest false
        { scanArgs cbs pre false st with
          parser := { (scanArgs cbs pre false st).parser with
            _args := (scanArgs cbs pre false st).parser._args ++ [t] } } ∧
    (∃ q, ParseArgs modeLevelCallbacks 1 (SetArgs ["prog", "--", "file.txt"] {}) = some q ∧
      q._args = ["file.txt"] ∧ q.trace = []) := by
  have hstep : ∀ (l : List String), scanArgs cbs (pre ++ "--" :: l) false st =
      scanArgs cbs l false (scanArgs cbs pre false st) := by
    intro l
    rw [scanArgs_append cbs ("--" :: l) (by simp [charAt]) pre false st (fun _ => rfl)]
    simp only [scanArgs]
    rw [scanStep_sentinel]
  refine ⟨fun next => scanStep_sentinel cbs next _, hstep rest, ?_, ⟨_, rfl, by decide, by decide⟩⟩
  rw [hstep (t :: rest), scanArgs_cons_positional cbs t rest _ ht]

/-- Witness of C9: the tokens `-- file.txt` scanned from the start of a pass on an empty
registry. -/
theorem C9_sentinel_is_noop_witness :
    (scanArgs modeLevelCallbacks ["--", "file.txt"] false
      ⟨SetArgs ["prog", "--", "file.txt"] {}, [], false⟩).parser._args = ["file.txt"] ∧
    (scanArgs modeLevelCallbacks ["--", "file.txt"] false
      ⟨SetArgs ["prog", "--", "file.txt"] {}, [], false⟩).parser.trace = [] :=
  ⟨congrArg (fun s => s.parser._args)
      (C9_sentinel_is_noop modeLevelCallbacks [] [] "file.txt"
        ⟨SetArgs ["prog", "--", "file.txt"] {}, [], false⟩ (by decide)).2.2.1,
    by decide⟩

/-- C10: the loop never resets `_args`: every pass appends the tokens it collects to what is
already there, so when the loop stops after `k` passes the final `_args` is the initial
`_args` followed by `k` copies of the positional arguments one pass collects. -/
theorem C10_positionals_accumulate (cbs : Callbacks) (fuel : Nat)
    (p q : CommandLineParser) (k : Nat) (h : parseLoop cbs fuel p = some (q, k)) :
    (∀ p1 : CommandLineParser, (parsePass cbs p1).1._args =
      p1._args ++ (parsePass cbs { p1 with _args := [] }).1._args) ∧
    q._args = p._args ++ repeatList (parsePass cbs { p with _args := [] }).1._args k := by
  have h1 : ∀ p1 : CommandLineParser, (parsePass cbs { p1 with _args := [] }).1._args =
      positionalsFrom (p1._original_args.drop 1) false := by
    intro p1
    rw [(parsePass_args cbs _).1]
    simp
  refine ⟨fun p1 => ?_, ?_⟩
  · rw [h1, (parsePass_args cbs p1).1]
  · rw [h1, (parseLoop_args cbs fuel p q k h).1]

/-- Witness of C10: the `mode`/`level` scenario on `prog --mode advanced x` stops after two
passes with the positional arguments `x`, `x`. -/
theorem C10_positionals_accumulate_witness :
    ∃ q, parseLoop modeLevelCallbacks 2
        (modeLevelParser ["prog", "--mode", "advanced", "x"]) = some (q, 2) ∧
      q._args = ["x", "x"] ∧
      (parsePass modeLevelCallbacks
        { modeLevelParser ["prog", "--mode", "advanced", "x"] with _args := [] }).1._args =
        ["x"] ∧
      q._args = (modeLevelParser ["prog", "--mode", "advanced", "x"])._args ++
        repeatList (parsePass modeLevelCallbacks
          { modeLevelParser ["prog", "--mode", "advanced", "x"] with _args := [] }).1._args 2 :=
  ⟨_, rfl, by decide, by decide,
    (C10_positionals_accumulate modeLevelCallbacks 2
      (modeLevelParser ["prog", "--mode", "advanced", "x"]) _ 2 rfl).2⟩

/-- C11: after `AddOption(info)` the entry keyed `info.name` is `info` itself (whatever was
registered under that name before, with its current value and callbacks, is gone),
`HasOption(info.name)` is true, and the entry under every other name is what it was. -/
theorem C11_reregistration_replaces (p : CommandLineParser) (info : OptionInfo) :
    mapFind info.name (AddOption info p)._options = some info ∧
    (AddOption info p).optionAt info.name = info ∧
    HasOption info.name (AddOption info p) = true ∧
    ∀ m, m ≠ info.name → mapFind m (AddOption info p)._options = mapFind m p._options := by
  have h : mapFind info.name (AddOption info p)._options = some info := by
    rw [AddOption_options, mapFind_mapInsert_self]
  refine ⟨h, optionAt_of_find h, by unfold HasOption; rw [h]; rfl, ?_⟩
  intro m hm
  rw [AddOption_options, mapFind_mapInsert_ne _ _ hm]

/-- Counterexample to C12 as stated: with the shared alias `-x` the token `--x` is read as
the long name `x`, so `7` goes to a new entry `x` and not to the second option; and with a
second option whose name is empty the token `-s` is an unknown option. -/
theorem C12_alias_counterexample :
    (mapFind "-x" (AddOption (OptionInfo.ctor "beta" "-x" "" "" 0)
        (AddOption (OptionInfo.ctor "alpha" "-x" "" "" 0)
          (SetArgs ["prog", "-" ++ "-x", "7"] {})))._short_to_long_name_map = some "beta" ∧
      ∃ q, ParseArgs quietCallbacks 1 (AddOption (OptionInfo.ctor "beta" "-x" "" "" 0)
          (AddOption (OptionInfo.ctor "alpha" "-x" "" "" 0)
            (SetArgs ["prog", "-" ++ "-x", "7"] {}))) = some q ∧
        (q.optionAt "beta").current_value_string = "" ∧
        (q.optionAt "x").current_value_string = "7") ∧
    (mapFind "s" (AddOption (OptionInfo.ctor "" "s" "" "" 0)
        (AddOption (OptionInfo.ctor "alpha" "s" "" "" 0)
          (SetArgs ["prog", "-" ++ "s", "7"] {})))._short_to_long_name_map = some "" ∧
      ∃ q, ParseArgs quietCallbacks 1 (AddOption (OptionInfo.ctor "" "s" "" "" 0)
          (AddOption (OptionInfo.ctor "alpha" "s" "" "" 0)
            (SetArgs ["prog", "-" ++ "s", "7"] {}))) = some q ∧
        q.trace.filter isUnknownOption = [Event.unknown_option "-s"] ∧
        (q.optionAt "").current_value_string = "") :=
  ⟨⟨by decide, _, rfl, by decide, by decide⟩, ⟨by decide, _, rfl, by decide, by decide⟩⟩

/-- C12, amended: after `AddOption(A)` and then `AddOption(B)` with the same non-empty alias
`s` and different names, the alias table maps `s` to `B`; when `s` does not start with `-`
and the name of `B` is not empty, the scan at a token `-s` followed by a value `v` calls
`SetOption` on `B` with `v` and steps over `v`; `B` then holds `v` when its validators accept
`v` and its did-set callbacks do not register `B`, and the entry of `A` is untouched when the
callbacks do not register `A`; the token `--A` still names `A`. -/
theorem C12_alias_last_registered_wins (cbs : Callbacks) (p : CommandLineParser)
    (A B : OptionInfo) (v : String) (unset_args : List String) (needs_reparse : Bool)
    (hs : A.short_name = B.short_name) (hne : B.short_name ≠ "") (hab : A.name ≠ B.name)
    (hdash : charAt B.short_name 0 ≠ '-') (hname : B.name ≠ "") (hv : charAt v 0 ≠ '-')
    (hacc : ∀ cb ∈ B.set_value_callbacks, cbs.set_value_cb cb v = true)
    (hself : ∀ cb ∈ B.did_set_value_callbacks, ∀ i ∈ (cbs.did_set_value_cb cb v).1,
      i.name ≠ B.name)
    (hA : neverRegisters cbs A.name) :
    mapFind B.short_name (AddOption B (AddOption A p))._short_to_long_name_map =
      some B.name ∧
    resolveOption ("-" ++ B.short_name) (AddOption B (AddOption A p)) =
      (B.name, AddOption B (AddOption A p)) ∧
    scanStep cbs ("-" ++ B.short_name) (some v)
        ⟨AddOption B (AddOption A p), unset_args, needs_reparse⟩ =
      (⟨(SetOption cbs B.name v (AddOption B (AddOption A p))).1, setErase B.name unset_args,
        (SetOption cbs B.name v (AddOption B (AddOption A p))).2 || needs_reparse⟩, true) ∧
    ((SetOption cbs B.name v (AddOption B (AddOption A p))).1.optionAt
      B.name).current_value_string = v ∧
    mapFind A.name (SetOption cbs B.name v (AddOption B (AddOption A p))).1._options =
      some A ∧
    resolveOption ("--" ++ A.name) (AddOption B (AddOption A p)) =
      (A.name, AddOption B (AddOption A p)) := by
  have halias := alias_after_two A B p hs hne
  have hres := resolveOption_short B.short_name B.name (AddOption B (AddOption A p)) hdash
    halias
  obtain ⟨hfA, hfB⟩ := options_after_two A B p hab
  refine ⟨halias, hres, ?_, ?_, ?_, resolveOption_long _ _⟩
  · have := scanStep_value cbs ("-" ++ B.short_name) v
      ⟨AddOption B (AddOption A p), unset_args, needs_reparse⟩ (charAt_zero_dash _)
      (by rw [hres]; exact hname) hv
    rw [this, hres]
  · apply SetOption_accepted_value
    · rw [optionAt_of_find hfB]; exact hacc
    · rw [optionAt_of_find hfB]; exact hself
  · rw [(SetOption_keeps cbs _ B.name v).1.others A.name hab hA, hfA]

/-- Witness of C12, amended: `alpha` and then `beta` registered under the alias `s`, value
`7`. -/
theorem C12_alias_last_registered_wins_witness :
    ((SetOption quietCallbacks "beta" "7"
        (AddOption (OptionInfo.ctor "beta" "s" "" "" 0)
          (AddOption (OptionInfo.ctor "alpha" "s" "" "" 0) {}))).1.optionAt
      "beta").current_value_string = "7" ∧
    mapFind "alpha" (SetOption quietCallbacks "beta" "7"
        (AddOption (OptionInfo.ctor "beta" "s" "" "" 0)
          (AddOption (OptionInfo.ctor "alpha" "s" "" "" 0) {}))).1._options =
      some (OptionInfo.ctor "alpha" "s" "" "" 0) :=
  ⟨(C12_alias_last_registered_wins quietCallbacks {} (OptionInfo.ctor "alpha" "s" "" "" 0)
      (OptionInfo.ctor "beta" "s" "" "" 0) "7" [] false rfl (by decide) (by decide)
      (by decide) (by decide) (by decide) (by decide) (by decide)
      (neverRegisters_of_quiet quietCallbacks (fun _ _ => rfl) _)).2.2.2.1,
    (C12_alias_last_registered_wins quietCallbacks {} (OptionInfo.ctor "alpha" "s" "" "" 0)
      (OptionInfo.ctor "beta" "s" "" "" 0) "7" [] false rfl (by decide) (by decide)
      (by decide) (by decide) (by decide) (by decide) (by decide)
      (neverRegisters_of_quiet quietCallbacks (fun _ _ => rfl) _)).2.2.2.2.1⟩

/-- C13: when the alias table maps `s`, which does not start with `-`, to the non-empty name
`n` and the callbacks register no option, replacing any of the tokens `-s` after the program
path by `--n` changes nothing in the outcome of `ParseArgs`: with the same fuel it stops or
not alike, and the final parser differs at most in the raw arguments it stores, so the option
values, the positional arguments and the trace (diagnostics included) are the same. -/
theorem C13_short_alias_and_long_name_interchangeable (cbs : Callbacks)
    (p : CommandLineParser) (s n exe : String) (toks toks2 : List String)
    (hnone : ∀ cb value, (cbs.did_set_value_cb cb value).1 = [])
    (hdash : charAt s 0 ≠ '-') (hn : n ≠ "")
    (hmap : mapFind s p._short_to_long_name_map = some n)
    (hargs : p._original_args = exe :: toks)
    (hrel : List.Forall₂ (fun a b => b = a ∨ (a = "-" ++ s ∧ b = "--" ++ n)) toks toks2)
    (fuel : Nat) :
    ParseArgs cbs fuel { p with _original_args := exe :: toks2 } =
      (ParseArgs cbs fuel p).map
        (fun q => { q with _original_args := exe :: toks2, _exe_name := exeNameOf exe }) := by
  have hreb : ∀ q : CommandLineParser, rebase (exe :: toks2) (exeNameOf exe) [] [] [] q =
      { q with _original_args := exe :: toks2, _exe_name := exeNameOf exe } := by
    intro q
    simp [rebase]
  rw [ParseArgs_of_args cbs fuel p exe toks hargs,
    ParseArgs_of_args cbs fuel { p with _original_args := exe :: toks2 } exe toks2 rfl]
  have h1 : ({ ({ p with _original_args := exe :: toks2 } : CommandLineParser) with
      _exe_name := exeNameOf exe } : CommandLineParser) =
      rebase (exe :: toks2) (exeNameOf exe) [] [] [] { p with _exe_name := exeNameOf exe } := by
    simp [rebase]
  rw [h1, parseLoop_short_long cbs hnone s n hdash hn exe (exeNameOf exe) toks toks2 hrel fuel
    { p with _exe_name := exeNameOf exe } hargs hmap]
  cases parseLoop cbs fuel { p with _exe_name := exeNameOf exe } with
  | none => rfl
  | some r => simp [hreb]

/-- Witness of C13: `verbose` with the alias `v`, tokens `-v x` against `--verbose x`. -/
theorem C13_short_alias_and_long_name_interchangeable_witness :
    ParseArgs quietCallbacks 1
        { AddOption (OptionInfo.ctor "verbose" "v" "" "" 0) (SetArgs ["prog", "-v", "x"] {}) with
          _original_args := "prog" :: ["--verbose", "x"] } =
      (ParseArgs quietCallbacks 1
        (AddOption (OptionInfo.ctor "verbose" "v" "" "" 0)
          (SetArgs ["prog", "-v", "x"] {}))).map
        (fun q => { q with
          _original_args := "prog" :: ["--verbose", "x"], _exe_name := exeNameOf "prog" }) :=
  C13_short_alias_and_long_name_interchangeable quietCallbacks
    (AddOption (OptionInfo.ctor "verbose" "v" "" "" 0) (SetArgs ["prog", "-v", "x"] {}))
    "v" "verbose" "prog" ["-v", "x"] ["--verbose", "x"] (fun _ _ => rfl) (by decide)
    (by decide) (by decide) rfl
    (List.Forall₂.cons (Or.inr ⟨rfl, rfl⟩) (List.Forall₂.cons (Or.inl rfl) List.Forall₂.nil))
    1

/-- Counterexample to C14 as stated: `pair` has the validators `0` and `1`, both rejecting
`abc`; `SetOption` invokes `0` only. -/
theorem C14_short_circuit_counterexample :
    pairOption.set_value_callbacks = [0, 1] ∧
    (SetOption portCallbacks "pair" "abc" (AddOption pairOption {})).1.trace =
      [Event.set_option "pair" "abc", Event.set_value_cb "pair" 0 "abc" false] ∧
    (∀ r, Event.set_value_cb "pair" 1 "abc" r ∉
      (SetOption portCallbacks "pair" "abc" (AddOption pairOption {})).1.trace) := by
  decide

/-- C14, amended: on every call of `SetOption` the validators of the option are invoked in
list order with the candidate value, each at most once, up to and including the first that
rejects; the validators after a rejecting one are not invoked.  So when all accept, every
validator is invoked exactly once. -/
theorem C14_validators_until_first_rejection (cbs : Callbacks) (p : CommandLineParser)
    (option_name option_val : String) :
    (∃ evs, (SetOption cbs option_name option_val p).1.trace = p.trace ++ evs ∧
      evs.filter isSetValue =
        (invokedValidators cbs option_val (p.optionAt option_name).set_value_callbacks).map
          (fun cb => Event.set_value_cb option_name cb option_val
            (cbs.set_value_cb cb option_val))) ∧
    (∀ (pre post : List CallbackId) (cb : CallbackId),
      (∀ c ∈ pre, cbs.set_value_cb c option_val = true) →
      cbs.set_value_cb cb option_val = false →
      invokedValidators cbs option_val (pre ++ cb :: post) = pre ++ [cb]) ∧
    (∀ l : List CallbackId, (∀ c ∈ l, cbs.set_value_cb c option_val = true) →
      invokedValidators cbs option_val l = l) := by
  have hall : ∀ l : List CallbackId, (∀ c ∈ l, cbs.set_value_cb c option_val = true) →
      invokedValidators cbs option_val l = l := by
    intro l
    induction l with
    | nil => intro _; rfl
    | cons c t ih =>
      intro h
      unfold invokedValidators
      rw [h c (List.mem_cons_self _ _), if_pos rfl,
        ih (fun d hd => h d (List.mem_cons_of_mem _ hd))]
  refine ⟨?_, ?_, hall⟩
  · obtain ⟨devs, h1, h2⟩ := SetOption_trace cbs p option_name option_val
    refine ⟨_, h1, ?_⟩
    have hd : devs.filter isSetValue = [] := by
      rw [List.filter_eq_nil_iff]
      intro e he
      obtain ⟨cb, w, r, rfl⟩ := h2 e he
      simp [isSetValue]
    have hv : (validatorEvents cbs option_name option_val
        (p.optionAt option_name).set_value_callbacks).filter isSetValue =
        validatorEvents cbs option_name option_val
          (p.optionAt option_name).set_value_callbacks := by
      rw [List.filter_eq_self]
      intro e he
      unfold validatorEvents at he
      obtain ⟨cb, _, rfl⟩ := List.mem_map.1 he
      rfl
    rw [List.filter_cons, List.filter_append, hd, hv]
    simp [isSetValue, validatorEvents]
  · intro pre post cb hpre hcb
    induction pre with
    | nil => simp [invokedValidators, hcb]
    | cons c t ih =>
      have h1 := ih (fun d hd => hpre d (List.mem_cons_of_mem _ hd))
      simp only [List.cons_append, invokedValidators, hpre c (List.mem_cons_self _ _),
        if_true]
      exact congrArg (fun l => c :: l) h1

/-- Counterexample to C15 as stated: in the `mode`/`level` scenario on
`prog --mode advanced --level 5` the first pass ends with `level` holding `5`, and the call
of `SetOption` on `level` is among the events of that pass. -/
theorem C15_same_pass_counterexample :
    ((parsePass modeLevelCallbacks
        (modeLevelParser ["prog", "--mode", "advanced", "--level", "5"])).1.optionAt
      "level").current_value_string = "5" ∧
    (parsePass modeLevelCallbacks
        (modeLevelParser ["prog", "--mode", "advanced", "--level", "5"])).2 = true ∧
    (parsePass modeLevelCallbacks
        (modeLevelParser ["prog", "--mode", "advanced", "--level", "5"])).1.trace =
      [Event.set_option "mode" "advanced", Event.set_value_cb "mode" 0 "advanced" true,
        Event.did_set_value_cb "mode" 1 "advanced" true,
        Event.set_option "level" "5", Event.set_value_cb "level" 0 "5" true] := by
  decide

/-- C15, amended: a token `--n` names the option `n` for the pass that meets it, whether `n`
was registered before the pass, during it or not at all; so in the `mode`/`level` scenario
on `prog --mode advanced --level 5` the first pass, which registers `level` at `--mode`,
commits `5` to `level` at `--level`, and the second pass commits it again.  A reference waits
for the next pass only when it comes before the flag that reveals the option: on
`prog --level 5 --mode advanced` the first pass ends with `level` registered and holding the
empty string, and the second pass commits `5`. -/
theorem C15_revealed_option_resolution :
    (∀ (n : String) (p : CommandLineParser), resolveOption ("--" ++ n) p = (n, p)) ∧
    ((parsePass modeLevelCallbacks
        (modeLevelParser ["prog", "--mode", "advanced", "--level", "5"])).1.optionAt
      "level").current_value_string = "5" ∧
    (parsePass modeLevelCallbacks
        (modeLevelParser ["prog", "--mode", "advanced", "--level", "5"])).2 = true ∧
    ((parsePass modeLevelCallbacks (parsePass modeLevelCallbacks
        (modeLevelParser ["prog", "--mode", "advanced", "--level", "5"])).1).1.trace.filter
      (isSetOptionOf "level")) =
      [Event.set_option "level" "5", Event.set_option "level" "5"] ∧
    (parsePass modeLevelCallbacks
        (modeLevelParser ["prog", "--level", "5", "--mode", "advanced"])).1.optionAt "level" =
      OptionInfo.ctor "level" "" "" "1" 0 ∧
    (parsePass modeLevelCallbacks
        (modeLevelParser ["prog", "--level", "5", "--mode", "advanced"])).2 = true ∧
    ((parsePass modeLevelCallbacks (parsePass modeLevelCallbacks
        (modeLevelParser ["prog", "--level", "5", "--mode", "advanced"])).1).1.optionAt
      "level").current_value_string = "5" ∧
    (parsePass modeLevelCallbacks (parsePass modeLevelCallbacks
        (modeLevelParser ["prog", "--level", "5", "--mode", "advanced"])).1).2 = false :=
  ⟨fun n p => resolveOption_long n p, by decide, by decide, by decide, by decide, by decide,
    by decide, by decide⟩

/-- C16: let the registry be a `std::map` (keys strictly increasing), let every option
registered by a did-set (unlock) callback invoked during the passes of the loop carry no
did-set callbacks, and let no such invocation register the option whose commit invoked it
(there `AddOption` would replace the list under the iterator of `SetOption`, which the source
leaves undefined).  Then the `while (needs_reparse)` loop started on `p` stops after a number
of passes `k` that is at most `U + 1`, where `U = unlockCount p` is the total number of did-set
callbacks over all options at the start: with `U + 1` passes of fuel or more `parseLoop`
returns.  Every pass but the last, that is every pass that reported `needs_reparse = true`,
has strictly lowered the total number of did-set callbacks.  `ParseArgs` returns within `U + 1`
passes as well. -/
theorem C16_passes_bounded_by_unlock_callbacks (cbs : Callbacks) (p : CommandLineParser)
    (hsorted : optionsSorted p)
    (hreg : ∀ k, registersNoUnlock cbs (loopEvents cbs k p))
    (hself : ∀ k, registersNoSelf cbs (loopEvents cbs k p)) :
    (∃ q k, k ≤ unlockCount p + 1 ∧
      (∀ fuel, unlockCount p + 1 ≤ fuel → parseLoop cbs fuel p = some (q, k)) ∧
      ∀ j, j + 1 < k →
        unlockCount (runPasses cbs (j + 1) p) < unlockCount (runPasses cbs j p)) ∧
    ∃ q, ∀ fuel, unlockCount p + 1 ≤ fuel → ParseArgs cbs fuel p = some q := by
  have _ := hself
  refine ⟨parseLoop_bounded_named cbs p p._exe_name hsorted hreg, ?_⟩
  cases horig : p._original_args with
  | nil =>
    refine ⟨p, fun fuel _ => ?_⟩
    unfold ParseArgs
    split
    · rfl
    · rename_i h
      rw [horig] at h
      cases h
  | cons exe_path rest =>
    obtain ⟨q, k, _, hfuel, _⟩ := parseLoop_bounded_named cbs p (exeNameOf exe_path) hsorted hreg
    refine ⟨q, fun fuel hf => ?_⟩
    rw [ParseArgs_of_args cbs fuel p exe_path rest horig, hfuel fuel hf]
    rfl

/-- Witness of C16: in the `mode`/`level` scenario on `prog --mode advanced` the registry
holds one did-set callback, which belongs to `mode` and registers `level` without any; the
loop makes exactly two passes, so the bound `U + 1` is attained. -/
theorem C16_passes_bounded_by_unlock_callbacks_witness :
    optionsSorted (modeLevelParser ["prog", "--mode", "advanced"]) ∧
    unlockCount (modeLevelParser ["prog", "--mode", "advanced"]) = 1 ∧
    (∃ q, ∀ fuel, unlockCount (modeLevelParser ["prog", "--mode", "advanced"]) + 1 ≤ fuel →
      ParseArgs modeLevelCallbacks fuel (modeLevelParser ["prog", "--mode", "advanced"]) =
        some q) ∧
    parseLoop modeLevelCallbacks 1 (modeLevelParser ["prog", "--mode", "advanced"]) = none ∧
    (parseLoop modeLevelCallbacks 2 (modeLevelParser ["prog", "--mode", "advanced"])).map
      (fun r => r.2) = some 2 :=
  ⟨List.pairwise_singleton _ _, by decide,
    (C16_passes_bounded_by_unlock_callbacks modeLevelCallbacks
      (modeLevelParser ["prog", "--mode", "advanced"]) (List.pairwise_singleton _ _)
      (fun _ => modeLevel_registersNoUnlock _) modeLevel_run_registersNoSelf).2,
    by decide, by decide⟩

/-- C17: in the ping-pong scenario (the did-set callback of `A` registers `B` and returns
true, the did-set callback of `B` registers `A` with the same callback and returns true) on
the single token `prog`, every pass ends with `needs_reparse` true, so whatever the number
`n` of passes allowed the loop has not stopped: `ParseArgs` with fuel `n` gives `none`. -/
theorem C17_no_iteration_cap :
    (∀ k, (parsePass pingPongCallbacks (runPasses pingPongCallbacks k
      { pingPongParser with _exe_name := exeNameOf "prog" })).2 = true) ∧
    (∀ n, parseLoop pingPongCallbacks n
      { pingPongParser with _exe_name := exeNameOf "prog" } = none) ∧
    (∀ n, ParseArgs pingPongCallbacks n pingPongParser = none) := by
  obtain ⟨h1, h2, dc, ev, h3⟩ := pingPong_start
  have hloop : ∀ n, parseLoop pingPongCallbacks n
      { pingPongParser with _exe_name := exeNameOf "prog" } = none := by
    intro n
    cases n with
    | zero => rfl
    | succ n =>
      unfold parseLoop
      simp only [h1, if_true]
      cases n with
      | zero => rfl
      | succ n =>
        unfold parseLoop
        simp only [h2, if_true, h3, pingPong_parseLoop, Option.map_none']
  refine ⟨?_, hloop, ?_⟩
  · intro k
    cases k with
    | zero => exact h1
    | succ k =>
      cases k with
      | zero => exact h2
      | succ k =>
        simp only [runPasses, h3]
        exact pingPong_runPasses k _ _ _ _
  · intro n
    rw [ParseArgs_of_args pingPongCallbacks n pingPongParser "prog" [] rfl, hloop]
    rfl

/-- C18: the tokens one pass appends to `_args` are those the rule by index selects from the
raw tokens (index at least 1, no leading `-`, and index 1 or a token before it that has no
leading `-` or is the bare `--`), in input order; the token at index 0 is never selected;
so the scan and the whole pass append the same tokens whatever the callbacks, the registry
and the alias table are. -/
theorem C18_positionals_depend_on_tokens_only (cbs cbs2 : Callbacks)
    (p : CommandLineParser) (options2 : List (String × OptionInfo))
    (aliases2 : List (String × String)) :
    (scanPass cbs p).parser._args = p._args ++ positionalsByRule p._original_args ∧
    (parsePass cbs p).1._args = p._args ++ positionalsByRule p._original_args ∧
    (parsePass cbs2
        { p with _options := options2, _short_to_long_name_map := aliases2 }).1._args =
      (parsePass cbs p).1._args ∧
    (positionalsByRule p._original_args).Sublist (p._original_args.drop 1) ∧
    positionalRule p._original_args 0 = false := by
  have hsub : ∀ (toks : List String) (prev : Option String),
      (positionalsAfter prev toks).Sublist toks := by
    intro toks
    induction toks with
    | nil => intro prev; simp [positionalsAfter]
    | cons t rest ih =>
      intro prev
      unfold positionalsAfter
      split
      · exact (ih (some t)).cons₂ t
      · exact (ih (some t)).cons t
  have hafter : positionalsByRule p._original_args =
      positionalsAfter none (p._original_args.drop 1) := by
    rw [← positionalsFrom_eq_byRule]
    have := positionalsFrom_eq_after (p._original_args.drop 1) none
    simpa using this
  refine ⟨?_, ?_, ?_, ?_, by simp [positionalRule]⟩
  · rw [scanPass_args, positionalsFrom_eq_byRule]
  · rw [(parsePass_args cbs p).1, positionalsFrom_eq_byRule]
  · rw [(parsePass_args cbs p).1, (parsePass_args cbs2 _).1]
  · rw [hafter]
    exact hsub _ _

/-- Counterexample to C19 as stated: `nope` is not a key of the registry, which holds `gate`
with a did-set callback that registers `nope`; on `prog --nope val` the parse ends with the
entry `nope` holding `val` but with the stored name `nope`, the default `d` and a
validator. -/
theorem C19_registered_later_counterexample :
    mapFind "nope" (AddOption gateOption (SetArgs ["prog", "--" ++ "nope", "val"] {}))._options =
      none ∧
    ∃ q, ParseArgs revealNopeCallbacks 2
        (AddOption gateOption (SetArgs ["prog", "--" ++ "nope", "val"] {})) = some q ∧
      (q.optionAt "nope").current_value_string = "val" ∧
      (q.optionAt "nope").name = "nope" ∧
      (q.optionAt "nope").default_value_string = "d" ∧
      (q.optionAt "nope").set_value_callbacks = [0] :=
  ⟨by decide, _, rfl, by decide, by decide, by decide, by decide⟩

/-- C19, amended: when `n` is not empty, is not a key of the registry and is registered by
no callback, and `v` does not start with `-`, then on `exe --n v` every number of passes, at
least one, emits no diagnostic and ends with `n` registered under the default-constructed
entry that holds `v` (empty stored name, default, validators and did-set callbacks); so does
`ParseArgs` whenever it stops.  The body of the scan loop emits the diagnostic only at a
token that starts with a single `-` and whose alias is absent from the alias table or mapped
to the empty name. -/
theorem C19_unregistered_long_name_auto_registered (cbs : Callbacks)
    (p : CommandLineParser) (exe n v : String) (hn : n ≠ "") (hv : charAt v 0 ≠ '-')
    (hargs : p._original_args = [exe, "--" ++ n, v])
    (hkey : mapFind n p._options = none) (hnr : neverRegisters cbs n) :
    (∀ k, mapFind n (runPasses cbs (k + 1) { p with _exe_name := exeNameOf exe })._options =
        some { current_value_string := v } ∧
      HasOption n (runPasses cbs (k + 1) { p with _exe_name := exeNameOf exe }) = true ∧
      ∃ evs, (runPasses cbs (k + 1) { p with _exe_name := exeNameOf exe }).trace =
          p.trace ++ evs ∧ ∀ e ∈ evs, isUnknownOption e = false) ∧
    (∀ fuel q, ParseArgs cbs fuel p = some q →
      mapFind n q._options = some { current_value_string := v } ∧
      HasOption n q = true ∧ (q.optionAt n).current_value_string = v ∧
      (q.optionAt n).name = "" ∧ (q.optionAt n).default_value_string = "" ∧
      (q.optionAt n).set_value_callbacks = [] ∧
      (q.optionAt n).did_set_value_callbacks = [] ∧
      ∃ evs, q.trace = p.trace ++ evs ∧ ∀ e ∈ evs, isUnknownOption e = false) ∧
    (∀ (arg : String) (next : Option String) (st : PassState),
      (∃ e ∈ (scanStep cbs arg next st).1.parser.trace.drop st.parser.trace.length,
        isUnknownOption e = true) →
      charAt arg 0 = '-' ∧ charAt arg 1 ≠ '-' ∧
        (mapFind (dropChars arg 1) st.parser._short_to_long_name_map = none ∨
          mapFind (dropChars arg 1) st.parser._short_to_long_name_map = some "")) := by
  have hrun : ∀ k, mapFind n
        (runPasses cbs (k + 1) { p with _exe_name := exeNameOf exe })._options =
        some { current_value_string := v } ∧
      ∃ evs, (runPasses cbs (k + 1) { p with _exe_name := exeNameOf exe }).trace =
          p.trace ++ evs ∧ ∀ e ∈ evs, isUnknownOption e = false :=
    fun k => runPasses_auto cbs exe n v hn hv hnr k { p with _exe_name := exeNameOf exe }
      hargs (Or.inl hkey)
  refine ⟨?_, ?_, fun arg next st h => scanStep_unknown_only cbs arg next st h⟩
  · intro k
    obtain ⟨h1, h2⟩ := hrun k
    exact ⟨h1, by unfold HasOption; rw [h1]; rfl, h2⟩
  · intro fuel q hq
    rw [ParseArgs_of_args cbs fuel p exe _ hargs] at hq
    cases hl : parseLoop cbs fuel { p with _exe_name := exeNameOf exe } with
    | none => simp [hl] at hq
    | some r =>
      obtain ⟨q1, k⟩ := r
      simp only [hl, Option.map_some', Option.some.injEq] at hq
      subst hq
      obtain ⟨hq1, _⟩ := parseLoop_eq_runPasses cbs fuel _ _ _ hl
      obtain ⟨_, _, hk, _⟩ := parseLoop_args cbs fuel _ _ _ hl
      obtain ⟨j, rfl⟩ : ∃ j, k = j + 1 := ⟨k - 1, by omega⟩
      obtain ⟨h1, h2⟩ := hrun j
      rw [← hq1] at h1 h2
      have hat := optionAt_of_find h1
      refine ⟨h1, by unfold HasOption; rw [h1]; rfl, ?_, ?_, ?_, ?_, ?_, h2⟩ <;> rw [hat]

/-- Witness of C19, amended: `mode` alone registered, tokens `prog --nope val`. -/
theorem C19_unregistered_long_name_auto_registered_witness :
    ∃ q, ParseArgs modeLevelCallbacks 1 (modeLevelParser ["prog", "--" ++ "nope", "val"]) =
        some q ∧
      mapFind "nope" q._options = some { current_value_string := "val" } ∧
      HasOption "nope" q = true ∧ q.trace.filter isUnknownOption = [] :=
  ⟨_, rfl,
    ((C19_unregistered_long_name_auto_registered modeLevelCallbacks
      (modeLevelParser ["prog", "--" ++ "nope", "val"]) "prog" "nope" "val" (by decide)
      (by decide) rfl (by decide)
      (by
        intro cb value info h
        simp only [modeLevelCallbacks] at h
        split at h
        · simp only [List.mem_singleton] at h
          rw [h]
          decide
        · simp at h)).2.1 1 _ rfl).1,
    by decide, by decide⟩

/-- C20: the invariant that every documentation entry of option type names a key of
`_options` whose entry has that key as stored name is kept by `AddOption`,
`AddDocumentationString`, `SetOption`, every number of passes and `ParseArgs` (callbacks
acting on the parser through `AddOption`).  Under the invariant, for every documented option
`PrintUsage` finds `option_name_help_length` at most `longest_name`, so the `size_t` value
`pad_len` is `2 + (longest_name - this_option_name_len)` without wrap-around and is at least
2; the lookups of `PrintUsage` insert nothing. -/
theorem C20_documentation_entries_and_padding (cbs : Callbacks) (p : CommandLineParser)
    (h : DocInvariant p) :
    (∀ info, DocInvariant (AddOption info p)) ∧
    (∀ str, DocInvariant (AddDocumentationString str p)) ∧
    (∀ option_name option_val, DocInvariant (SetOption cbs option_name option_val p).1) ∧
    (∀ k, DocInvariant (runPasses cbs k p)) ∧
    (∀ fuel q, ParseArgs cbs fuel p = some q → DocInvariant q) ∧
    (∀ e ∈ p._doc_entries, e.EntryType = DocumentationEntryType.option →
      option_name_help_length (p.optionAt e.EntryString) ≤ longestName p ∧
      padLen (longestName p) (option_name_help_length (p.optionAt e.EntryString)) =
        2 + (longestName p - option_name_help_length (p.optionAt e.EntryString)) ∧
      2 ≤ padLen (longestName p) (option_name_help_length (p.optionAt e.EntryString))) ∧
    PrintUsage p =
      (("Usage: " ++ p._exe_name ++ " [options]") :: "" ::
        p._doc_entries.map (fun e => (printEntry (longestName p) e p).1), p) := by
  obtain ⟨hl1, hl2⟩ := longestName_spec p
  refine ⟨fun info => DocInvariant_AddOption info p h,
    fun str => DocInvariant_AddDocumentationString str p h,
    fun n v => DocInvariant_SetOption cbs n v p h,
    fun k => DocInvariant_runPasses cbs k p h,
    fun fuel q hq => DocInvariant_ParseArgs cbs fuel p q h hq, ?_, ?_⟩
  · intro e he ht
    obtain ⟨info, h1, h2⟩ := h e he ht
    rw [optionAt_of_find h1]
    have hle := hl2 e.EntryString info h1 h2
    have hpad := padLen_of_le (longestName p) (option_name_help_length info) hle hl1
    exact ⟨hle, hpad, by rw [hpad]; omega⟩
  · unfold PrintUsage
    simp only
    rw [printEntries_of_invariant (longestName p) p p._doc_entries]
    intro e he ht
    obtain ⟨info, h1, _⟩ := h e he ht
    rw [h1]
    rfl

/-- Witness of C20: the parser in which `mode` and then `verbose` (alias `v`, default
`false`) have been registered satisfies the invariant; there `longest_name` is 22, `mode` has
help length 9 and is padded with 15 blanks, and `PrintUsage` leaves the parser as it was. -/
theorem C20_documentation_entries_and_padding_witness :
    DocInvariant (AddOption (OptionInfo.ctor "verbose" "v" "" "false" 0)
      (modeLevelParser ["prog"])) ∧
    (∀ e ∈ (AddOption (OptionInfo.ctor "verbose" "v" "" "false" 0)
        (modeLevelParser ["prog"]))._doc_entries,
      e.EntryType = DocumentationEntryType.option →
      2 ≤ padLen (longestName (AddOption (OptionInfo.ctor "verbose" "v" "" "false" 0)
          (modeLevelParser ["prog"])))
        (option_name_help_length ((AddOption (OptionInfo.ctor "verbose" "v" "" "false" 0)
          (modeLevelParser ["prog"])).optionAt e.EntryString))) ∧
    longestName (AddOption (OptionInfo.ctor "verbose" "v" "" "false" 0)
      (modeLevelParser ["prog"])) = 22 ∧
    option_name_help_length modeOption = 9 ∧
    padLen 22 9 = 15 ∧
    (PrintUsage (AddOption (OptionInfo.ctor "verbose" "v" "" "false" 0)
      (modeLevelParser ["prog"]))).2 =
      AddOption (OptionInfo.ctor "verbose" "v" "" "false" 0) (modeLevelParser ["prog"]) :=
  ⟨DocInvariant_AddOption _ _ (DocInvariant_AddOption _ _
      (fun e he => absurd he (List.not_mem_nil e))),
    fun e he ht => ((C20_documentation_entries_and_padding quietCallbacks
      (AddOption (OptionInfo.ctor "verbose" "v" "" "false" 0) (modeLevelParser ["prog"]))
      (DocInvariant_AddOption _ _ (DocInvariant_AddOption _ _
        (fun e he => absurd he (List.not_mem_nil e))))).2.2.2.2.2.1 e he ht).2.2,
    by decide, by decide, by decide, by decide⟩

end CommandLineParser
end utilities
